import Mathlib

/-!
# flatly: reconciling a package manifest against the installed Flatpak applications

A shallow embedding of the Go sources of `flatly`:

* `src/main.go`: `contains`, `isFlatpakInstalled`, `installFlatpakApplication`,
  `uninstallFlatpakApplication`, `syncPackages`, `getInstalledFlatpakApplications`,
  `readActiveFile`, `createActiveFile`, `updateActiveFile`, the body of the loop of
  `runDaemon`;
* `src/pkg/flatpak/flatpak.go`: `difference`, `InstallFlatpakApplication`,
  `UninstallFlatpakApplication`, `SyncPackages`.

Modelling choices.

* Go strings, command outputs and file contents are texts of Unicode characters
  (`String`); byte sequences that are not UTF-8 are outside the model.
* A `[]string` whose nil-ness the code never observes (`range`, `len`) is its list of
  elements; where nil-ness is observed (`readActiveFile`, `json.MarshalIndent`,
  `previousPackages == nil`) it is a `Slice`.
* The external commands (`flatpak ...`, the backup of `active.json`) are the fields of
  `World`, the file operations on `active.json` those of `Disk`; every function that runs
  them threads the state and returns the events it produced, in order.
* `strings.Split`, `json.MarshalIndent` and `json.Unmarshal` are library functions; they
  are modelled for the arguments the program calls them with.
* What a well-formed encoding of a list of strings is, is said by a grammar of JSON texts
  (`StringListText`, `AcceptedText`) that does not mention the decoder; the decoder is
  proved to take exactly the texts of `AcceptedText`.
-/

namespace Flatly

/-! ## Slices and strings -/

/-- A Go `[]string` with its nil-ness: `none` is the nil slice, `some []` the empty
non-nil slice. -/
abbrev Slice := Option (List String)

/-- The elements of a slice (`range` over a nil slice visits nothing). -/
def Slice.toList : Slice → List String
  | none => []
  | some l => l

/-- Go `len(s)`. -/
def Slice.len (s : Slice) : Nat := s.toList.length

/-- Go `append(s, x)`: the result is never nil. -/
def Slice.push (s : Slice) (x : String) : Slice := some (s.toList ++ [x])

/-- Go `strings.Split(s, "\n")` on the characters of `s`: the segments between
consecutive newline characters, of which there is always at least one. -/
def splitNewline : List Char → List (List Char)
  | [] => [[]]
  | c :: cs =>
    if c = '\n' then [] :: splitNewline cs
    else
      match splitNewline cs with
      | [] => [[c]]
      | seg :: segs => (c :: seg) :: segs

/-- Go `strings.Split(s, "\n")`. -/
def Split (s : String) : List String := (splitNewline s.data).map String.mk

/-! ## The set difference of `src/pkg/flatpak/flatpak.go` -/

/-- The Go `map[string]struct{}` of `difference`, by its lookup function
(`_, found := m[item]`). -/
abbrev StrSet := String → Bool

/-- The statement `m[item] = struct{}{}`. -/
def StrSet.insert (m : StrSet) (item : String) : StrSet :=
  fun k => if k = item then true else m k

/-- The first loop of `difference`: every item of `b` is entered in the map. -/
def buildSet : StrSet → List String → StrSet
  | m, [] => m
  | m, item :: rest => buildSet (m.insert item) rest

/-- The second loop of `difference`: the items of `a` not found in the map, in order. -/
def collectMissing (m : StrSet) : List String → List String
  | [] => []
  | item :: rest =>
    if !(m item) then item :: collectMissing m rest else collectMissing m rest

/-- Go `difference(a, b)` of `src/pkg/flatpak/flatpak.go`. -/
def difference (a b : List String) : List String :=
  collectMissing (buildSet (fun _ => false) b) a

/-! ## The package manager and the event log -/

/-- The environment of the program over a state `σ`: what the external commands print
and do. -/
structure World (σ : Type) where
  /-- Standard output of `flatpak list --app --columns=application`, `none` when the
  command fails. -/
  list : σ → Option String
  /-- Standard output of `flatpak list --app --columns=application <name>`, `none` when
  the command fails. -/
  listApp : σ → String → Option String
  /-- The command `flatpak install --assumeyes <name>`: whether it succeeded, and the
  state it leaves. -/
  install : σ → String → Bool × σ
  /-- The command `flatpak uninstall --assumeyes <name>`. -/
  uninstall : σ → String → Bool × σ
  /-- The copy of `active.json` into the backups directory (`backupActiveFile`). -/
  backup : σ → Bool × σ

/-- Observable events of a run, in program order. -/
inductive Event where
  /-- `backupActiveFile(false)` was called; the flag tells whether it succeeded. -/
  | backup (ok : Bool)
  /-- The line `Package removed: p` was printed. -/
  | removed (p : String)
  /-- The line `Package added: p` was printed. -/
  | added (p : String)
  /-- The presence check `flatpak list --app --columns=application p` was run. -/
  | query (p : String)
  /-- The line `p is already installed. Skipping.` was printed. -/
  | skipInstall (p : String)
  /-- The line `p is not installed. Skipping.` was printed. -/
  | skipUninstall (p : String)
  /-- The command `flatpak install --assumeyes p` was run, with its success. -/
  | install (p : String) (ok : Bool)
  /-- The command `flatpak uninstall --assumeyes p` was run, with its success. -/
  | uninstall (p : String) (ok : Bool)
  deriving DecidableEq

/-- An install or uninstall command of the package manager (as opposed to a print, a
query or a backup). -/
def Event.isCommand : Event → Bool
  | .install _ _ => true
  | .uninstall _ _ => true
  | _ => false

/-- An install or uninstall command that failed. -/
def Event.isFailure : Event → Bool
  | .install _ ok => !ok
  | .uninstall _ ok => !ok
  | _ => false

/-- The package an event is about, if any. -/
def Event.pkg : Event → Option String
  | .backup _ => none
  | .removed p => some p
  | .added p => some p
  | .query p => some p
  | .skipInstall p => some p
  | .skipUninstall p => some p
  | .install p _ => some p
  | .uninstall p _ => some p

/-- Go `error` values of the program, by the place that creates them. -/
inductive Err where
  /-- `failed to install Flatpak package p`. -/
  | installFailed (p : String)
  /-- `failed to uninstall Flatpak package p`. -/
  | uninstallFailed (p : String)
  /-- `failed to get installed Flatpak applications` / `error fetching Flatpak list`. -/
  | listFailed
  /-- `failed to read active.json`. -/
  | readFailed
  /-- `failed to parse active.json`. -/
  | parseFailed
  deriving DecidableEq

/-- What a run leaves: the world state, the events it produced, and the returned Go
`error` (`none` is `nil`). -/
structure Outcome (σ : Type) where
  state : σ
  log : List Event
  err : Option Err

/-! ## `src/main.go`: presence check, install, uninstall, sync -/

/-- Go `contains(list, item)`. -/
def contains : List String → String → Bool
  | [], _ => false
  | s :: rest, item => if s = item then true else contains rest item

/-- Go `isFlatpakInstalled(packageName)`: a failed query means not installed; otherwise
some line of the output equals the name. -/
def isFlatpakInstalled {σ : Type} (w : World σ) (s : σ) (packageName : String) : Bool :=
  match w.listApp s packageName with
  | none => false
  | some output => contains (Split output) packageName

/-- Go `installFlatpakApplication(packageName)`. -/
def installFlatpakApplication {σ : Type} (w : World σ) (s : σ) (packageName : String) :
    Outcome σ :=
  if isFlatpakInstalled w s packageName then
    ⟨s, [Event.query packageName, Event.skipInstall packageName], none⟩
  else
    match w.install s packageName with
    | (true, s1) => ⟨s1, [Event.query packageName, Event.install packageName true], none⟩
    | (false, s1) =>
      ⟨s1, [Event.query packageName, Event.install packageName false],
        some (Err.installFailed packageName)⟩

/-- Go `uninstallFlatpakApplication(packageName)`. -/
def uninstallFlatpakApplication {σ : Type} (w : World σ) (s : σ) (packageName : String) :
    Outcome σ :=
  if !(isFlatpakInstalled w s packageName) then
    ⟨s, [Event.query packageName, Event.skipUninstall packageName], none⟩
  else
    match w.uninstall s packageName with
    | (true, s1) => ⟨s1, [Event.query packageName, Event.uninstall packageName true], none⟩
    | (false, s1) =>
      ⟨s1, [Event.query packageName, Event.uninstall packageName false],
        some (Err.uninstallFailed packageName)⟩

/-- The first loop of `syncPackages`, over the rest of `prevPackages`: a package not in
`currentPackages` is announced and uninstalled; the first error is returned at once. -/
def uninstallLoop {σ : Type} (w : World σ) (currentPackages : List String) :
    σ → List String → Outcome σ
  | s, [] => ⟨s, [], none⟩
  | s, prevPackage :: rest =>
    if !(contains currentPackages prevPackage) then
      let r := uninstallFlatpakApplication w s prevPackage
      match r.err with
      | some e => ⟨r.state, Event.removed prevPackage :: r.log, some e⟩
      | none =>
        let r2 := uninstallLoop w currentPackages r.state rest
        ⟨r2.state, Event.removed prevPackage :: (r.log ++ r2.log), r2.err⟩
    else uninstallLoop w currentPackages s rest

/-- The second loop of `syncPackages`, over the rest of `currentPackages`: a package
not in `prevPackages` is announced and installed; the first error is returned at once. -/
def installLoop {σ : Type} (w : World σ) (prevPackages : List String) :
    σ → List String → Outcome σ
  | s, [] => ⟨s, [], none⟩
  | s, currentPackage :: rest =>
    if !(contains prevPackages currentPackage) then
      let r := installFlatpakApplication w s currentPackage
      match r.err with
      | some e => ⟨r.state, Event.added currentPackage :: r.log, some e⟩
      | none =>
        let r2 := installLoop w prevPackages r.state rest
        ⟨r2.state, Event.added currentPackage :: (r.log ++ r2.log), r2.err⟩
    else installLoop w prevPackages s rest

/-- Go `syncPackages(prevPackages, currentPackages)` of `src/main.go`: the backup (whose
failure is only logged), the uninstall loop, then the install loop. -/
def syncPackages {σ : Type} (w : World σ) (s : σ) (prevPackages currentPackages : List String) :
    Outcome σ :=
  let b := w.backup s
  let r1 := uninstallLoop w currentPackages b.2 prevPackages
  match r1.err with
  | some e => ⟨r1.state, Event.backup b.1 :: r1.log, some e⟩
  | none =>
    let r2 := installLoop w prevPackages r1.state currentPackages
    ⟨r2.state, Event.backup b.1 :: (r1.log ++ r2.log), r2.err⟩

/-! ## A package manager that is a set of installed names -/

/-- The listing of a set of installed names: one name per line. -/
def listing (installed : List String) : String :=
  String.mk (installed.flatMap (fun n => n.data ++ ['\n']))

/-- The package manager as a list of installed names: install adds the name, uninstall
removes it, both succeed except on the names in `broken`, for which the command fails
and changes nothing; the listing prints one installed name per line. -/
def setWorld (broken : List String) : World (List String) where
  list := fun s => some (listing s)
  listApp := fun s _ => some (listing s)
  install := fun s p =>
    if p ∈ broken then (false, s) else (true, if p ∈ s then s else s ++ [p])
  uninstall := fun s p =>
    if p ∈ broken then (false, s) else (true, s.filter (fun q => q ≠ p))
  backup := fun s => (true, s)

/-- A name the line-based presence check can recognise: not empty, no newline. -/
def validName (p : String) : Prop := p ≠ "" ∧ '\n' ∉ p.data

instance (p : String) : Decidable (validName p) := by
  unfold validName; infer_instance

/-! ## `src/main.go`: the list of installed applications -/

/-- The loop of `getInstalledFlatpakApplications` over the rest of the segments: each
non-empty segment is appended to `packages`, which starts as the nil slice. -/
def keepNonEmpty : Slice → List String → Slice
  | packages, [] => packages
  | packages, pkg :: rest =>
    if pkg ≠ "" then keepNonEmpty (packages.push pkg) rest else keepNonEmpty packages rest

/-- Go `getInstalledFlatpakApplications()`: the non-empty lines of the listing, or the
error of the failed command. -/
def getInstalledFlatpakApplications {σ : Type} (w : World σ) (s : σ) : Except Err Slice :=
  match w.list s with
  | none => Except.error Err.listFailed
  | some output => Except.ok (keepNonEmpty none (Split output))

/-- The text whose newline-separated segments are `segs`: the segments with one newline
character between consecutive ones (the inverse reading of "splitting on the newline
character"). -/
def joinNewline : List (List Char) → List Char
  | [] => []
  | [g] => g
  | g :: h :: rest => g ++ '\n' :: joinNewline (h :: rest)

/-! ## `encoding/json` on a `[]string`

`json.MarshalIndent` and `json.Unmarshal` belong to the Go standard library, not to the
repository.  They are modelled here for the one type the program uses them at, `[]string`,
on texts of Unicode characters: the encoder as Go writes a `[]string` with the indent of
four spaces, the decoder by what it leaves in a nil `[]string` variable and whether it
returns an error (which error it is, the program does not look at). -/

/-- The lower-case hexadecimal digit of `n < 16`. -/
def hexDigit (n : Nat) : Char :=
  if n < 10 then Char.ofNat (48 + n) else Char.ofNat (87 + n)

/-- How the encoder writes one character of a string: the quote and the backslash
escaped, the control characters as `\n`, `\r`, `\t`, `\b`, `\f` or `\u00xx`, the three
HTML characters `<`, `>`, `&` and the two separators U+2028, U+2029 as `\uxxxx`, every
other character as itself. -/
def escapeChar (c : Char) : List Char :=
  if c = '"' then ['\\', '"']
  else if c = '\\' then ['\\', '\\']
  else if c = '\n' then ['\\', 'n']
  else if c = '\r' then ['\\', 'r']
  else if c = '\t' then ['\\', 't']
  else if c.toNat = 8 then ['\\', 'b']
  else if c.toNat = 12 then ['\\', 'f']
  else if c.toNat < 32 ∨ c = '<' ∨ c = '>' ∨ c = '&' then
    ['\\', 'u', '0', '0', hexDigit (c.toNat / 16), hexDigit (c.toNat % 16)]
  else if c.toNat = 0x2028 then ['\\', 'u', '2', '0', '2', '8']
  else if c.toNat = 0x2029 then ['\\', 'u', '2', '0', '2', '9']
  else [c]

/-- A JSON string literal for `s`. -/
def quote (s : String) : List Char :=
  '"' :: (s.data.flatMap escapeChar ++ ['"'])

/-- The indent passed to `json.MarshalIndent`: four spaces. -/
def indentUnit : List Char := [' ', ' ', ' ', ' ']

/-- The rest of an indented array after an element: the further elements, each on its
own line after a comma, then the closing bracket on its own line. -/
def marshalTail : List String → List Char
  | [] => ['\n', ']']
  | x :: rest => ',' :: '\n' :: (indentUnit ++ (quote x ++ marshalTail rest))

/-- Go `json.MarshalIndent(v, "", "    ")` for `v` a `[]string`: `null` for the nil
slice, `[]` for the empty one, else one element per line. -/
def marshalIndent : Slice → String
  | none => "null"
  | some [] => "[]"
  | some (x :: rest) =>
    String.mk ('[' :: '\n' :: (indentUnit ++ (quote x ++ marshalTail rest)))

/-- The value of a hexadecimal digit, either case. -/
def hexVal (c : Char) : Option Nat :=
  if 48 ≤ c.toNat ∧ c.toNat ≤ 57 then some (c.toNat - 48)
  else if 97 ≤ c.toNat ∧ c.toNat ≤ 102 then some (c.toNat - 87)
  else if 65 ≤ c.toNat ∧ c.toNat ≤ 70 then some (c.toNat - 55)
  else none

/-- The value of four hexadecimal digits. -/
def hex4 (a b c d : Char) : Option Nat :=
  match hexVal a, hexVal b, hexVal c, hexVal d with
  | some x, some y, some z, some t => some (((x * 16 + y) * 16 + z) * 16 + t)
  | _, _, _, _ => none

/-- The character a one-letter escape stands for. -/
def simpleEscape (e : Char) : Option Char :=
  if e = '"' then some '"'
  else if e = '\\' then some '\\'
  else if e = '/' then some '/'
  else if e = 'b' then some (Char.ofNat 8)
  else if e = 'f' then some (Char.ofNat 12)
  else if e = 'n' then some '\n'
  else if e = 'r' then some '\r'
  else if e = 't' then some '\t'
  else none

/-- U+FFFD, which the decoder puts for a surrogate without its pair. -/
def replacementChar : Char := Char.ofNat 0xFFFD

/-- Put a decoded character in front of the rest of a decoded string. -/
def consChar (c : Char) : Option (List Char × List Char) → Option (List Char × List Char)
  | none => none
  | some (body, rest) => some (c :: body, rest)

/-- The low surrogate written as `\uXXXX` at the start of the text, if there is one. -/
def lowSurrogate (cs : List Char) : Option Nat :=
  match cs with
  | x :: y :: a :: b :: c :: d :: _ =>
    if x = '\\' ∧ y = 'u' then
      match hex4 a b c d with
      | some v => if 0xDC00 ≤ v ∧ v < 0xE000 then some v else none
      | none => none
    else none
  | _ => none

/-- The decoder on an escape, after its backslash: the character it stands for and how
many characters of the text it takes.  A one-letter escape takes one; `uXXXX` takes five
and gives the character of that code, or U+FFFD for a surrogate on its own; a high
surrogate followed by a low one written `\uXXXX` takes eleven and gives the character
of the pair.  `none` for a malformed escape. -/
def decodeEscape (cs : List Char) : Option (Char × Nat) :=
  match cs with
  | [] => none
  | e :: rest1 =>
    if e = 'u' then
      match rest1 with
      | a :: b :: c :: d :: rest2 =>
        match hex4 a b c d with
        | none => none
        | some u =>
          if 0xD800 ≤ u ∧ u < 0xDC00 then
            match lowSurrogate rest2 with
            | some v =>
              some (Char.ofNat (0x10000 + (u - 0xD800) * 0x400 + (v - 0xDC00)), 11)
            | none => some (replacementChar, 5)
          else if 0xDC00 ≤ u ∧ u < 0xE000 then some (replacementChar, 5)
          else some (Char.ofNat u, 5)
      | _ => none
    else
      match simpleEscape e with
      | some ch => some (ch, 1)
      | none => none

/-- The decoder inside a string literal, with `skip` characters of an escape still to
pass over: the decoded characters up to the closing quote and the text after it; `none`
when the literal is malformed (no closing quote, a raw control character, a malformed
escape). -/
def scanStringAux : Nat → List Char → Option (List Char × List Char)
  | _, [] => none
  | skip + 1, _ :: rest => scanStringAux skip rest
  | 0, c :: rest =>
    if c = '"' then some ([], rest)
    else if c = '\\' then
      match decodeEscape rest with
      | some (ch, k) => consChar ch (scanStringAux k rest)
      | none => none
    else if c.toNat < 32 then none
    else consChar c (scanStringAux 0 rest)

/-- The decoder on a string literal, after its opening quote. -/
def scanString (cs : List Char) : Option (List Char × List Char) := scanStringAux 0 cs

/-- JSON white space: space, tab, carriage return, newline. -/
def isSpace (c : Char) : Bool := c = ' ' ∨ c = '\t' ∨ c = '\r' ∨ c = '\n'

/-- Drop leading white space. -/
def skipSpace : List Char → List Char
  | [] => []
  | c :: rest => if isSpace c then skipSpace rest else c :: rest

/-- The text after a leading `null`, if the text starts with it. -/
def afterNull : List Char → Option (List Char)
  | a :: b :: c :: d :: rest =>
    if a = 'n' ∧ b = 'u' ∧ c = 'l' ∧ d = 'l' then some rest else none
  | _ => none

/-- One element of the array as a Go `string`: a string literal gives its value, `null`
leaves the zero value `""`; anything else (a number, a boolean, an object, an array,
malformed text) makes `json.Unmarshal` return an error. -/
def scanElement (cs : List Char) : Option (String × List Char) :=
  match cs with
  | [] => none
  | c :: rest =>
    if c = '"' then
      match scanString rest with
      | some (body, rest1) => some (String.mk body, rest1)
      | none => none
    else
      match afterNull (c :: rest) with
      | some rest1 => some ("", rest1)
      | none => none

/-- The elements of a non-empty array from its first element on, up to the closing
bracket, and the text after it.  `fuel` bounds the number of elements; the length of the
text is always enough. -/
def scanElements : Nat → List Char → Option (List String × List Char)
  | 0, _ => none
  | fuel + 1, cs =>
    match scanElement cs with
    | none => none
    | some (x, rest) =>
      match skipSpace rest with
      | [] => none
      | c :: rest1 =>
        if c = ',' then
          match scanElements fuel (skipSpace rest1) with
          | some (xs, rest2) => some (x :: xs, rest2)
          | none => none
        else if c = ']' then some ([x], rest1)
        else none

/-- Go `json.Unmarshal(data, &packages)` for a nil `packages []string`: the slice it
leaves, or `none` when it returns an error.  `null` leaves the nil slice, `[]` gives the
empty non-nil slice, an array of string literals (and `null`s) its values; white space is
allowed around every token and nothing else may follow the value. -/
def unmarshal (data : List Char) : Option Slice :=
  match afterNull (skipSpace data) with
  | some rest => if skipSpace rest = [] then some none else none
  | none =>
    match skipSpace data with
    | [] => none
    | c :: rest =>
      if c = '[' then
        match skipSpace rest with
        | [] => none
        | c1 :: rest1 =>
          if c1 = ']' then (if skipSpace rest1 = [] then some (some []) else none)
          else
            match scanElements (c1 :: rest1).length (c1 :: rest1) with
            | some (xs, rest2) => if skipSpace rest2 = [] then some (some xs) else none
            | none => none
      else none

/-- Equality of two results of a fallible function is decidable. -/
instance instDecidableEqExcept {ε α : Type} [DecidableEq ε] [DecidableEq α] :
    DecidableEq (Except ε α)
  | Except.ok a, Except.ok b =>
    if h : a = b then isTrue (by rw [h]) else isFalse (fun e => h (Except.ok.inj e))
  | Except.error a, Except.error b =>
    if h : a = b then isTrue (by rw [h]) else isFalse (fun e => h (Except.error.inj e))
  | Except.ok _, Except.error _ => isFalse (fun e => by cases e)
  | Except.error _, Except.ok _ => isFalse (fun e => by cases e)

/-! ## JSON texts of a list of strings

The grammar of RFC 8259 for the texts in question, stated on its own: it names no
function of the decoder above. -/

/-- A text of JSON white space only (space, tab, carriage return, newline). -/
def allSpace (ws : List Char) : Prop :=
  ∀ c ∈ ws, c = ' ' ∨ c = '\t' ∨ c = '\r' ∨ c = '\n'

/-- A hexadecimal digit, either case. -/
def isHexDigit (c : Char) : Prop := c ∈ "0123456789abcdefABCDEF".data

/-- The letters that may follow a backslash in a JSON string, besides `u`. -/
def escapeLetters : List Char := ['"', '\\', '/', 'b', 'f', 'n', 'r', 't']

/-- The text between the quotes of a JSON string literal: characters other than the
quote, the backslash and the control characters below U+0020, one-letter escapes, and
`\u` followed by four hexadecimal digits. -/
inductive StringBody : List Char → Prop where
  | done : StringBody []
  | plain (c : Char) (rest : List Char) :
    c ≠ '"' → c ≠ '\\' → 32 ≤ c.toNat → StringBody rest → StringBody (c :: rest)
  | escape (e : Char) (rest : List Char) :
    e ∈ escapeLetters → StringBody rest → StringBody ('\\' :: e :: rest)
  | unicode (a b c d : Char) (rest : List Char) :
    isHexDigit a → isHexDigit b → isHexDigit c → isHexDigit d → StringBody rest →
    StringBody ('\\' :: 'u' :: a :: b :: c :: d :: rest)

/-- An element of the array: a string literal, or, when `nulls` is set, the literal
`null`. -/
def ElementText (nulls : Bool) (e : List Char) : Prop :=
  (∃ body, StringBody body ∧ e = '"' :: (body ++ ['"'])) ∨
  (nulls = true ∧ e = ['n', 'u', 'l', 'l'])

/-- One or more elements separated by commas, white space allowed after each element and
after each comma. -/
inductive ElementsText (nulls : Bool) : List Char → Prop where
  | last (e ws cs : List Char) :
    ElementText nulls e → allSpace ws → cs = e ++ ws → ElementsText nulls cs
  | more (e ws1 ws2 rest cs : List Char) :
    ElementText nulls e → allSpace ws1 → allSpace ws2 → ElementsText nulls rest →
    cs = e ++ (ws1 ++ ',' :: (ws2 ++ rest)) → ElementsText nulls cs

/-- A JSON array of such elements, white space allowed around every token. -/
def ArrayText (nulls : Bool) (cs : List Char) : Prop :=
  (∃ ws1 ws2 ws3, allSpace ws1 ∧ allSpace ws2 ∧ allSpace ws3 ∧
    cs = ws1 ++ '[' :: (ws2 ++ ']' :: ws3)) ∨
  (∃ ws1 ws2 es ws3, allSpace ws1 ∧ allSpace ws2 ∧ allSpace ws3 ∧ ElementsText nulls es ∧
    cs = ws1 ++ '[' :: (ws2 ++ (es ++ ']' :: ws3)))

/-- A well-formed encoding of a list of strings: a JSON array of string literals. -/
def StringListText (cs : List Char) : Prop := ArrayText false cs

/-- The JSON text `null`, white space allowed around it. -/
def NullText (cs : List Char) : Prop :=
  ∃ ws1 ws2, allSpace ws1 ∧ allSpace ws2 ∧ cs = ws1 ++ ('n' :: 'u' :: 'l' :: 'l' :: ws2)

/-- The texts `json.Unmarshal` takes for a `[]string`: the encodings of a list of
strings, and besides them the text `null` and arrays in which `null` stands for some
elements. -/
def AcceptedText (cs : List Char) : Prop := NullText cs ∨ ArrayText true cs

/-! ## `src/main.go`: `active.json` -/

/-- The outcome of `ioutil.ReadFile` on `active.json`. -/
inductive FileRead where
  /-- The file does not exist (`os.IsNotExist(err)`). -/
  | notExist
  /-- Another read error. -/
  | failed
  /-- The content of the file. -/
  | data (content : String)
  deriving DecidableEq

/-- The file operations of the program over a state `σ`. -/
structure Disk (σ : Type) where
  /-- `os.MkdirAll` of the flatly directory. -/
  mkdirAll : σ → Bool × σ
  /-- `ioutil.ReadFile` of `active.json`. -/
  readActive : σ → FileRead
  /-- `ioutil.WriteFile` of `active.json`. -/
  writeActive : σ → String → Bool × σ

/-- Further Go `error` values: those of the file operations. -/
inductive FileErr where
  /-- An error of `syncPackages` or of the listing. -/
  | run (e : Err)
  /-- `failed to create directory`. -/
  | mkdirFailed
  /-- `failed to write active.json`. -/
  | writeFailed
  deriving DecidableEq

/-- Go `readActiveFile(debug)`: a missing file gives `nil, nil`; any other read error
is returned; the content is decoded only when it is not of length zero, and a decoding
error is returned; otherwise the decoded slice (nil for a zero-length file). -/
def readActiveFile {σ : Type} (d : Disk σ) (s : σ) : Except Err Slice :=
  match d.readActive s with
  | FileRead.notExist => Except.ok none
  | FileRead.failed => Except.error Err.readFailed
  | FileRead.data content =>
    if content.data.length > 0 then
      match unmarshal content.data with
      | none => Except.error Err.parseFailed
      | some packages => Except.ok packages
    else Except.ok none

/-- Go `createActiveFile(debug)`: make the directory, list the installed applications,
write their indented JSON encoding to `active.json`.  Returns the state and the error. -/
def createActiveFile {σ : Type} (w : World σ) (d : Disk σ) (s : σ) : σ × Option FileErr :=
  match d.mkdirAll s with
  | (false, s1) => (s1, some FileErr.mkdirFailed)
  | (true, s1) =>
    match getInstalledFlatpakApplications w s1 with
    | Except.error e => (s1, some (FileErr.run e))
    | Except.ok installedPackages =>
      match d.writeActive s1 (marshalIndent installedPackages) with
      | (false, s2) => (s2, some FileErr.writeFailed)
      | (true, s2) => (s2, none)

/-- Go `updateActiveFile(debug)`: list the installed applications and write their
indented JSON encoding to `active.json`; an error ends the process (`log.Fatalf`). -/
def updateActiveFile {σ : Type} (w : World σ) (d : Disk σ) (s : σ) : σ × Option FileErr :=
  match getInstalledFlatpakApplications w s with
  | Except.error e => (s, some (FileErr.run e))
  | Except.ok installedPackages =>
    match d.writeActive s (marshalIndent installedPackages) with
    | (false, s1) => (s1, some FileErr.writeFailed)
    | (true, s1) => (s1, none)

/-! ## `src/main.go`: one iteration of the daemon loop -/

/-- What one iteration of the `runDaemon` loop leaves: the state, the events, and either
the new `previousPackages` or the error with which `log.Fatalf` ended the process. -/
structure Tick (σ : Type) where
  state : σ
  log : List Event
  next : Except Err Slice

/-- One iteration of the loop of `runDaemon` (before its sleep): read `active.json`, run
`syncPackages` when both lists have elements, set `previousPackages` to the list read. -/
def daemonStep {σ : Type} (w : World σ) (d : Disk σ) (s : σ) (previousPackages : Slice) :
    Tick σ :=
  match readActiveFile d s with
  | Except.error e => ⟨s, [], Except.error e⟩
  | Except.ok currentPackages =>
    if currentPackages.len > 0 ∧ previousPackages.len > 0 then
      let r := syncPackages w s previousPackages.toList currentPackages.toList
      match r.err with
      | some e => ⟨r.state, r.log, Except.error e⟩
      | none => ⟨r.state, r.log, Except.ok currentPackages⟩
    else ⟨s, [], Except.ok currentPackages⟩

/-- The loop of `runDaemon` over finitely many iterations.  The state of the loop is
`previousPackages`; its input is the world each iteration finds, one per iteration:
whatever the user editing `active.json`, the package manager and the earlier iterations
have left.  The run stops at an iteration that ends the process (`log.Fatalf`).  Returns
the events of all iterations and the last `previousPackages`, or the fatal error. -/
def runDaemonLoop {σ : Type} (w : World σ) (d : Disk σ) :
    Slice → List σ → List Event × Except Err Slice
  | previousPackages, [] => ([], Except.ok previousPackages)
  | previousPackages, s :: rest =>
    match (daemonStep w d s previousPackages).next with
    | Except.error e => ((daemonStep w d s previousPackages).log, Except.error e)
    | Except.ok p =>
      ((daemonStep w d s previousPackages).log ++ (runDaemonLoop w d p rest).1,
        (runDaemonLoop w d p rest).2)

/-! ## `src/pkg/flatpak/flatpak.go`: the sync of the package `flatpak` -/

/-- Go `InstallFlatpakApplication(packageName)`: the install command, no presence
check. -/
def InstallFlatpakApplication {σ : Type} (w : World σ) (s : σ) (packageName : String) :
    Outcome σ :=
  match w.install s packageName with
  | (true, s1) => ⟨s1, [Event.install packageName true], none⟩
  | (false, s1) => ⟨s1, [Event.install packageName false], some (Err.installFailed packageName)⟩

/-- Go `UninstallFlatpakApplication(packageName)`: the uninstall command, no presence
check. -/
def UninstallFlatpakApplication {σ : Type} (w : World σ) (s : σ) (packageName : String) :
    Outcome σ :=
  match w.uninstall s packageName with
  | (true, s1) => ⟨s1, [Event.uninstall packageName true], none⟩
  | (false, s1) =>
    ⟨s1, [Event.uninstall packageName false], some (Err.uninstallFailed packageName)⟩

/-- The loop `for _, packageName := range toAdd`: the returned errors are dropped. -/
def installAll {σ : Type} (w : World σ) : σ → List String → σ × List Event
  | s, [] => (s, [])
  | s, packageName :: rest =>
    let r := InstallFlatpakApplication w s packageName
    let r2 := installAll w r.state rest
    (r2.1, r.log ++ r2.2)

/-- The loop `for _, packageName := range toRemove`: the returned errors are dropped. -/
def uninstallAll {σ : Type} (w : World σ) : σ → List String → σ × List Event
  | s, [] => (s, [])
  | s, packageName :: rest =>
    let r := UninstallFlatpakApplication w s packageName
    let r2 := uninstallAll w r.state rest
    (r2.1, r.log ++ r2.2)

/-- Go `SyncPackages(filePath)` of `src/pkg/flatpak/flatpak.go`: read and decode
`active.json` into `currentPackages`, run the listing command, install
`difference(newPackages, currentPackages)` and uninstall
`difference(currentPackages, newPackages)`, dropping the errors of the commands.

The loop that fills `newPackages` from the output of the listing (`for _, line := range
string(output) { newPackages = append(newPackages, line) }`) appends a rune to a
`[]string`, which Go does not accept: the source does not say what the slice holds, so
`newPackages` is a parameter here, and everything below holds for every list. -/
def SyncPackages {σ : Type} (w : World σ) (d : Disk σ) (s : σ) (newPackages : List String) :
    Outcome σ :=
  match d.readActive s with
  | FileRead.notExist => ⟨s, [], some Err.readFailed⟩
  | FileRead.failed => ⟨s, [], some Err.readFailed⟩
  | FileRead.data content =>
    match unmarshal content.data with
    | none => ⟨s, [], some Err.parseFailed⟩
    | some currentPackages =>
      match w.list s with
      | none => ⟨s, [], some Err.listFailed⟩
      | some _ =>
        let toAdd := difference newPackages currentPackages.toList
        let toRemove := difference currentPackages.toList newPackages
        let r1 := installAll w s toAdd
        let r2 := uninstallAll w r1.1 toRemove
        ⟨r2.1, r1.2 ++ r2.2, none⟩

/-! ## A system with a package set and an `active.json` -/

/-- The installed names and the content of `active.json` (`none`: no such file). -/
structure Sys where
  installed : List String
  active : Option String
  deriving DecidableEq

/-- The package manager of `setWorld` on the installed names of a `Sys`; the backup
succeeds when `active.json` exists. -/
def sysWorld (broken : List String) : World Sys where
  list := fun s => some (listing s.installed)
  listApp := fun s _ => some (listing s.installed)
  install := fun s p =>
    (((setWorld broken).install s.installed p).1,
      ⟨((setWorld broken).install s.installed p).2, s.active⟩)
  uninstall := fun s p =>
    (((setWorld broken).uninstall s.installed p).1,
      ⟨((setWorld broken).uninstall s.installed p).2, s.active⟩)
  backup := fun s => (s.active.isSome, s)

/-- A disk on which every operation succeeds: reading gives what was last written. -/
def sysDisk : Disk Sys where
  mkdirAll := fun s => (true, s)
  readActive := fun s =>
    match s.active with
    | none => FileRead.notExist
    | some content => FileRead.data content
  writeActive := fun s content => (true, ⟨s.installed, some content⟩)

/-! ## Membership in `contains` and `difference` -/

theorem contains_eq_true_iff (l : List String) (x : String) :
    contains l x = true ↔ x ∈ l := by
  induction l with
  | nil => simp [contains]
  | cons a l ih =>
    by_cases h : a = x
    · simp [contains, h]
    · have h2 : ¬ x = a := fun e => h e.symm
      simp [contains, h, h2, ih]

theorem contains_eq_false_iff (l : List String) (x : String) :
    contains l x = false ↔ x ∉ l := by
  rw [← contains_eq_true_iff]; simp

theorem buildSet_eq_true_iff (b : List String) (m : StrSet) (k : String) :
    buildSet m b k = true ↔ m k = true ∨ k ∈ b := by
  induction b generalizing m with
  | nil => simp [buildSet]
  | cons a b ih =>
    rw [buildSet, ih]
    by_cases h : k = a
    · simp [StrSet.insert, h]
    · simp [StrSet.insert, h]

theorem mem_collectMissing (m : StrSet) (a : List String) (x : String) :
    x ∈ collectMissing m a ↔ x ∈ a ∧ m x = false := by
  induction a with
  | nil => simp [collectMissing]
  | cons y a ih =>
    by_cases hy : m y = true
    · simp only [collectMissing, hy, Bool.not_true, Bool.false_eq_true, if_false, ih,
        List.mem_cons]
      constructor
      · rintro ⟨h1, h2⟩; exact ⟨Or.inr h1, h2⟩
      · rintro ⟨h1 | h1, h2⟩
        · subst h1; rw [hy] at h2; cases h2
        · exact ⟨h1, h2⟩
    · have hy2 : m y = false := by simpa using hy
      simp only [collectMissing, hy2, Bool.not_false, if_true, List.mem_cons, ih]
      constructor
      · rintro (h1 | ⟨h1, h2⟩)
        · subst h1; exact ⟨Or.inl rfl, hy2⟩
        · exact ⟨Or.inr h1, h2⟩
      · rintro ⟨h1 | h1, h2⟩
        · exact Or.inl h1
        · exact Or.inr ⟨h1, h2⟩

theorem mem_difference (a b : List String) (x : String) :
    x ∈ difference a b ↔ x ∈ a ∧ x ∉ b := by
  unfold difference
  rw [mem_collectMissing]
  have h := buildSet_eq_true_iff b (fun _ => false) x
  constructor
  · rintro ⟨h1, h2⟩
    refine ⟨h1, fun hb => ?_⟩
    have := h.2 (Or.inr hb)
    rw [h2] at this; cases this
  · rintro ⟨h1, h2⟩
    refine ⟨h1, ?_⟩
    cases hc : buildSet (fun _ => false) b x with
    | false => rfl
    | true =>
      rcases h.1 hc with h3 | h3
      · cases h3
      · exact absurd h3 h2

/-! ## The shapes of one install and one uninstall -/

theorem installFlatpakApplication_cases {σ : Type} (w : World σ) (s : σ) (p : String) :
    (isFlatpakInstalled w s p = true ∧
      installFlatpakApplication w s p = ⟨s, [Event.query p, Event.skipInstall p], none⟩) ∨
    (isFlatpakInstalled w s p = false ∧ (w.install s p).1 = true ∧
      installFlatpakApplication w s p =
        ⟨(w.install s p).2, [Event.query p, Event.install p true], none⟩) ∨
    (isFlatpakInstalled w s p = false ∧ (w.install s p).1 = false ∧
      installFlatpakApplication w s p =
        ⟨(w.install s p).2, [Event.query p, Event.install p false],
          some (Err.installFailed p)⟩) := by
  unfold installFlatpakApplication
  cases h : isFlatpakInstalled w s p with
  | true => left; simp
  | false =>
    right
    rcases hi : w.install s p with ⟨ok, s1⟩
    cases ok
    · right; simp
    · left; simp

theorem uninstallFlatpakApplication_cases {σ : Type} (w : World σ) (s : σ) (p : String) :
    (isFlatpakInstalled w s p = false ∧
      uninstallFlatpakApplication w s p =
        ⟨s, [Event.query p, Event.skipUninstall p], none⟩) ∨
    (isFlatpakInstalled w s p = true ∧ (w.uninstall s p).1 = true ∧
      uninstallFlatpakApplication w s p =
        ⟨(w.uninstall s p).2, [Event.query p, Event.uninstall p true], none⟩) ∨
    (isFlatpakInstalled w s p = true ∧ (w.uninstall s p).1 = false ∧
      uninstallFlatpakApplication w s p =
        ⟨(w.uninstall s p).2, [Event.query p, Event.uninstall p false],
          some (Err.uninstallFailed p)⟩) := by
  unfold uninstallFlatpakApplication
  cases h : isFlatpakInstalled w s p with
  | false => left; simp
  | true =>
    right
    rcases hi : w.uninstall s p with ⟨ok, s1⟩
    cases ok
    · right; simp
    · left; simp

/-- Every event of one install is about the installed package. -/
theorem installFlatpakApplication_pkg {σ : Type} (w : World σ) (s : σ) (p : String) :
    ∀ e ∈ (installFlatpakApplication w s p).log, e.pkg = some p ∧ e ≠ Event.removed p := by
  rcases installFlatpakApplication_cases w s p with ⟨_, h⟩ | ⟨_, _, h⟩ | ⟨_, _, h⟩ <;>
    simp [h, Event.pkg]

/-- Every event of one uninstall is about the uninstalled package. -/
theorem uninstallFlatpakApplication_pkg {σ : Type} (w : World σ) (s : σ) (p : String) :
    ∀ e ∈ (uninstallFlatpakApplication w s p).log, e.pkg = some p ∧ e ≠ Event.added p := by
  rcases uninstallFlatpakApplication_cases w s p with ⟨_, h⟩ | ⟨_, _, h⟩ | ⟨_, _, h⟩ <;>
    simp [h, Event.pkg]

/-! ## The two loops of `syncPackages` -/

theorem uninstallLoop_cons {σ : Type} (w : World σ) (cur : List String) (s : σ)
    (p : String) (rest : List String) :
    uninstallLoop w cur s (p :: rest) =
      if !(contains cur p) then
        match (uninstallFlatpakApplication w s p).err with
        | some e =>
          ⟨(uninstallFlatpakApplication w s p).state,
            Event.removed p :: (uninstallFlatpakApplication w s p).log, some e⟩
        | none =>
          ⟨(uninstallLoop w cur (uninstallFlatpakApplication w s p).state rest).state,
            Event.removed p :: ((uninstallFlatpakApplication w s p).log ++
              (uninstallLoop w cur (uninstallFlatpakApplication w s p).state rest).log),
            (uninstallLoop w cur (uninstallFlatpakApplication w s p).state rest).err⟩
      else uninstallLoop w cur s rest := rfl

theorem installLoop_cons {σ : Type} (w : World σ) (prev : List String) (s : σ)
    (p : String) (rest : List String) :
    installLoop w prev s (p :: rest) =
      if !(contains prev p) then
        match (installFlatpakApplication w s p).err with
        | some e =>
          ⟨(installFlatpakApplication w s p).state,
            Event.added p :: (installFlatpakApplication w s p).log, some e⟩
        | none =>
          ⟨(installLoop w prev (installFlatpakApplication w s p).state rest).state,
            Event.added p :: ((installFlatpakApplication w s p).log ++
              (installLoop w prev (installFlatpakApplication w s p).state rest).log),
            (installLoop w prev (installFlatpakApplication w s p).state rest).err⟩
      else installLoop w prev s rest := rfl

/-- Every event of the uninstall loop is about a package of the list that is not in
`cur`, and none is a `Package added` line. -/
theorem uninstallLoop_sound {σ : Type} (w : World σ) (cur l : List String) (s : σ) :
    ∀ e ∈ (uninstallLoop w cur s l).log,
      ∃ p, p ∈ l ∧ p ∉ cur ∧ e.pkg = some p ∧ e ≠ Event.added p := by
  induction l generalizing s with
  | nil => simp [uninstallLoop]
  | cons p rest ih =>
    intro e he
    rw [uninstallLoop_cons] at he
    by_cases hc : contains cur p = true
    · simp only [hc, Bool.not_true, Bool.false_eq_true, if_false] at he
      obtain ⟨q, hq, h2⟩ := ih s e he
      exact ⟨q, List.mem_cons_of_mem _ hq, h2⟩
    · have hc2 : contains cur p = false := by simpa using hc
      have hp : p ∉ cur := (contains_eq_false_iff cur p).1 hc2
      simp only [hc2, Bool.not_false, if_true] at he
      have key : e = Event.removed p ∨ e ∈ (uninstallFlatpakApplication w s p).log ∨
          e ∈ (uninstallLoop w cur (uninstallFlatpakApplication w s p).state rest).log := by
        cases herr : (uninstallFlatpakApplication w s p).err with
        | some e1 =>
          rw [herr] at he
          simp only [List.mem_cons] at he
          rcases he with h | h
          · exact Or.inl h
          · exact Or.inr (Or.inl h)
        | none =>
          rw [herr] at he
          simp only [List.mem_cons, List.mem_append] at he
          rcases he with h | h | h
          · exact Or.inl h
          · exact Or.inr (Or.inl h)
          · exact Or.inr (Or.inr h)
      rcases key with h | h | h
      · subst h
        exact ⟨p, List.mem_cons_self _ _, hp, rfl, by simp⟩
      · have := uninstallFlatpakApplication_pkg w s p e h
        exact ⟨p, List.mem_cons_self _ _, hp, this.1, this.2⟩
      · obtain ⟨q, hq, h2⟩ := ih _ e h
        exact ⟨q, List.mem_cons_of_mem _ hq, h2⟩

/-- Every event of the install loop is about a package of the list that is not in
`prev`, and none is a `Package removed` line. -/
theorem installLoop_sound {σ : Type} (w : World σ) (prev l : List String) (s : σ) :
    ∀ e ∈ (installLoop w prev s l).log,
      ∃ p, p ∈ l ∧ p ∉ prev ∧ e.pkg = some p ∧ e ≠ Event.removed p := by
  induction l generalizing s with
  | nil => simp [installLoop]
  | cons p rest ih =>
    intro e he
    rw [installLoop_cons] at he
    by_cases hc : contains prev p = true
    · simp only [hc, Bool.not_true, Bool.false_eq_true, if_false] at he
      obtain ⟨q, hq, h2⟩ := ih s e he
      exact ⟨q, List.mem_cons_of_mem _ hq, h2⟩
    · have hc2 : contains prev p = false := by simpa using hc
      have hp : p ∉ prev := (contains_eq_false_iff prev p).1 hc2
      simp only [hc2, Bool.not_false, if_true] at he
      have key : e = Event.added p ∨ e ∈ (installFlatpakApplication w s p).log ∨
          e ∈ (installLoop w prev (installFlatpakApplication w s p).state rest).log := by
        cases herr : (installFlatpakApplication w s p).err with
        | some e1 =>
          rw [herr] at he
          simp only [List.mem_cons] at he
          rcases he with h | h
          · exact Or.inl h
          · exact Or.inr (Or.inl h)
        | none =>
          rw [herr] at he
          simp only [List.mem_cons, List.mem_append] at he
          rcases he with h | h | h
          · exact Or.inl h
          · exact Or.inr (Or.inl h)
          · exact Or.inr (Or.inr h)
      rcases key with h | h | h
      · subst h
        exact ⟨p, List.mem_cons_self _ _, hp, rfl, by simp⟩
      · have := installFlatpakApplication_pkg w s p e h
        exact ⟨p, List.mem_cons_self _ _, hp, this.1, this.2⟩
      · obtain ⟨q, hq, h2⟩ := ih _ e h
        exact ⟨q, List.mem_cons_of_mem _ hq, h2⟩

/-- A loop that returns no error has announced every package it had to remove. -/
theorem uninstallLoop_complete {σ : Type} (w : World σ) (cur l : List String) (s : σ)
    (h : (uninstallLoop w cur s l).err = none) :
    ∀ x ∈ l, x ∉ cur → Event.removed x ∈ (uninstallLoop w cur s l).log := by
  induction l generalizing s with
  | nil => simp
  | cons p rest ih =>
    intro x hx hxc
    rw [uninstallLoop_cons] at h ⊢
    by_cases hc : contains cur p = true
    · simp only [hc, Bool.not_true, Bool.false_eq_true, if_false] at h ⊢
      have hp : p ∈ cur := (contains_eq_true_iff cur p).1 hc
      rcases List.mem_cons.1 hx with h1 | h1
      · subst h1; exact absurd hp hxc
      · exact ih s h x h1 hxc
    · have hc2 : contains cur p = false := by simpa using hc
      simp only [hc2, Bool.not_false, if_true] at h ⊢
      cases herr : (uninstallFlatpakApplication w s p).err with
      | some e1 => rw [herr] at h; cases h
      | none =>
        rw [herr] at h
        simp only [List.mem_cons, List.mem_append]
        rcases List.mem_cons.1 hx with h1 | h1
        · subst h1; exact Or.inl rfl
        · exact Or.inr (Or.inr (ih _ h x h1 hxc))

/-- A loop that returns no error has announced every package it had to add. -/
theorem installLoop_complete {σ : Type} (w : World σ) (prev l : List String) (s : σ)
    (h : (installLoop w prev s l).err = none) :
    ∀ x ∈ l, x ∉ prev → Event.added x ∈ (installLoop w prev s l).log := by
  induction l generalizing s with
  | nil => simp
  | cons p rest ih =>
    intro x hx hxc
    rw [installLoop_cons] at h ⊢
    by_cases hc : contains prev p = true
    · simp only [hc, Bool.not_true, Bool.false_eq_true, if_false] at h ⊢
      have hp : p ∈ prev := (contains_eq_true_iff prev p).1 hc
      rcases List.mem_cons.1 hx with h1 | h1
      · subst h1; exact absurd hp hxc
      · exact ih s h x h1 hxc
    · have hc2 : contains prev p = false := by simpa using hc
      simp only [hc2, Bool.not_false, if_true] at h ⊢
      cases herr : (installFlatpakApplication w s p).err with
      | some e1 => rw [herr] at h; cases h
      | none =>
        rw [herr] at h
        simp only [List.mem_cons, List.mem_append]
        rcases List.mem_cons.1 hx with h1 | h1
        · subst h1; exact Or.inl rfl
        · exact Or.inr (Or.inr (ih _ h x h1 hxc))

/-- The log of `syncPackages`: the backup, the uninstall loop, and the install loop when
the uninstall loop returned no error. -/
theorem syncPackages_log {σ : Type} (w : World σ) (s : σ) (prev cur : List String) :
    (syncPackages w s prev cur).log =
      Event.backup (w.backup s).1 :: ((uninstallLoop w cur (w.backup s).2 prev).log ++
        (match (uninstallLoop w cur (w.backup s).2 prev).err with
          | some _ => []
          | none =>
            (installLoop w prev (uninstallLoop w cur (w.backup s).2 prev).state cur).log)) := by
  unfold syncPackages
  cases h : (uninstallLoop w cur (w.backup s).2 prev).err <;> simp [h]

theorem syncPackages_err {σ : Type} (w : World σ) (s : σ) (prev cur : List String) :
    (syncPackages w s prev cur).err =
      (match (uninstallLoop w cur (w.backup s).2 prev).err with
        | some e => some e
        | none =>
          (installLoop w prev (uninstallLoop w cur (w.backup s).2 prev).state cur).err) := by
  unfold syncPackages
  cases h : (uninstallLoop w cur (w.backup s).2 prev).err <;> simp [h]

theorem syncPackages_state {σ : Type} (w : World σ) (s : σ) (prev cur : List String) :
    (syncPackages w s prev cur).state =
      (match (uninstallLoop w cur (w.backup s).2 prev).err with
        | some _ => (uninstallLoop w cur (w.backup s).2 prev).state
        | none =>
          (installLoop w prev (uninstallLoop w cur (w.backup s).2 prev).state cur).state) := by
  unfold syncPackages
  cases h : (uninstallLoop w cur (w.backup s).2 prev).err <;> simp [h]

/-- Every event of `syncPackages` other than the backup is about a package in exactly one
of the two lists. -/
theorem syncPackages_sound {σ : Type} (w : World σ) (s : σ) (prev cur : List String) :
    ∀ e ∈ (syncPackages w s prev cur).log, e = Event.backup (w.backup s).1 ∨
      (∃ p, p ∈ prev ∧ p ∉ cur ∧ e.pkg = some p ∧ e ≠ Event.added p) ∨
      (∃ p, p ∈ cur ∧ p ∉ prev ∧ e.pkg = some p ∧ e ≠ Event.removed p) := by
  intro e he
  rw [syncPackages_log] at he
  simp only [List.mem_cons, List.mem_append] at he
  rcases he with h | h | h
  · exact Or.inl h
  · exact Or.inr (Or.inl (uninstallLoop_sound w cur prev _ e h))
  · right; right
    cases herr : (uninstallLoop w cur (w.backup s).2 prev).err with
    | some e1 => rw [herr] at h; simp at h
    | none =>
      rw [herr] at h
      exact installLoop_sound w prev cur _ e h

/-! ## A run stops at its first failed command -/

/-- The uninstall loop either fails nowhere, or its log ends with the one failed
uninstall whose error it returns. -/
theorem uninstallLoop_stops {σ : Type} (w : World σ) (cur l : List String) (s : σ) :
    ((uninstallLoop w cur s l).err = none ∧
      ∀ e ∈ (uninstallLoop w cur s l).log, e.isFailure = false) ∨
    (∃ pre p, (uninstallLoop w cur s l).log = pre ++ [Event.uninstall p false] ∧
      (∀ e ∈ pre, e.isFailure = false) ∧
      (uninstallLoop w cur s l).err = some (Err.uninstallFailed p)) := by
  induction l generalizing s with
  | nil => left; simp [uninstallLoop]
  | cons p rest ih =>
    rw [uninstallLoop_cons]
    by_cases hc : contains cur p = true
    · simp only [hc, Bool.not_true, Bool.false_eq_true, if_false]
      exact ih s
    · have hc2 : contains cur p = false := by simpa using hc
      simp only [hc2, Bool.not_false, if_true]
      rcases uninstallFlatpakApplication_cases w s p with ⟨_, h⟩ | ⟨_, _, h⟩ | ⟨_, _, h⟩
      · rw [h]
        rcases ih s with ⟨h1, h2⟩ | ⟨pre, q, h1, h2, h3⟩
        · left
          refine ⟨h1, ?_⟩
          intro e he
          simp only [List.mem_cons, List.mem_append] at he
          rcases he with rfl | (rfl | rfl | he) | he
          · rfl
          · rfl
          · rfl
          · cases he
          · exact h2 e he
        · right
          refine ⟨Event.removed p :: Event.query p :: Event.skipUninstall p :: pre, q, ?_, ?_, h3⟩
          · simp [h1]
          · intro e he
            simp only [List.mem_cons] at he
            rcases he with rfl | rfl | rfl | he
            · rfl
            · rfl
            · rfl
            · exact h2 e he
      · rw [h]
        rcases ih (w.uninstall s p).2 with ⟨h1, h2⟩ | ⟨pre, q, h1, h2, h3⟩
        · left
          refine ⟨h1, ?_⟩
          intro e he
          simp only [List.mem_cons, List.mem_append] at he
          rcases he with rfl | (rfl | rfl | he) | he
          · rfl
          · rfl
          · rfl
          · cases he
          · exact h2 e he
        · right
          refine ⟨Event.removed p :: Event.query p :: Event.uninstall p true :: pre, q,
            ?_, ?_, h3⟩
          · simp [h1]
          · intro e he
            simp only [List.mem_cons] at he
            rcases he with rfl | rfl | rfl | he
            · rfl
            · rfl
            · rfl
            · exact h2 e he
      · rw [h]
        right
        refine ⟨[Event.removed p, Event.query p], p, by simp, ?_, rfl⟩
        intro e he
        simp only [List.mem_cons] at he
        rcases he with rfl | rfl | he
        · rfl
        · rfl
        · cases he

/-- The install loop either fails nowhere, or its log ends with the one failed install
whose error it returns. -/
theorem installLoop_stops {σ : Type} (w : World σ) (prev l : List String) (s : σ) :
    ((installLoop w prev s l).err = none ∧
      ∀ e ∈ (installLoop w prev s l).log, e.isFailure = false) ∨
    (∃ pre p, (installLoop w prev s l).log = pre ++ [Event.install p false] ∧
      (∀ e ∈ pre, e.isFailure = false) ∧
      (installLoop w prev s l).err = some (Err.installFailed p)) := by
  induction l generalizing s with
  | nil => left; simp [installLoop]
  | cons p rest ih =>
    rw [installLoop_cons]
    by_cases hc : contains prev p = true
    · simp only [hc, Bool.not_true, Bool.false_eq_true, if_false]
      exact ih s
    · have hc2 : contains prev p = false := by simpa using hc
      simp only [hc2, Bool.not_false, if_true]
      rcases installFlatpakApplication_cases w s p with ⟨_, h⟩ | ⟨_, _, h⟩ | ⟨_, _, h⟩
      · rw [h]
        rcases ih s with ⟨h1, h2⟩ | ⟨pre, q, h1, h2, h3⟩
        · left
          refine ⟨h1, ?_⟩
          intro e he
          simp only [List.mem_cons, List.mem_append] at he
          rcases he with rfl | (rfl | rfl | he) | he
          · rfl
          · rfl
          · rfl
          · cases he
          · exact h2 e he
        · right
          refine ⟨Event.added p :: Event.query p :: Event.skipInstall p :: pre, q, ?_, ?_, h3⟩
          · simp [h1]
          · intro e he
            simp only [List.mem_cons] at he
            rcases he with rfl | rfl | rfl | he
            · rfl
            · rfl
            · rfl
            · exact h2 e he
      · rw [h]
        rcases ih (w.install s p).2 with ⟨h1, h2⟩ | ⟨pre, q, h1, h2, h3⟩
        · left
          refine ⟨h1, ?_⟩
          intro e he
          simp only [List.mem_cons, List.mem_append] at he
          rcases he with rfl | (rfl | rfl | he) | he
          · rfl
          · rfl
          · rfl
          · cases he
          · exact h2 e he
        · right
          refine ⟨Event.added p :: Event.query p :: Event.install p true :: pre, q,
            ?_, ?_, h3⟩
          · simp [h1]
          · intro e he
            simp only [List.mem_cons] at he
            rcases he with rfl | rfl | rfl | he
            · rfl
            · rfl
            · rfl
            · exact h2 e he
      · rw [h]
        right
        refine ⟨[Event.added p, Event.query p], p, by simp, ?_, rfl⟩
        intro e he
        simp only [List.mem_cons] at he
        rcases he with rfl | rfl | he
        · rfl
        · rfl
        · cases he

/-- The same for the whole of `syncPackages`. -/
theorem syncPackages_stops {σ : Type} (w : World σ) (s : σ) (prev cur : List String) :
    ((syncPackages w s prev cur).err = none ∧
      ∀ e ∈ (syncPackages w s prev cur).log, e.isFailure = false) ∨
    (∃ pre f err, (syncPackages w s prev cur).log = pre ++ [f] ∧
      (∀ e ∈ pre, e.isFailure = false) ∧ (syncPackages w s prev cur).err = some err ∧
      ((∃ p, p ∈ prev ∧ p ∉ cur ∧ f = Event.uninstall p false ∧
          err = Err.uninstallFailed p) ∨
       (∃ p, p ∈ cur ∧ p ∉ prev ∧ f = Event.install p false ∧
          err = Err.installFailed p))) := by
  rw [syncPackages_log, syncPackages_err]
  rcases uninstallLoop_stops w cur prev (w.backup s).2 with ⟨h1, h2⟩ | ⟨pre, q, h1, h2, h3⟩
  · rw [h1]
    rcases installLoop_stops w prev cur (uninstallLoop w cur (w.backup s).2 prev).state with
      ⟨k1, k2⟩ | ⟨pre, q, k1, k2, k3⟩
    · left
      refine ⟨k1, ?_⟩
      intro e he
      simp only [List.mem_cons, List.mem_append] at he
      rcases he with rfl | he | he
      · rfl
      · exact h2 e he
      · exact k2 e he
    · right
      have hq : q ∈ cur ∧ q ∉ prev := by
        obtain ⟨r, r1, r2, r3, _⟩ := installLoop_sound w prev cur
          (uninstallLoop w cur (w.backup s).2 prev).state (Event.install q false)
          (by rw [k1]; simp)
        simp only [Event.pkg, Option.some.injEq] at r3
        subst r3; exact ⟨r1, r2⟩
      refine ⟨Event.backup (w.backup s).1 ::
        ((uninstallLoop w cur (w.backup s).2 prev).log ++ pre), Event.install q false,
        Err.installFailed q, ?_, ?_, k3, Or.inr ⟨q, hq.1, hq.2, rfl, rfl⟩⟩
      · simp [k1]
      · intro e he
        simp only [List.mem_cons, List.mem_append] at he
        rcases he with rfl | he | he
        · rfl
        · exact h2 e he
        · exact k2 e he
  · rw [h3]
    right
    have hq : q ∈ prev ∧ q ∉ cur := by
      obtain ⟨r, r1, r2, r3, _⟩ := uninstallLoop_sound w cur prev (w.backup s).2
        (Event.uninstall q false) (by rw [h1]; simp)
      simp only [Event.pkg, Option.some.injEq] at r3
      subst r3; exact ⟨r1, r2⟩
    refine ⟨Event.backup (w.backup s).1 :: pre, Event.uninstall q false,
      Err.uninstallFailed q, ?_, ?_, rfl, Or.inl ⟨q, hq.1, hq.2, rfl, rfl⟩⟩
    · simp [h1]
    · intro e he
      simp only [List.mem_cons] at he
      rcases he with rfl | he
      · rfl
      · exact h2 e he

/-- A run of `syncPackages` that returns no error has announced every package of both
deltas. -/
theorem syncPackages_complete {σ : Type} (w : World σ) (s : σ) (prev cur : List String)
    (h : (syncPackages w s prev cur).err = none) :
    (∀ x ∈ prev, x ∉ cur → Event.removed x ∈ (syncPackages w s prev cur).log) ∧
    (∀ x ∈ cur, x ∉ prev → Event.added x ∈ (syncPackages w s prev cur).log) := by
  rw [syncPackages_err] at h
  rw [syncPackages_log]
  cases h1 : (uninstallLoop w cur (w.backup s).2 prev).err with
  | some e => rw [h1] at h; cases h
  | none =>
    rw [h1] at h
    constructor
    · intro x hx hxc
      simp only [List.mem_cons, List.mem_append]
      exact Or.inr (Or.inl (uninstallLoop_complete w cur prev _ h1 x hx hxc))
    · intro x hx hxc
      simp only [List.mem_cons, List.mem_append]
      exact Or.inr (Or.inr (installLoop_complete w prev cur _ h x hx hxc))

/-! ## A run without error attempts every selected package -/

/-- In a loop that returns no error, every package to remove has its announcement, its
presence check and then either the skip line or the successful uninstall command, next
to each other in the log. -/
theorem uninstallLoop_attempts {σ : Type} (w : World σ) (cur l : List String) (s : σ)
    (h : (uninstallLoop w cur s l).err = none) :
    ∀ x ∈ l, x ∉ cur → ∃ pre post e,
      (uninstallLoop w cur s l).log =
        pre ++ Event.removed x :: Event.query x :: e :: post ∧
      (e = Event.skipUninstall x ∨ e = Event.uninstall x true) := by
  induction l generalizing s with
  | nil => simp
  | cons p rest ih =>
    intro x hx hxc
    rw [uninstallLoop_cons] at h ⊢
    by_cases hc : contains cur p = true
    · simp only [hc, Bool.not_true, Bool.false_eq_true, if_false] at h ⊢
      have hp : p ∈ cur := (contains_eq_true_iff cur p).1 hc
      rcases List.mem_cons.1 hx with h1 | h1
      · subst h1; exact absurd hp hxc
      · exact ih s h x h1 hxc
    · have hc2 : contains cur p = false := by simpa using hc
      simp only [hc2, Bool.not_false, if_true] at h ⊢
      rcases uninstallFlatpakApplication_cases w s p with ⟨_, k⟩ | ⟨_, _, k⟩ | ⟨_, _, k⟩
      · rw [k] at h ⊢
        simp only at h ⊢
        by_cases hxp : x = p
        · subst hxp
          exact ⟨[], _, Event.skipUninstall x, rfl, Or.inl rfl⟩
        · have hxr : x ∈ rest := by
            rcases List.mem_cons.1 hx with h1 | h1
            · exact absurd h1 hxp
            · exact h1
          obtain ⟨pre, post, e, h1, h2⟩ := ih s h x hxr hxc
          refine ⟨Event.removed p :: Event.query p :: Event.skipUninstall p :: pre, post, e,
            ?_, h2⟩
          rw [h1]
          simp
      · rw [k] at h ⊢
        simp only at h ⊢
        by_cases hxp : x = p
        · subst hxp
          exact ⟨[], _, Event.uninstall x true, rfl, Or.inr rfl⟩
        · have hxr : x ∈ rest := by
            rcases List.mem_cons.1 hx with h1 | h1
            · exact absurd h1 hxp
            · exact h1
          obtain ⟨pre, post, e, h1, h2⟩ := ih _ h x hxr hxc
          refine ⟨Event.removed p :: Event.query p :: Event.uninstall p true :: pre, post, e,
            ?_, h2⟩
          rw [h1]
          simp
      · rw [k] at h
        cases h

/-- In a loop that returns no error, every package to add has its announcement, its
presence check and then either the skip line or the successful install command, next to
each other in the log. -/
theorem installLoop_attempts {σ : Type} (w : World σ) (prev l : List String) (s : σ)
    (h : (installLoop w prev s l).err = none) :
    ∀ x ∈ l, x ∉ prev → ∃ pre post e,
      (installLoop w prev s l).log =
        pre ++ Event.added x :: Event.query x :: e :: post ∧
      (e = Event.skipInstall x ∨ e = Event.install x true) := by
  induction l generalizing s with
  | nil => simp
  | cons p rest ih =>
    intro x hx hxc
    rw [installLoop_cons] at h ⊢
    by_cases hc : contains prev p = true
    · simp only [hc, Bool.not_true, Bool.false_eq_true, if_false] at h ⊢
      have hp : p ∈ prev := (contains_eq_true_iff prev p).1 hc
      rcases List.mem_cons.1 hx with h1 | h1
      · subst h1; exact absurd hp hxc
      · exact ih s h x h1 hxc
    · have hc2 : contains prev p = false := by simpa using hc
      simp only [hc2, Bool.not_false, if_true] at h ⊢
      rcases installFlatpakApplication_cases w s p with ⟨_, k⟩ | ⟨_, _, k⟩ | ⟨_, _, k⟩
      · rw [k] at h ⊢
        simp only at h ⊢
        by_cases hxp : x = p
        · subst hxp
          exact ⟨[], _, Event.skipInstall x, rfl, Or.inl rfl⟩
        · have hxr : x ∈ rest := by
            rcases List.mem_cons.1 hx with h1 | h1
            · exact absurd h1 hxp
            · exact h1
          obtain ⟨pre, post, e, h1, h2⟩ := ih s h x hxr hxc
          refine ⟨Event.added p :: Event.query p :: Event.skipInstall p :: pre, post, e,
            ?_, h2⟩
          rw [h1]
          simp
      · rw [k] at h ⊢
        simp only at h ⊢
        by_cases hxp : x = p
        · subst hxp
          exact ⟨[], _, Event.install x true, rfl, Or.inr rfl⟩
        · have hxr : x ∈ rest := by
            rcases List.mem_cons.1 hx with h1 | h1
            · exact absurd h1 hxp
            · exact h1
          obtain ⟨pre, post, e, h1, h2⟩ := ih _ h x hxr hxc
          refine ⟨Event.added p :: Event.query p :: Event.install p true :: pre, post, e,
            ?_, h2⟩
          rw [h1]
          simp
      · rw [k] at h
        cases h

/-- A run of `syncPackages` that returns no error has attempted every package of both
deltas: announcement, presence check, then skip line or successful command. -/
theorem syncPackages_attempts {σ : Type} (w : World σ) (s : σ) (prev cur : List String)
    (h : (syncPackages w s prev cur).err = none) :
    (∀ x ∈ prev, x ∉ cur → ∃ pre post e,
      (syncPackages w s prev cur).log =
        pre ++ Event.removed x :: Event.query x :: e :: post ∧
      (e = Event.skipUninstall x ∨ e = Event.uninstall x true)) ∧
    (∀ x ∈ cur, x ∉ prev → ∃ pre post e,
      (syncPackages w s prev cur).log =
        pre ++ Event.added x :: Event.query x :: e :: post ∧
      (e = Event.skipInstall x ∨ e = Event.install x true)) := by
  rw [syncPackages_err] at h
  rw [syncPackages_log]
  cases h1 : (uninstallLoop w cur (w.backup s).2 prev).err with
  | some e => rw [h1] at h; cases h
  | none =>
    rw [h1] at h
    simp only at h ⊢
    constructor
    · intro x hx hxc
      obtain ⟨pre, post, e, k1, k2⟩ := uninstallLoop_attempts w cur prev _ h1 x hx hxc
      refine ⟨Event.backup (w.backup s).1 :: pre,
        post ++ (installLoop w prev (uninstallLoop w cur (w.backup s).2 prev).state cur).log,
        e, ?_, k2⟩
      rw [k1]
      simp
    · intro x hx hxc
      obtain ⟨pre, post, e, k1, k2⟩ := installLoop_attempts w prev cur _ h x hx hxc
      refine ⟨Event.backup (w.backup s).1 ::
        ((uninstallLoop w cur (w.backup s).2 prev).log ++ pre), post, e, ?_, k2⟩
      rw [k1]
      simp

/-! ## Unchanged lists -/

theorem uninstallLoop_all_kept {σ : Type} (w : World σ) (cur l : List String) (s : σ)
    (h : ∀ x ∈ l, x ∈ cur) : uninstallLoop w cur s l = ⟨s, [], none⟩ := by
  induction l with
  | nil => rfl
  | cons p rest ih =>
    have hp : contains cur p = true := (contains_eq_true_iff cur p).2 (h p (List.mem_cons_self _ _))
    rw [uninstallLoop_cons]
    simp only [hp, Bool.not_true, Bool.false_eq_true, if_false]
    exact ih (fun x hx => h x (List.mem_cons_of_mem _ hx))

theorem installLoop_all_kept {σ : Type} (w : World σ) (prev l : List String) (s : σ)
    (h : ∀ x ∈ l, x ∈ prev) : installLoop w prev s l = ⟨s, [], none⟩ := by
  induction l with
  | nil => rfl
  | cons p rest ih =>
    have hp : contains prev p = true :=
      (contains_eq_true_iff prev p).2 (h p (List.mem_cons_self _ _))
    rw [installLoop_cons]
    simp only [hp, Bool.not_true, Bool.false_eq_true, if_false]
    exact ih (fun x hx => h x (List.mem_cons_of_mem _ hx))

theorem difference_eq_nil_of_subset (a b : List String) (h : ∀ x ∈ a, x ∈ b) :
    difference a b = [] := by
  apply List.eq_nil_iff_forall_not_mem.2
  intro x hx
  have := (mem_difference a b x).1 hx
  exact this.2 (h x this.1)

/-! ## The claims on the deltas and on failures -/

/-- C1: `difference` is set difference by string equality in both directions, and the
`contains`-based selection of `syncPackages` selects the same names: a `Package added`
line is only ever printed for a name of `current` that is not in `previous`, a `Package
removed` line only for a name of `previous` that is not in `current`, and a run that
returns no error prints them for exactly those names; `Diff([a,b],[b,c]) = ([c],[a])`. -/
theorem diff_is_set_difference_both_ways (previous current : List String) (x : String) :
    (x ∈ difference current previous ↔ x ∈ current ∧ x ∉ previous) ∧
    (x ∈ difference previous current ↔ x ∈ previous ∧ x ∉ current) ∧
    ((x ∈ current ∧ contains previous x = false) ↔ x ∈ current ∧ x ∉ previous) ∧
    ((x ∈ previous ∧ contains current x = false) ↔ x ∈ previous ∧ x ∉ current) ∧
    (∀ (σ : Type) (w : World σ) (s : σ),
      (Event.added x ∈ (syncPackages w s previous current).log →
        x ∈ current ∧ x ∉ previous) ∧
      (Event.removed x ∈ (syncPackages w s previous current).log →
        x ∈ previous ∧ x ∉ current) ∧
      ((syncPackages w s previous current).err = none →
        (Event.added x ∈ (syncPackages w s previous current).log ↔
          x ∈ current ∧ x ∉ previous) ∧
        (Event.removed x ∈ (syncPackages w s previous current).log ↔
          x ∈ previous ∧ x ∉ current))) ∧
    difference ["b", "c"] ["a", "b"] = ["c"] ∧ difference ["a", "b"] ["b", "c"] = ["a"] := by
  have hadd : ∀ (σ : Type) (w : World σ) (s : σ),
      Event.added x ∈ (syncPackages w s previous current).log → x ∈ current ∧ x ∉ previous := by
    intro σ w s h
    rcases syncPackages_sound w s previous current _ h with h1 | ⟨p, _, _, h3, h4⟩ |
      ⟨p, h1, h2, h3, _⟩
    · cases h1
    · simp only [Event.pkg, Option.some.injEq] at h3
      subst h3; exact absurd rfl h4
    · simp only [Event.pkg, Option.some.injEq] at h3
      subst h3; exact ⟨h1, h2⟩
  have hrem : ∀ (σ : Type) (w : World σ) (s : σ),
      Event.removed x ∈ (syncPackages w s previous current).log →
        x ∈ previous ∧ x ∉ current := by
    intro σ w s h
    rcases syncPackages_sound w s previous current _ h with h1 | ⟨p, h1, h2, h3, _⟩ |
      ⟨p, _, _, h3, h4⟩
    · cases h1
    · simp only [Event.pkg, Option.some.injEq] at h3
      subst h3; exact ⟨h1, h2⟩
    · simp only [Event.pkg, Option.some.injEq] at h3
      subst h3; exact absurd rfl h4
  refine ⟨mem_difference _ _ _, mem_difference _ _ _, ?_, ?_, ?_, by decide, by decide⟩
  · rw [contains_eq_false_iff]
  · rw [contains_eq_false_iff]
  · intro σ w s
    refine ⟨hadd σ w s, hrem σ w s, fun herr => ⟨⟨hadd σ w s, ?_⟩, ⟨hrem σ w s, ?_⟩⟩⟩
    · rintro ⟨h1, h2⟩
      exact (syncPackages_complete w s previous current herr).2 x h1 h2
    · rintro ⟨h1, h2⟩
      exact (syncPackages_complete w s previous current herr).1 x h1 h2

/-- C1 at `previous = [a, b]`, `current = [b, c]`, `x = c`. -/
theorem diff_is_set_difference_both_ways_witness :
    ("c" ∈ difference ["b", "c"] ["a", "b"] ↔ "c" ∈ ["b", "c"] ∧ "c" ∉ ["a", "b"]) ∧
    (syncPackages (setWorld []) [] ["a", "b"] ["b", "c"]).err = none ∧
    (Event.added "c" ∈ (syncPackages (setWorld []) [] ["a", "b"] ["b", "c"]).log ↔
      "c" ∈ ["b", "c"] ∧ "c" ∉ ["a", "b"]) :=
  ⟨(diff_is_set_difference_both_ways ["a", "b"] ["b", "c"] "c").1, by decide,
    ((diff_is_set_difference_both_ways ["a", "b"] ["b", "c"] "c").2.2.2.2.1
      (List String) (setWorld []) []).2.2 (by decide) |>.1⟩

/-- C2 as stated fails: with `previous = [a, b]`, `current = [c]`, `a` and `b` installed
and the uninstall of `a` failing, `syncPackages` returns that error right after the failed
command; `b` (to remove) and `c` (to add) are never attempted. -/
theorem failure_aborts_rest_of_batch :
    (syncPackages (setWorld ["a"]) ["a", "b"] ["a", "b"] ["c"]).log =
      [Event.backup true, Event.removed "a", Event.query "a", Event.uninstall "a" false] ∧
    (syncPackages (setWorld ["a"]) ["a", "b"] ["a", "b"] ["c"]).err =
      some (Err.uninstallFailed "a") ∧
    (syncPackages (setWorld ["a"]) ["a", "b"] ["a", "b"] ["c"]).state = ["a", "b"] ∧
    ("b" ∈ ["a", "b"] ∧ "b" ∉ ["c"] ∧
      ∀ e ∈ (syncPackages (setWorld ["a"]) ["a", "b"] ["a", "b"] ["c"]).log,
        e.pkg ≠ some "b") ∧
    ("c" ∈ ["c"] ∧ "c" ∉ ["a", "b"] ∧
      ∀ e ∈ (syncPackages (setWorld ["a"]) ["a", "b"] ["a", "b"] ["c"]).log,
        e.pkg ≠ some "c") := by
  decide

/-- C2, amended: `syncPackages` stops at the first failed command.  A run that returns no
error ran no failing command and attempted every package of both deltas: for each name to
remove the log has, next to each other, its `Package removed` line, its presence check
and then the skip line or the successful uninstall command, and likewise for each name
to add.  A run that returns an error ends its log with the failed install or uninstall
that error is about, every earlier command having succeeded, so nothing is attempted
after a failure. -/
theorem syncPackages_stops_at_first_failure (σ : Type) (w : World σ) (s : σ)
    (prev cur : List String) :
    ((syncPackages w s prev cur).err = none →
      (∀ e ∈ (syncPackages w s prev cur).log, e.isFailure = false) ∧
      (∀ x ∈ prev, x ∉ cur → ∃ pre post e,
        (syncPackages w s prev cur).log =
          pre ++ Event.removed x :: Event.query x :: e :: post ∧
        (e = Event.skipUninstall x ∨ e = Event.uninstall x true)) ∧
      (∀ x ∈ cur, x ∉ prev → ∃ pre post e,
        (syncPackages w s prev cur).log =
          pre ++ Event.added x :: Event.query x :: e :: post ∧
        (e = Event.skipInstall x ∨ e = Event.install x true))) ∧
    (∀ err, (syncPackages w s prev cur).err = some err →
      ∃ pre f, (syncPackages w s prev cur).log = pre ++ [f] ∧
        (∀ e ∈ pre, e.isFailure = false) ∧
        ((∃ p, p ∈ prev ∧ p ∉ cur ∧ f = Event.uninstall p false ∧
            err = Err.uninstallFailed p) ∨
         (∃ p, p ∈ cur ∧ p ∉ prev ∧ f = Event.install p false ∧
            err = Err.installFailed p))) := by
  constructor
  · intro h
    rcases syncPackages_stops w s prev cur with ⟨_, h2⟩ | ⟨_, _, err, _, _, h3, _⟩
    · exact ⟨h2, syncPackages_attempts w s prev cur h⟩
    · rw [h] at h3; cases h3
  · intro err h
    rcases syncPackages_stops w s prev cur with ⟨h1, _⟩ | ⟨pre, f, err2, h1, h2, h3, h4⟩
    · rw [h] at h1; cases h1
    · rw [h] at h3
      have he : err = err2 := Option.some.inj h3
      subst he
      exact ⟨pre, f, h1, h2, h4⟩

/-- C2 on a batch without failure: `previous = [a, b]`, `current = [b, c]`, `a` and `b`
installed; `a` is uninstalled and `c` installed by real commands. -/
theorem syncPackages_stops_at_first_failure_witness :
    (syncPackages (setWorld []) ["a", "b"] ["a", "b"] ["b", "c"]).log =
      [Event.backup true, Event.removed "a", Event.query "a", Event.uninstall "a" true,
        Event.added "c", Event.query "c", Event.install "c" true] ∧
    ∃ pre post e, (syncPackages (setWorld []) ["a", "b"] ["a", "b"] ["b", "c"]).log =
        pre ++ Event.added "c" :: Event.query "c" :: e :: post ∧
      (e = Event.skipInstall "c" ∨ e = Event.install "c" true) :=
  ⟨by decide,
    ((syncPackages_stops_at_first_failure (List String) (setWorld []) ["a", "b"]
      ["a", "b"] ["b", "c"]).1 (by decide)).2.2 "c" (by decide) (by decide)⟩

/-- C5: the install delta and the remove delta are disjoint, and a name that occurs in
both lists is in neither delta; no event of `syncPackages` (no announcement, presence
check, install or uninstall) is about such a name. -/
theorem deltas_disjoint (previous current : List String) (x : String) :
    ¬ (x ∈ difference current previous ∧ x ∈ difference previous current) ∧
    (x ∈ previous → x ∈ current →
      x ∉ difference current previous ∧ x ∉ difference previous current ∧
      ∀ (σ : Type) (w : World σ) (s : σ),
        ∀ e ∈ (syncPackages w s previous current).log, e.pkg ≠ some x) := by
  constructor
  · rintro ⟨h1, h2⟩
    exact ((mem_difference _ _ _).1 h1).2 ((mem_difference _ _ _).1 h2).1
  · intro hp hc
    refine ⟨fun h => ((mem_difference _ _ _).1 h).2 hp,
      fun h => ((mem_difference _ _ _).1 h).2 hc, ?_⟩
    intro σ w s e he hx
    rcases syncPackages_sound w s previous current e he with h | ⟨p, _, h2, h3, _⟩ |
      ⟨p, _, h2, h3, _⟩
    · rw [h] at hx; cases hx
    · rw [hx] at h3
      exact h2 (Option.some.inj h3 ▸ hc)
    · rw [hx] at h3
      exact h2 (Option.some.inj h3 ▸ hp)

/-- C5 at `previous = [a, b]`, `current = [b, c]`, `x = b`. -/
theorem deltas_disjoint_witness :
    "b" ∉ difference ["b", "c"] ["a", "b"] ∧ "b" ∉ difference ["a", "b"] ["b", "c"] ∧
    ∀ e ∈ (syncPackages (setWorld []) ["a", "b"] ["a", "b"] ["b", "c"]).log,
      e.pkg ≠ some "b" :=
  have h := (deltas_disjoint ["a", "b"] ["b", "c"] "b").2 (by decide) (by decide)
  ⟨h.1, h.2.1, h.2.2 (List String) (setWorld []) ["a", "b"]⟩

/-- C6: the difference of a list with itself is empty, duplicates or not, and
`syncPackages(S, S)` does nothing but its backup: it selects no package, runs no
presence check and no command, and returns no error. -/
theorem diff_self_is_empty (S : List String) :
    difference S S = [] ∧
    ∀ (σ : Type) (w : World σ) (s : σ),
      (syncPackages w s S S).log = [Event.backup (w.backup s).1] ∧
      (syncPackages w s S S).err = none ∧
      (syncPackages w s S S).state = (w.backup s).2 := by
  refine ⟨difference_eq_nil_of_subset S S (fun _ h => h), ?_⟩
  intro σ w s
  have h1 := uninstallLoop_all_kept w S S (w.backup s).2 (fun _ h => h)
  have h2 := installLoop_all_kept w S S (w.backup s).2 (fun _ h => h)
  rw [syncPackages_log, syncPackages_err, syncPackages_state, h1]
  simp [h2]

/-! ## Splitting on newlines -/

theorem splitNewline_ne_nil (cs : List Char) : splitNewline cs ≠ [] := by
  cases cs with
  | nil => simp [splitNewline]
  | cons c cs =>
    by_cases h : c = '\n'
    · simp [splitNewline, h]
    · simp only [splitNewline, h, if_false]
      split <;> simp

theorem splitNewline_cons_of_ne (c : Char) (cs : List Char) (h : c ≠ '\n') :
    ∃ seg segs, splitNewline cs = seg :: segs ∧
      splitNewline (c :: cs) = (c :: seg) :: segs := by
  cases hs : splitNewline cs with
  | nil => exact absurd hs (splitNewline_ne_nil cs)
  | cons seg segs =>
    refine ⟨seg, segs, rfl, ?_⟩
    simp [splitNewline, h, hs]

/-- A newline-free run followed by a newline is the first segment. -/
theorem splitNewline_append_newline (g rest : List Char) (hg : '\n' ∉ g) :
    splitNewline (g ++ '\n' :: rest) = g :: splitNewline rest := by
  induction g with
  | nil => simp [splitNewline]
  | cons c g ih =>
    have hc : c ≠ '\n' := fun e => hg (by simp [e])
    have hg2 : '\n' ∉ g := fun e => hg (List.mem_cons_of_mem _ e)
    obtain ⟨seg, segs, h1, h2⟩ := splitNewline_cons_of_ne c (g ++ '\n' :: rest) hc
    rw [List.cons_append, h2]
    rw [ih hg2] at h1
    injection h1 with h3 h4
    rw [h3, h4]

/-- A newline-free text is its own single segment. -/
theorem splitNewline_of_no_newline (g : List Char) (hg : '\n' ∉ g) :
    splitNewline g = [g] := by
  induction g with
  | nil => rfl
  | cons c g ih =>
    have hc : c ≠ '\n' := fun e => hg (by simp [e])
    have hg2 : '\n' ∉ g := fun e => hg (List.mem_cons_of_mem _ e)
    obtain ⟨seg, segs, h1, h2⟩ := splitNewline_cons_of_ne c g hc
    rw [h2]
    rw [ih hg2] at h1
    injection h1 with h3 h4
    rw [h3, h4]

/-- No segment contains a newline. -/
theorem splitNewline_no_newline (cs : List Char) : ∀ g ∈ splitNewline cs, '\n' ∉ g := by
  induction cs with
  | nil => simp [splitNewline]
  | cons c cs ih =>
    by_cases h : c = '\n'
    · intro g hg
      simp only [splitNewline, h, if_true, List.mem_cons] at hg
      rcases hg with rfl | hg
      · simp
      · exact ih g hg
    · obtain ⟨seg, segs, h1, h2⟩ := splitNewline_cons_of_ne c cs h
      rw [h2]
      rw [h1] at ih
      intro g hg
      rcases List.mem_cons.1 hg with rfl | hg
      · intro hm
        rcases List.mem_cons.1 hm with e | e
        · exact h e.symm
        · exact ih seg (List.mem_cons_self _ _) e
      · exact ih g (List.mem_cons_of_mem _ hg)

/-- Splitting undoes joining: newline-free segments, at least one, are recovered
exactly. -/
theorem splitNewline_joinNewline (segs : List (List Char)) (hne : segs ≠ [])
    (h : ∀ g ∈ segs, '\n' ∉ g) : splitNewline (joinNewline segs) = segs := by
  induction segs with
  | nil => exact absurd rfl hne
  | cons g rest ih =>
    cases rest with
    | nil => exact splitNewline_of_no_newline g (h g (List.mem_cons_self _ _))
    | cons g2 rest2 =>
      rw [joinNewline, splitNewline_append_newline g _ (h g (List.mem_cons_self _ _)),
        ih (by simp) (fun x hx => h x (List.mem_cons_of_mem _ hx))]

/-- Joining undoes splitting: every text is the join of its segments. -/
theorem joinNewline_splitNewline (cs : List Char) : joinNewline (splitNewline cs) = cs := by
  induction cs with
  | nil => rfl
  | cons c cs ih =>
    by_cases h : c = '\n'
    · simp only [splitNewline, h, if_true]
      cases hs : splitNewline cs with
      | nil => exact absurd hs (splitNewline_ne_nil cs)
      | cons seg segs =>
        rw [hs] at ih
        simp [joinNewline, ih]
    · obtain ⟨seg, segs, h1, h2⟩ := splitNewline_cons_of_ne c cs h
      rw [h2]
      rw [h1] at ih
      cases segs with
      | nil =>
        simp only [joinNewline] at ih ⊢
        rw [ih]
      | cons seg2 segs2 =>
        simp only [joinNewline] at ih ⊢
        rw [← ih]; simp

/-- A text of newlines only has empty segments only. -/
theorem splitNewline_all_newlines (cs : List Char) (h : ∀ c ∈ cs, c = '\n') :
    ∀ g ∈ splitNewline cs, g = [] := by
  induction cs with
  | nil => simp [splitNewline]
  | cons c cs ih =>
    have hc : c = '\n' := h c (List.mem_cons_self _ _)
    intro g hg
    simp only [splitNewline, hc, if_true, List.mem_cons] at hg
    rcases hg with rfl | hg
    · rfl
    · exact ih (fun d hd => h d (List.mem_cons_of_mem _ hd)) g hg

/-! ## The installed list -/

theorem keepNonEmpty_toList (l : List String) (acc : Slice) :
    (keepNonEmpty acc l).toList = acc.toList ++ l.filter (fun x => x ≠ "") := by
  induction l generalizing acc with
  | nil => simp [keepNonEmpty]
  | cons x l ih =>
    by_cases hx : x = ""
    · simp [keepNonEmpty, hx, ih]
    · have hp : (acc.push x).toList = acc.toList ++ [x] := rfl
      simp [keepNonEmpty, hx, ih, hp]

theorem keepNonEmpty_nil_of_all_empty (l : List String) (h : ∀ x ∈ l, x = "") :
    keepNonEmpty none l = none := by
  induction l with
  | nil => rfl
  | cons x l ih =>
    have hx : x = "" := h x (List.mem_cons_self _ _)
    simp only [keepNonEmpty, hx, ne_eq, not_true_eq_false, if_false]
    exact ih (fun y hy => h y (List.mem_cons_of_mem _ hy))

theorem Split_of_join (output : String) (segs : List String) (hne : segs ≠ [])
    (hseg : ∀ g ∈ segs, '\n' ∉ g.data)
    (hout : output.data = joinNewline (segs.map String.data)) : Split output = segs := by
  unfold Split
  rw [hout, splitNewline_joinNewline]
  · rw [List.map_map]
    have : (String.mk ∘ String.data) = id := by
      funext x; rfl
    rw [this, List.map_id]
  · simpa using hne
  · intro g hg
    obtain ⟨x, hx, rfl⟩ := List.mem_map.1 hg
    exact hseg x hx

theorem Split_is_join (output : String) :
    Split output ≠ [] ∧ (∀ g ∈ Split output, '\n' ∉ g.data) ∧
    output.data = joinNewline ((Split output).map String.data) := by
  unfold Split
  refine ⟨?_, ?_, ?_⟩
  · simpa using splitNewline_ne_nil output.data
  · intro g hg
    obtain ⟨x, hx, rfl⟩ := List.mem_map.1 hg
    exact splitNewline_no_newline output.data x hx
  · rw [List.map_map]
    have : (String.data ∘ String.mk) = id := by
      funext x; rfl
    rw [this, List.map_id, joinNewline_splitNewline]

/-- C10: when the listing command prints `output`, `getInstalledFlatpakApplications`
returns, without error, the non-empty ones among the newline-separated segments of
`output`, in order and with multiplicity: whatever newline-free segments `output` is the
join of, the result is those segments with the empty ones dropped (and `output` always is
such a join).  No returned name is empty or contains a newline, and an output of newlines
only, or an empty one, gives the empty (nil) result. -/
theorem installed_list_is_nonempty_segments (σ : Type) (w : World σ) (s : σ)
    (output : String) (h : w.list s = some output) :
    ∃ packages : Slice, getInstalledFlatpakApplications w s = Except.ok packages ∧
      (∀ segs : List String, segs ≠ [] → (∀ g ∈ segs, '\n' ∉ g.data) →
        output.data = joinNewline (segs.map String.data) →
        packages.toList = segs.filter (fun g => g ≠ "")) ∧
      (∃ segs : List String, segs ≠ [] ∧ (∀ g ∈ segs, '\n' ∉ g.data) ∧
        output.data = joinNewline (segs.map String.data)) ∧
      (∀ x ∈ packages.toList, x ≠ "" ∧ '\n' ∉ x.data) ∧
      ((∀ c ∈ output.data, c = '\n') → packages = none) := by
  refine ⟨keepNonEmpty none (Split output), ?_, ?_, ?_, ?_, ?_⟩
  · simp [getInstalledFlatpakApplications, h]
  · intro segs hne hseg hout
    rw [keepNonEmpty_toList, Split_of_join output segs hne hseg hout]
    rfl
  · exact ⟨Split output, Split_is_join output⟩
  · intro x hx
    rw [keepNonEmpty_toList] at hx
    have hx2 : x ∈ List.filter (fun x => decide (x ≠ "")) (Split output) := by
      simpa [Slice.toList] using hx
    rw [List.mem_filter] at hx2
    exact ⟨by simpa using hx2.2, (Split_is_join output).2.1 x hx2.1⟩
  · intro hall
    apply keepNonEmpty_nil_of_all_empty
    intro x hx
    unfold Split at hx
    obtain ⟨g, hg, rfl⟩ := List.mem_map.1 hx
    rw [splitNewline_all_newlines output.data hall g hg]

/-- C10 on the listing `"org.a\n\norg.b\n"`: the result is `[org.a, org.b]`. -/
theorem installed_list_is_nonempty_segments_witness :
    ∃ packages : Slice,
      getInstalledFlatpakApplications (setWorld []) ["org.a", "", "org.b"] =
        Except.ok packages ∧
      packages.toList = ["org.a", "org.b"] := by
  obtain ⟨packages, h1, h2, _⟩ := installed_list_is_nonempty_segments (List String)
    (setWorld []) ["org.a", "", "org.b"] "org.a\n\norg.b\n" (by decide)
  refine ⟨packages, h1, ?_⟩
  rw [h2 ["org.a", "", "org.b", ""] (by decide) (by decide) (by decide)]
  decide

/-! ## Runs in which every selected package is skipped -/

/-- When the presence check reports every package to remove as absent, the uninstall
loop runs no command and changes nothing. -/
theorem uninstallLoop_skips {σ : Type} (w : World σ) (cur l : List String) (s : σ)
    (h : ∀ x ∈ l, x ∉ cur → isFlatpakInstalled w s x = false) :
    (uninstallLoop w cur s l).state = s ∧ (uninstallLoop w cur s l).err = none ∧
    (∀ e ∈ (uninstallLoop w cur s l).log, e.isCommand = false) ∧
    (∀ x ∈ l, x ∉ cur → Event.skipUninstall x ∈ (uninstallLoop w cur s l).log) := by
  induction l with
  | nil => simp [uninstallLoop]
  | cons p rest ih =>
    have ih2 := ih (fun x hx => h x (List.mem_cons_of_mem _ hx))
    rw [uninstallLoop_cons]
    by_cases hc : contains cur p = true
    · have hp : p ∈ cur := (contains_eq_true_iff cur p).1 hc
      simp only [hc, Bool.not_true, Bool.false_eq_true, if_false]
      refine ⟨ih2.1, ih2.2.1, ih2.2.2.1, ?_⟩
      intro x hx hxc
      rcases List.mem_cons.1 hx with rfl | hx
      · exact absurd hp hxc
      · exact ih2.2.2.2 x hx hxc
    · have hc2 : contains cur p = false := by simpa using hc
      have hp : p ∉ cur := (contains_eq_false_iff cur p).1 hc2
      have hi := h p (List.mem_cons_self _ _) hp
      simp only [hc2, Bool.not_false, if_true]
      rcases uninstallFlatpakApplication_cases w s p with ⟨_, k⟩ | ⟨k1, _, _⟩ | ⟨k1, _, _⟩
      · rw [k]
        refine ⟨ih2.1, ih2.2.1, ?_, ?_⟩
        · intro e he
          simp only [List.mem_cons, List.mem_append] at he
          rcases he with rfl | (rfl | rfl | he) | he
          · rfl
          · rfl
          · rfl
          · cases he
          · exact ih2.2.2.1 e he
        · intro x hx hxc
          simp only [List.mem_cons, List.mem_append]
          rcases List.mem_cons.1 hx with rfl | hx
          · exact Or.inr (Or.inl (Or.inr (Or.inl rfl)))
          · exact Or.inr (Or.inr (ih2.2.2.2 x hx hxc))
      · rw [hi] at k1; cases k1
      · rw [hi] at k1; cases k1

/-- When the presence check reports every package to add as present, the install loop
runs no command and changes nothing. -/
theorem installLoop_skips {σ : Type} (w : World σ) (prev l : List String) (s : σ)
    (h : ∀ x ∈ l, x ∉ prev → isFlatpakInstalled w s x = true) :
    (installLoop w prev s l).state = s ∧ (installLoop w prev s l).err = none ∧
    (∀ e ∈ (installLoop w prev s l).log, e.isCommand = false) ∧
    (∀ x ∈ l, x ∉ prev → Event.skipInstall x ∈ (installLoop w prev s l).log) := by
  induction l with
  | nil => simp [installLoop]
  | cons p rest ih =>
    have ih2 := ih (fun x hx => h x (List.mem_cons_of_mem _ hx))
    rw [installLoop_cons]
    by_cases hc : contains prev p = true
    · have hp : p ∈ prev := (contains_eq_true_iff prev p).1 hc
      simp only [hc, Bool.not_true, Bool.false_eq_true, if_false]
      refine ⟨ih2.1, ih2.2.1, ih2.2.2.1, ?_⟩
      intro x hx hxc
      rcases List.mem_cons.1 hx with rfl | hx
      · exact absurd hp hxc
      · exact ih2.2.2.2 x hx hxc
    · have hc2 : contains prev p = false := by simpa using hc
      have hp : p ∉ prev := (contains_eq_false_iff prev p).1 hc2
      have hi := h p (List.mem_cons_self _ _) hp
      simp only [hc2, Bool.not_false, if_true]
      rcases installFlatpakApplication_cases w s p with ⟨_, k⟩ | ⟨k1, _, _⟩ | ⟨k1, _, _⟩
      · rw [k]
        refine ⟨ih2.1, ih2.2.1, ?_, ?_⟩
        · intro e he
          simp only [List.mem_cons, List.mem_append] at he
          rcases he with rfl | (rfl | rfl | he) | he
          · rfl
          · rfl
          · rfl
          · cases he
          · exact ih2.2.2.1 e he
        · intro x hx hxc
          simp only [List.mem_cons, List.mem_append]
          rcases List.mem_cons.1 hx with rfl | hx
          · exact Or.inr (Or.inl (Or.inr (Or.inl rfl)))
          · exact Or.inr (Or.inr (ih2.2.2.2 x hx hxc))
      · rw [hi] at k1; cases k1
      · rw [hi] at k1; cases k1

/-- A run of `syncPackages` on a system that already has every package to add and none
of the packages to remove: only the backup changes the state, no command is run, every
selected package is skipped, and no error is returned. -/
theorem syncPackages_converged {σ : Type} (w : World σ) (s : σ) (prev cur : List String)
    (hrem : ∀ x ∈ prev, x ∉ cur → isFlatpakInstalled w (w.backup s).2 x = false)
    (hadd : ∀ x ∈ cur, x ∉ prev → isFlatpakInstalled w (w.backup s).2 x = true) :
    (syncPackages w s prev cur).state = (w.backup s).2 ∧
    (syncPackages w s prev cur).err = none ∧
    (∀ e ∈ (syncPackages w s prev cur).log, e.isCommand = false) ∧
    (∀ x ∈ prev, x ∉ cur → Event.skipUninstall x ∈ (syncPackages w s prev cur).log) ∧
    (∀ x ∈ cur, x ∉ prev → Event.skipInstall x ∈ (syncPackages w s prev cur).log) := by
  have h1 := uninstallLoop_skips w cur prev (w.backup s).2 hrem
  have h2 := installLoop_skips w prev cur (w.backup s).2 hadd
  rw [syncPackages_log, syncPackages_err, syncPackages_state, h1.2.1, h1.1]
  refine ⟨h2.1, h2.2.1, ?_, ?_, ?_⟩
  · intro e he
    simp only [List.mem_cons, List.mem_append] at he
    rcases he with rfl | he | he
    · rfl
    · exact h1.2.2.1 e he
    · exact h2.2.2.1 e he
  · intro x hx hxc
    simp only [List.mem_cons, List.mem_append]
    exact Or.inr (Or.inl (h1.2.2.2 x hx hxc))
  · intro x hx hxc
    simp only [List.mem_cons, List.mem_append]
    exact Or.inr (Or.inr (h2.2.2.2 x hx hxc))

/-! ## The package manager that is a set of names -/

theorem splitNewline_listing (s : List String) (hs : ∀ n ∈ s, '\n' ∉ n.data) :
    splitNewline (s.flatMap (fun n => n.data ++ ['\n'])) = s.map String.data ++ [[]] := by
  induction s with
  | nil => rfl
  | cons n s ih =>
    have h1 : (n :: s).flatMap (fun n => n.data ++ ['\n']) =
        n.data ++ '\n' :: s.flatMap (fun n => n.data ++ ['\n']) := by
      simp [List.flatMap_cons]
    rw [h1, splitNewline_append_newline _ _ (hs n (List.mem_cons_self _ _)),
      ih (fun m hm => hs m (List.mem_cons_of_mem _ hm))]
    rfl

theorem Split_listing (s : List String) (hs : ∀ n ∈ s, '\n' ∉ n.data) :
    Split (listing s) = s ++ [""] := by
  unfold Split listing
  rw [splitNewline_listing s hs, List.map_append, List.map_map]
  have : (String.mk ∘ String.data) = id := by
    funext x; rfl
  rw [this, List.map_id]
  rfl

/-- On a set of newline-free names, the presence check of a non-empty name is membership
in the set. -/
theorem isFlatpakInstalled_setWorld (broken s : List String) (p : String)
    (hs : ∀ n ∈ s, '\n' ∉ n.data) (hp : p ≠ "") :
    isFlatpakInstalled (setWorld broken) s p = decide (p ∈ s) := by
  have h : (setWorld broken).listApp s p = some (listing s) := rfl
  unfold isFlatpakInstalled
  rw [h]
  simp only [Split_listing s hs]
  by_cases hm : p ∈ s
  · rw [(contains_eq_true_iff _ _).2 (by simp [hm])]
    simp [hm]
  · rw [(contains_eq_false_iff _ _).2 (by simp [hm, hp])]
    simp [hm]

/-- A name with a newline is never found by the line-based presence check, whatever the
package manager prints. -/
theorem isFlatpakInstalled_newline {σ : Type} (w : World σ) (s : σ) (p : String)
    (hp : '\n' ∈ p.data) : isFlatpakInstalled w s p = false := by
  unfold isFlatpakInstalled
  cases h : w.listApp s p with
  | none => rfl
  | some output =>
    simp only
    rw [contains_eq_false_iff]
    intro hm
    exact (Split_is_join output).2.1 p hm hp

/-- One uninstall on the set of names: it succeeds and leaves the set without the name. -/
theorem uninstallFlatpakApplication_setWorld (s : List String) (p : String)
    (hs : ∀ n ∈ s, '\n' ∉ n.data) (hp : p ≠ "") :
    (uninstallFlatpakApplication (setWorld []) s p).err = none ∧
    ∀ y, y ∈ (uninstallFlatpakApplication (setWorld []) s p).state ↔ y ∈ s ∧ y ≠ p := by
  have hi := isFlatpakInstalled_setWorld [] s p hs hp
  have hu : (setWorld []).uninstall s p = (true, s.filter (fun q => q ≠ p)) := by
    simp [setWorld]
  rcases uninstallFlatpakApplication_cases (setWorld []) s p with ⟨k1, k⟩ | ⟨_, _, k⟩ |
    ⟨_, k2, _⟩
  · rw [k]
    refine ⟨rfl, fun y => ⟨fun h => ⟨h, ?_⟩, fun h => h.1⟩⟩
    rintro rfl
    rw [hi] at k1
    simp at k1
    exact k1 h
  · rw [k, hu]
    refine ⟨rfl, fun y => ?_⟩
    simp [List.mem_filter]
  · rw [hu] at k2; cases k2

/-- One install on the set of names: it succeeds and leaves the set with the name. -/
theorem installFlatpakApplication_setWorld (s : List String) (p : String)
    (hs : ∀ n ∈ s, '\n' ∉ n.data) (hp : p ≠ "") :
    (installFlatpakApplication (setWorld []) s p).err = none ∧
    ∀ y, y ∈ (installFlatpakApplication (setWorld []) s p).state ↔ y ∈ s ∨ y = p := by
  have hi := isFlatpakInstalled_setWorld [] s p hs hp
  have hu : (setWorld []).install s p = (true, if p ∈ s then s else s ++ [p]) := by
    simp [setWorld]
  rcases installFlatpakApplication_cases (setWorld []) s p with ⟨k1, k⟩ | ⟨k1, _, k⟩ |
    ⟨_, k2, _⟩
  · rw [k]
    refine ⟨rfl, fun y => ⟨fun h => Or.inl h, fun h => ?_⟩⟩
    rcases h with h | rfl
    · exact h
    · rw [hi] at k1
      simpa using k1
  · rw [k, hu]
    refine ⟨rfl, fun y => ?_⟩
    rw [hi] at k1
    have hm : p ∉ s := by simpa using k1
    simp [hm]
  · rw [hu] at k2; cases k2

/-- The uninstall loop on the set of names: no error, and exactly the packages to remove
have left the set. -/
theorem uninstallLoop_setWorld (cur l s : List String) (hs : ∀ n ∈ s, '\n' ∉ n.data)
    (hl : ∀ x ∈ l, x ≠ "") :
    (uninstallLoop (setWorld []) cur s l).err = none ∧
    ∀ y, y ∈ (uninstallLoop (setWorld []) cur s l).state ↔ y ∈ s ∧ ¬ (y ∈ l ∧ y ∉ cur) := by
  induction l generalizing s with
  | nil => simp [uninstallLoop]
  | cons p rest ih =>
    rw [uninstallLoop_cons]
    by_cases hc : contains cur p = true
    · have hp : p ∈ cur := (contains_eq_true_iff cur p).1 hc
      simp only [hc, Bool.not_true, Bool.false_eq_true, if_false]
      obtain ⟨h1, h2⟩ := ih s hs (fun x hx => hl x (List.mem_cons_of_mem _ hx))
      refine ⟨h1, fun y => ?_⟩
      rw [h2 y]
      constructor
      · rintro ⟨a, b⟩
        refine ⟨a, ?_⟩
        rintro ⟨c, d⟩
        rcases List.mem_cons.1 c with rfl | c
        · exact d hp
        · exact b ⟨c, d⟩
      · rintro ⟨a, b⟩
        exact ⟨a, fun ⟨c, d⟩ => b ⟨List.mem_cons_of_mem _ c, d⟩⟩
    · have hc2 : contains cur p = false := by simpa using hc
      have hp : p ∉ cur := (contains_eq_false_iff cur p).1 hc2
      simp only [hc2, Bool.not_false, if_true]
      obtain ⟨k1, k2⟩ := uninstallFlatpakApplication_setWorld s p hs
        (hl p (List.mem_cons_self _ _))
      rw [k1]
      have hs2 : ∀ n ∈ (uninstallFlatpakApplication (setWorld []) s p).state,
          '\n' ∉ n.data := fun n hn => hs n ((k2 n).1 hn).1
      obtain ⟨h1, h2⟩ := ih _ hs2 (fun x hx => hl x (List.mem_cons_of_mem _ hx))
      refine ⟨h1, fun y => ?_⟩
      simp only
      rw [h2 y, k2 y]
      constructor
      · rintro ⟨⟨a, a2⟩, b⟩
        refine ⟨a, ?_⟩
        rintro ⟨c, d⟩
        rcases List.mem_cons.1 c with rfl | c
        · exact a2 rfl
        · exact b ⟨c, d⟩
      · rintro ⟨a, b⟩
        refine ⟨⟨a, ?_⟩, fun ⟨c, d⟩ => b ⟨List.mem_cons_of_mem _ c, d⟩⟩
        rintro rfl
        exact b ⟨List.mem_cons_self _ _, hp⟩

/-- The install loop on the set of names: no error, and exactly the packages to add have
joined the set. -/
theorem installLoop_setWorld (prev l s : List String) (hs : ∀ n ∈ s, '\n' ∉ n.data)
    (hl : ∀ x ∈ l, validName x) :
    (installLoop (setWorld []) prev s l).err = none ∧
    ∀ y, y ∈ (installLoop (setWorld []) prev s l).state ↔ y ∈ s ∨ (y ∈ l ∧ y ∉ prev) := by
  induction l generalizing s with
  | nil => simp [installLoop]
  | cons p rest ih =>
    rw [installLoop_cons]
    by_cases hc : contains prev p = true
    · have hp : p ∈ prev := (contains_eq_true_iff prev p).1 hc
      simp only [hc, Bool.not_true, Bool.false_eq_true, if_false]
      obtain ⟨h1, h2⟩ := ih s hs (fun x hx => hl x (List.mem_cons_of_mem _ hx))
      refine ⟨h1, fun y => ?_⟩
      rw [h2 y]
      constructor
      · rintro (a | ⟨a, b⟩)
        · exact Or.inl a
        · exact Or.inr ⟨List.mem_cons_of_mem _ a, b⟩
      · rintro (a | ⟨a, b⟩)
        · exact Or.inl a
        · rcases List.mem_cons.1 a with rfl | a
          · exact absurd hp b
          · exact Or.inr ⟨a, b⟩
    · have hc2 : contains prev p = false := by simpa using hc
      have hp : p ∉ prev := (contains_eq_false_iff prev p).1 hc2
      simp only [hc2, Bool.not_false, if_true]
      have hv := hl p (List.mem_cons_self _ _)
      obtain ⟨k1, k2⟩ := installFlatpakApplication_setWorld s p hs hv.1
      rw [k1]
      have hs2 : ∀ n ∈ (installFlatpakApplication (setWorld []) s p).state,
          '\n' ∉ n.data := by
        intro n hn
        rcases (k2 n).1 hn with h | rfl
        · exact hs n h
        · exact hv.2
      obtain ⟨h1, h2⟩ := ih _ hs2 (fun x hx => hl x (List.mem_cons_of_mem _ hx))
      refine ⟨h1, fun y => ?_⟩
      simp only
      rw [h2 y, k2 y]
      constructor
      · rintro ((a | rfl) | ⟨a, b⟩)
        · exact Or.inl a
        · exact Or.inr ⟨List.mem_cons_self _ _, hp⟩
        · exact Or.inr ⟨List.mem_cons_of_mem _ a, b⟩
      · rintro (a | ⟨a, b⟩)
        · exact Or.inl (Or.inl a)
        · rcases List.mem_cons.1 a with rfl | a
          · exact Or.inl (Or.inr rfl)
          · exact Or.inr ⟨a, b⟩

/-- The first run on the set of names: no error, and the resulting set is the initial one
without the packages to remove and with the packages to add; its names are still free of
newlines. -/
theorem syncPackages_setWorld (installed prev cur : List String)
    (hi : ∀ n ∈ installed, '\n' ∉ n.data) (hp : ∀ n ∈ prev, validName n)
    (hc : ∀ n ∈ cur, validName n) :
    (syncPackages (setWorld []) installed prev cur).err = none ∧
    (∀ y, y ∈ (syncPackages (setWorld []) installed prev cur).state ↔
      (y ∈ installed ∧ ¬ (y ∈ prev ∧ y ∉ cur)) ∨ (y ∈ cur ∧ y ∉ prev)) ∧
    (∀ n ∈ (syncPackages (setWorld []) installed prev cur).state, '\n' ∉ n.data) := by
  have hb : (setWorld []).backup installed = (true, installed) := rfl
  obtain ⟨h1, h2⟩ := uninstallLoop_setWorld cur prev installed hi (fun x hx => (hp x hx).1)
  have hs1 : ∀ n ∈ (uninstallLoop (setWorld []) cur installed prev).state, '\n' ∉ n.data :=
    fun n hn => hi n ((h2 n).1 hn).1
  obtain ⟨k1, k2⟩ := installLoop_setWorld prev cur _ hs1 hc
  have hstate : ∀ y, y ∈ (syncPackages (setWorld []) installed prev cur).state ↔
      (y ∈ installed ∧ ¬ (y ∈ prev ∧ y ∉ cur)) ∨ (y ∈ cur ∧ y ∉ prev) := by
    intro y
    rw [syncPackages_state, hb, h1]
    simp only
    rw [k2 y, h2 y]
  refine ⟨?_, hstate, ?_⟩
  · rw [syncPackages_err, hb, h1]
    exact k1
  · intro n hn
    rcases (hstate n).1 hn with h | h
    · exact hi n h.1
    · exact (hc n h.1).2

/-! ## The presence check on any set of names -/

/-- Splitting a text at one of its newlines: the segments before it, then those after. -/
theorem splitNewline_append (a rest : List Char) :
    splitNewline (a ++ '\n' :: rest) = splitNewline a ++ splitNewline rest := by
  induction a with
  | nil => simp [splitNewline]
  | cons c a ih =>
    by_cases hc : c = '\n'
    · subst hc
      rw [List.cons_append, splitNewline, splitNewline]
      simp only [if_true, ih, List.cons_append]
    · obtain ⟨seg, segs, h1, h2⟩ := splitNewline_cons_of_ne c a hc
      obtain ⟨seg2, segs2, k1, k2⟩ := splitNewline_cons_of_ne c (a ++ '\n' :: rest) hc
      rw [List.cons_append, k2, h2]
      rw [ih, h1] at k1
      simp only [List.cons_append, List.cons.injEq] at k1
      rw [← k1.1, ← k1.2]
      rfl

/-- The lines of the listing of any set of names: the lines of each name, then the empty
segment after the last newline. -/
theorem Split_listing_any (s : List String) : Split (listing s) = s.flatMap Split ++ [""] := by
  unfold Split listing
  induction s with
  | nil => rfl
  | cons n s ih =>
    have h1 : (n :: s).flatMap (fun n => n.data ++ ['\n']) =
        n.data ++ '\n' :: s.flatMap (fun n => n.data ++ ['\n']) := by
      simp [List.flatMap_cons]
    simp only at ih ⊢
    rw [h1, splitNewline_append, List.map_append, ih, List.flatMap_cons, List.append_assoc]

/-- The presence check on a set of names finds the empty name, and a name that is a line
of an installed name; nothing else. -/
theorem isFlatpakInstalled_setWorld_iff (broken s : List String) (x : String) :
    isFlatpakInstalled (setWorld broken) s x = true ↔ x = "" ∨ ∃ n ∈ s, x ∈ Split n := by
  have h : (setWorld broken).listApp s x = some (listing s) := rfl
  unfold isFlatpakInstalled
  rw [h]
  simp only [contains_eq_true_iff, Split_listing_any, List.mem_append, List.mem_flatMap,
    List.mem_singleton]
  constructor
  · rintro (h1 | h1)
    · exact Or.inr h1
    · exact Or.inl h1
  · rintro (h1 | h1)
    · exact Or.inr h1
    · exact Or.inl h1

/-- A name without a newline is its own single line. -/
theorem Split_of_no_newline (n : String) (h : '\n' ∉ n.data) : Split n = [n] := by
  unfold Split
  rw [splitNewline_of_no_newline n.data h]
  rfl

/-- A name with a newline is not one of its own lines. -/
theorem not_mem_Split_self (n : String) (h : '\n' ∈ n.data) : n ∉ Split n :=
  fun hm => (Split_is_join n).2.1 n hm h

theorem isFlatpakInstalled_setWorld_mono (s t : List String) (x : String)
    (hst : ∀ n ∈ s, n ∈ t) (h : isFlatpakInstalled (setWorld []) s x = true) :
    isFlatpakInstalled (setWorld []) t x = true := by
  rw [isFlatpakInstalled_setWorld_iff] at h ⊢
  rcases h with h | ⟨n, hn, hx⟩
  · exact Or.inl h
  · exact Or.inr ⟨n, hst n hn, hx⟩

/-- One uninstall on any set of names: no error; a name that the presence check finds is
removed by the command, otherwise the set stays as it is. -/
theorem uninstall_step_setWorld (s : List String) (p : String) :
    (uninstallFlatpakApplication (setWorld []) s p).err = none ∧
    (∀ n ∈ (uninstallFlatpakApplication (setWorld []) s p).state, n ∈ s) ∧
    (∀ n ∈ s, n ≠ p → n ∈ (uninstallFlatpakApplication (setWorld []) s p).state) ∧
    (isFlatpakInstalled (setWorld []) s p = true →
      (uninstallFlatpakApplication (setWorld []) s p).log =
        [Event.query p, Event.uninstall p true] ∧
      p ∉ (uninstallFlatpakApplication (setWorld []) s p).state) ∧
    (isFlatpakInstalled (setWorld []) s p = false →
      (uninstallFlatpakApplication (setWorld []) s p).log =
        [Event.query p, Event.skipUninstall p] ∧
      (uninstallFlatpakApplication (setWorld []) s p).state = s) := by
  have hu : (setWorld []).uninstall s p = (true, s.filter (fun q => q ≠ p)) := by
    simp [setWorld]
  rcases uninstallFlatpakApplication_cases (setWorld []) s p with ⟨k1, k⟩ | ⟨k1, _, k⟩ |
    ⟨_, k2, _⟩
  · rw [k]
    refine ⟨rfl, fun n hn => hn, fun n hn _ => hn, ?_, fun _ => ⟨rfl, rfl⟩⟩
    intro h; rw [k1] at h; cases h
  · rw [k, hu]
    refine ⟨rfl, ?_, ?_, fun _ => ⟨rfl, ?_⟩, ?_⟩
    · intro n hn
      exact (List.mem_filter.1 hn).1
    · intro n hn hne
      exact List.mem_filter.2 ⟨hn, by simpa using hne⟩
    · intro hm
      have := (List.mem_filter.1 hm).2
      simp at this
    · intro h; rw [k1] at h; cases h
  · rw [hu] at k2; cases k2

/-- One install on any set of names: no error; a name that the presence check does not
find is added by the command, otherwise the set stays as it is. -/
theorem install_step_setWorld (s : List String) (p : String) :
    (installFlatpakApplication (setWorld []) s p).err = none ∧
    (∀ n ∈ s, n ∈ (installFlatpakApplication (setWorld []) s p).state) ∧
    (∀ n ∈ (installFlatpakApplication (setWorld []) s p).state, n ∈ s ∨ n = p) ∧
    (isFlatpakInstalled (setWorld []) s p = true →
      (installFlatpakApplication (setWorld []) s p).log =
        [Event.query p, Event.skipInstall p] ∧
      (installFlatpakApplication (setWorld []) s p).state = s) ∧
    (isFlatpakInstalled (setWorld []) s p = false →
      (installFlatpakApplication (setWorld []) s p).log =
        [Event.query p, Event.install p true] ∧
      p ∈ (installFlatpakApplication (setWorld []) s p).state) := by
  have hu : (setWorld []).install s p = (true, if p ∈ s then s else s ++ [p]) := by
    simp [setWorld]
  rcases installFlatpakApplication_cases (setWorld []) s p with ⟨k1, k⟩ | ⟨k1, _, k⟩ |
    ⟨_, k2, _⟩
  · rw [k]
    refine ⟨rfl, fun n hn => hn, fun n hn => Or.inl hn, fun _ => ⟨rfl, rfl⟩, ?_⟩
    intro h; rw [k1] at h; cases h
  · rw [k, hu]
    refine ⟨rfl, ?_, ?_, ?_, fun _ => ⟨rfl, ?_⟩⟩
    · intro n hn
      by_cases hm : p ∈ s
      · simpa [hm] using hn
      · simp [hm, hn]
    · intro n hn
      by_cases hm : p ∈ s
      · simp only [hm, if_true] at hn
        exact Or.inl hn
      · simp only [hm, if_false, List.mem_append, List.mem_singleton] at hn
        exact hn
    · intro h; rw [k1] at h; cases h
    · by_cases hm : p ∈ s
      · simp [hm]
      · simp [hm]
  · rw [hu] at k2; cases k2

/-- The uninstall loop on any set of names: no error, nothing is added, and an installed
name with a newline is never removed. -/
theorem uninstallLoop_setWorld_keeps (cur l s : List String) :
    (uninstallLoop (setWorld []) cur s l).err = none ∧
    (∀ n ∈ (uninstallLoop (setWorld []) cur s l).state, n ∈ s) ∧
    (∀ n ∈ s, '\n' ∈ n.data → n ∈ (uninstallLoop (setWorld []) cur s l).state) := by
  induction l generalizing s with
  | nil => exact ⟨rfl, fun n hn => hn, fun n hn _ => hn⟩
  | cons p rest ih =>
    rw [uninstallLoop_cons]
    by_cases hc : contains cur p = true
    · simp only [hc, Bool.not_true, Bool.false_eq_true, if_false]
      exact ih s
    · have hc2 : contains cur p = false := by simpa using hc
      simp only [hc2, Bool.not_false, if_true]
      obtain ⟨k1, k2, k3, k4, k5⟩ := uninstall_step_setWorld s p
      obtain ⟨i1, i2, i3⟩ := ih (uninstallFlatpakApplication (setWorld []) s p).state
      rw [k1]
      refine ⟨i1, fun n hn => k2 n (i2 n hn), ?_⟩
      intro n hn hnl
      apply i3 n _ hnl
      by_cases hnp : n = p
      · have hf : isFlatpakInstalled (setWorld []) s p = false :=
          isFlatpakInstalled_newline _ _ _ (hnp ▸ hnl)
        rw [(k5 hf).2]
        exact hn
      · exact k3 n hn hnp

/-- The install loop on any set of names: no error, nothing is removed, and only names
to add are added. -/
theorem installLoop_setWorld_grows (prev l s : List String) :
    (installLoop (setWorld []) prev s l).err = none ∧
    (∀ n ∈ s, n ∈ (installLoop (setWorld []) prev s l).state) ∧
    (∀ n ∈ (installLoop (setWorld []) prev s l).state, n ∈ s ∨ (n ∈ l ∧ n ∉ prev)) := by
  induction l generalizing s with
  | nil => simp [installLoop]
  | cons p rest ih =>
    rw [installLoop_cons]
    by_cases hc : contains prev p = true
    · simp only [hc, Bool.not_true, Bool.false_eq_true, if_false]
      obtain ⟨i1, i2, i3⟩ := ih s
      refine ⟨i1, i2, fun n hn => ?_⟩
      rcases i3 n hn with h | ⟨h, h2⟩
      · exact Or.inl h
      · exact Or.inr ⟨List.mem_cons_of_mem _ h, h2⟩
    · have hc2 : contains prev p = false := by simpa using hc
      have hp : p ∉ prev := (contains_eq_false_iff prev p).1 hc2
      simp only [hc2, Bool.not_false, if_true]
      obtain ⟨k1, k2, k3, _, _⟩ := install_step_setWorld s p
      obtain ⟨i1, i2, i3⟩ := ih (installFlatpakApplication (setWorld []) s p).state
      rw [k1]
      refine ⟨i1, fun n hn => i2 n (k2 n hn), fun n hn => ?_⟩
      rcases i3 n hn with h | ⟨h, h2⟩
      · rcases k3 n h with h3 | h3
        · exact Or.inl h3
        · exact Or.inr ⟨by rw [h3]; exact List.mem_cons_self _ _, by rw [h3]; exact hp⟩
      · exact Or.inr ⟨List.mem_cons_of_mem _ h, h2⟩

/-- After the uninstall loop on a set of names, the presence check finds none of the
names to remove, provided the empty name is not to be removed and no name to remove is a
line of another installed name. -/
theorem uninstallLoop_setWorld_absent (cur l s : List String)
    (h2 : ∀ x ∈ l, x ∉ cur → x ≠ "")
    (h3 : ∀ n ∈ s, ∀ x ∈ l, x ∉ cur → x ∈ Split n → x = n) :
    ∀ x ∈ l, x ∉ cur →
      isFlatpakInstalled (setWorld []) (uninstallLoop (setWorld []) cur s l).state x =
        false := by
  induction l generalizing s with
  | nil => simp
  | cons p rest ih =>
    intro x hx hxc
    rw [uninstallLoop_cons]
    by_cases hc : contains cur p = true
    · have hp : p ∈ cur := (contains_eq_true_iff cur p).1 hc
      simp only [hc, Bool.not_true, Bool.false_eq_true, if_false]
      have hxr : x ∈ rest := by
        rcases List.mem_cons.1 hx with h | h
        · subst h; exact absurd hp hxc
        · exact h
      exact ih s (fun y hy => h2 y (List.mem_cons_of_mem _ hy))
        (fun n hn y hy => h3 n hn y (List.mem_cons_of_mem _ hy)) x hxr hxc
    · have hc2 : contains cur p = false := by simpa using hc
      have hp : p ∉ cur := (contains_eq_false_iff cur p).1 hc2
      simp only [hc2, Bool.not_false, if_true]
      obtain ⟨k1, k2, k3, k4, k5⟩ := uninstall_step_setWorld s p
      obtain ⟨i1, i2, _⟩ := uninstallLoop_setWorld_keeps cur rest
        (uninstallFlatpakApplication (setWorld []) s p).state
      rw [k1]
      simp only
      by_cases hxp : x = p
      · subst hxp
        cases hf : isFlatpakInstalled (setWorld [])
          (uninstallLoop (setWorld []) cur
            (uninstallFlatpakApplication (setWorld []) s x).state rest).state x with
        | false => rfl
        | true =>
          exfalso
          have hst := isFlatpakInstalled_setWorld_mono _ _ x i2 hf
          rcases (isFlatpakInstalled_setWorld_iff [] _ x).1 hst with h | ⟨n, hn, hxn⟩
          · exact h2 x (List.mem_cons_self _ _) hxc h
          · have hns : n ∈ s := k2 n hn
            have hxeq : x = n := h3 n hns x (List.mem_cons_self _ _) hxc hxn
            subst hxeq
            cases hchk : isFlatpakInstalled (setWorld []) s x with
            | true => exact (k4 hchk).2 hn
            | false =>
              have : isFlatpakInstalled (setWorld []) s x = true :=
                (isFlatpakInstalled_setWorld_iff [] s x).2 (Or.inr ⟨x, hns, hxn⟩)
              rw [hchk] at this
              cases this
      · have hxr : x ∈ rest := by
          rcases List.mem_cons.1 hx with h | h
          · exact absurd h hxp
          · exact h
        exact ih _ (fun y hy => h2 y (List.mem_cons_of_mem _ hy))
          (fun n hn y hy => h3 n (k2 n hn) y (List.mem_cons_of_mem _ hy)) x hxr hxc

/-- In the uninstall loop on a set of names, a name to remove that is empty, or a line of
an installed name with a newline, has its uninstall command run. -/
theorem uninstallLoop_setWorld_runs (cur l s : List String) :
    ∀ x ∈ l, x ∉ cur → (x = "" ∨ ∃ n ∈ s, '\n' ∈ n.data ∧ x ∈ Split n) →
      Event.uninstall x true ∈ (uninstallLoop (setWorld []) cur s l).log := by
  induction l generalizing s with
  | nil => simp
  | cons p rest ih =>
    intro x hx hxc hpres
    rw [uninstallLoop_cons]
    by_cases hc : contains cur p = true
    · have hp : p ∈ cur := (contains_eq_true_iff cur p).1 hc
      simp only [hc, Bool.not_true, Bool.false_eq_true, if_false]
      have hxr : x ∈ rest := by
        rcases List.mem_cons.1 hx with h | h
        · subst h; exact absurd hp hxc
        · exact h
      exact ih s x hxr hxc hpres
    · have hc2 : contains cur p = false := by simpa using hc
      simp only [hc2, Bool.not_false, if_true]
      obtain ⟨k1, k2, k3, k4, k5⟩ := uninstall_step_setWorld s p
      rw [k1]
      simp only [List.mem_cons, List.mem_append]
      by_cases hxp : x = p
      · subst hxp
        have hchk : isFlatpakInstalled (setWorld []) s x = true := by
          rw [isFlatpakInstalled_setWorld_iff]
          rcases hpres with h | ⟨n, hn, _, hxn⟩
          · exact Or.inl h
          · exact Or.inr ⟨n, hn, hxn⟩
        rw [(k4 hchk).1]
        simp
      · have hxr : x ∈ rest := by
          rcases List.mem_cons.1 hx with h | h
          · exact absurd h hxp
          · exact h
        right; right
        apply ih _ x hxr hxc
        rcases hpres with h | ⟨n, hn, hnl, hxn⟩
        · exact Or.inl h
        · refine Or.inr ⟨n, ?_, hnl, hxn⟩
          by_cases hnp : n = p
          · have hf : isFlatpakInstalled (setWorld []) s p = false :=
              isFlatpakInstalled_newline _ _ _ (hnp ▸ hnl)
            rw [(k5 hf).2]
            exact hn
          · exact k3 n hn hnp

/-- After the install loop on a set of names, the presence check finds every name to
add, provided none of them contains a newline. -/
theorem installLoop_setWorld_present (prev l s : List String)
    (h1 : ∀ x ∈ l, x ∉ prev → '\n' ∉ x.data) :
    ∀ x ∈ l, x ∉ prev →
      isFlatpakInstalled (setWorld []) (installLoop (setWorld []) prev s l).state x =
        true := by
  induction l generalizing s with
  | nil => simp
  | cons p rest ih =>
    intro x hx hxc
    rw [installLoop_cons]
    by_cases hc : contains prev p = true
    · have hp : p ∈ prev := (contains_eq_true_iff prev p).1 hc
      simp only [hc, Bool.not_true, Bool.false_eq_true, if_false]
      have hxr : x ∈ rest := by
        rcases List.mem_cons.1 hx with h | h
        · subst h; exact absurd hp hxc
        · exact h
      exact ih s (fun y hy => h1 y (List.mem_cons_of_mem _ hy)) x hxr hxc
    · have hc2 : contains prev p = false := by simpa using hc
      simp only [hc2, Bool.not_false, if_true]
      obtain ⟨k1, k2, k3, k4, k5⟩ := install_step_setWorld s p
      obtain ⟨i1, i2, _⟩ := installLoop_setWorld_grows prev rest
        (installFlatpakApplication (setWorld []) s p).state
      rw [k1]
      simp only
      by_cases hxp : x = p
      · subst hxp
        apply isFlatpakInstalled_setWorld_mono _ _ x i2
        cases hchk : isFlatpakInstalled (setWorld []) s x with
        | true =>
          rw [(k4 hchk).2]
          exact hchk
        | false =>
          rw [isFlatpakInstalled_setWorld_iff]
          refine Or.inr ⟨x, (k5 hchk).2, ?_⟩
          rw [Split_of_no_newline x (h1 x (List.mem_cons_self _ _) hxc)]
          exact List.mem_singleton_self x
      · have hxr : x ∈ rest := by
          rcases List.mem_cons.1 hx with h | h
          · exact absurd h hxp
          · exact h
        exact ih _ (fun y hy => h1 y (List.mem_cons_of_mem _ hy)) x hxr hxc

/-- In the install loop on a set of names, a name to add that contains a newline has its
install command run. -/
theorem installLoop_setWorld_runs (prev l s : List String) :
    ∀ x ∈ l, x ∉ prev → '\n' ∈ x.data →
      Event.install x true ∈ (installLoop (setWorld []) prev s l).log := by
  induction l generalizing s with
  | nil => simp
  | cons p rest ih =>
    intro x hx hxc hnl
    rw [installLoop_cons]
    by_cases hc : contains prev p = true
    · have hp : p ∈ prev := (contains_eq_true_iff prev p).1 hc
      simp only [hc, Bool.not_true, Bool.false_eq_true, if_false]
      have hxr : x ∈ rest := by
        rcases List.mem_cons.1 hx with h | h
        · subst h; exact absurd hp hxc
        · exact h
      exact ih s x hxr hxc hnl
    · have hc2 : contains prev p = false := by simpa using hc
      simp only [hc2, Bool.not_false, if_true]
      obtain ⟨k1, k2, k3, k4, k5⟩ := install_step_setWorld s p
      rw [k1]
      simp only [List.mem_cons, List.mem_append]
      by_cases hxp : x = p
      · subst hxp
        rw [(k5 (isFlatpakInstalled_newline _ _ _ hnl)).1]
        simp
      · have hxr : x ∈ rest := by
          rcases List.mem_cons.1 hx with h | h
          · exact absurd h hxp
          · exact h
        right; right
        exact ih _ x hxr hxc hnl

/-- C4 as stated fails, in three ways, on the set of installed names.  A name to add that
contains a newline (`"a\nb"`) is never found by the line-based presence check, so the
second run installs it again.  The empty name, when it is to be removed, is found on every
listing, so every run uninstalls it.  A name to remove (`a`) that is a line of an
installed name with a newline (`"a\nb"`) stays found, so every run uninstalls it. -/
theorem second_sync_runs_a_command_again :
    ((syncPackages (setWorld []) [] [] ["a\nb"]).state = ["a\nb"] ∧
      (syncPackages (setWorld [])
          (syncPackages (setWorld []) [] [] ["a\nb"]).state [] ["a\nb"]).log =
        [Event.backup true, Event.added "a\nb", Event.query "a\nb",
          Event.install "a\nb" true]) ∧
    ((syncPackages (setWorld []) [] [""] []).state = [] ∧
      (syncPackages (setWorld [])
          (syncPackages (setWorld []) [] [""] []).state [""] []).log =
        [Event.backup true, Event.removed "", Event.query "", Event.uninstall "" true]) ∧
    ((syncPackages (setWorld []) ["a\nb"] ["a"] []).state = ["a\nb"] ∧
      (syncPackages (setWorld [])
          (syncPackages (setWorld []) ["a\nb"] ["a"] []).state ["a"] []).log =
        [Event.backup true, Event.removed "a", Event.query "a",
          Event.uninstall "a" true]) := by
  decide

/-- C4, amended: on the package manager that is a set of installed names, listed one per
line, both runs of `syncPackages(previous, current)` return no error, and the second run
issues no install or uninstall command exactly when the presence check can tell the
names of the deltas: no name to add contains a newline, the empty name is not to be
removed, and no name to remove is a line of another installed name.  In that case the
second run skips every selected package at the presence check and leaves the installed
set unchanged. -/
theorem second_sync_is_noop (installed previous current : List String) :
    (syncPackages (setWorld []) installed previous current).err = none ∧
    (syncPackages (setWorld [])
      (syncPackages (setWorld []) installed previous current).state previous current).err =
        none ∧
    (((∀ x ∈ current, x ∉ previous → '\n' ∉ x.data) ∧
      ("" ∈ previous → "" ∈ current) ∧
      (∀ n ∈ installed, ∀ x ∈ previous, x ∉ current → x ∈ Split n → x = n)) ↔
      (∀ e ∈ (syncPackages (setWorld [])
        (syncPackages (setWorld []) installed previous current).state previous current).log,
          e.isCommand = false)) ∧
    ((∀ e ∈ (syncPackages (setWorld [])
        (syncPackages (setWorld []) installed previous current).state previous current).log,
          e.isCommand = false) →
      (syncPackages (setWorld [])
        (syncPackages (setWorld []) installed previous current).state previous current).state =
          (syncPackages (setWorld []) installed previous current).state ∧
      (∀ x ∈ previous, x ∉ current → Event.skipUninstall x ∈ (syncPackages (setWorld [])
        (syncPackages (setWorld []) installed previous current).state previous current).log) ∧
      (∀ x ∈ current, x ∉ previous → Event.skipInstall x ∈ (syncPackages (setWorld [])
        (syncPackages (setWorld []) installed previous current).state previous current).log)) := by
  have hb : ∀ t : List String, (setWorld []).backup t = (true, t) := fun _ => rfl
  -- the first run
  obtain ⟨u1, u2, u3⟩ := uninstallLoop_setWorld_keeps current previous installed
  obtain ⟨g1, g2, g3⟩ := installLoop_setWorld_grows previous current
    (uninstallLoop (setWorld []) current installed previous).state
  have hstate1 : (syncPackages (setWorld []) installed previous current).state =
      (installLoop (setWorld []) previous
        (uninstallLoop (setWorld []) current installed previous).state current).state := by
    rw [syncPackages_state, hb, u1]
  have herr1 : (syncPackages (setWorld []) installed previous current).err = none := by
    rw [syncPackages_err, hb, u1]
    exact g1
  -- the second run
  obtain ⟨v1, _, _⟩ := uninstallLoop_setWorld_keeps current previous
    (syncPackages (setWorld []) installed previous current).state
  obtain ⟨w1, _, _⟩ := installLoop_setWorld_grows previous current
    (uninstallLoop (setWorld []) current
      (syncPackages (setWorld []) installed previous current).state previous).state
  have herr2 : (syncPackages (setWorld [])
      (syncPackages (setWorld []) installed previous current).state previous current).err =
        none := by
    rw [syncPackages_err, hb, v1]
    exact w1
  have hlog2 : (syncPackages (setWorld [])
      (syncPackages (setWorld []) installed previous current).state previous current).log =
      Event.backup true ::
        ((uninstallLoop (setWorld []) current
          (syncPackages (setWorld []) installed previous current).state previous).log ++
        (installLoop (setWorld []) previous
          (uninstallLoop (setWorld []) current
            (syncPackages (setWorld []) installed previous current).state
              previous).state current).log) := by
    rw [syncPackages_log, hb, v1]
  -- the three conditions make the second run a run on a converged system
  have hsuff : ((∀ x ∈ current, x ∉ previous → '\n' ∉ x.data) ∧
      ("" ∈ previous → "" ∈ current) ∧
      (∀ n ∈ installed, ∀ x ∈ previous, x ∉ current → x ∈ Split n → x = n)) →
      (∀ x ∈ previous, x ∉ current → isFlatpakInstalled (setWorld [])
        (syncPackages (setWorld []) installed previous current).state x = false) ∧
      (∀ x ∈ current, x ∉ previous → isFlatpakInstalled (setWorld [])
        (syncPackages (setWorld []) installed previous current).state x = true) := by
    rintro ⟨c1, c2, c3⟩
    rw [hstate1]
    constructor
    · intro x hx hxc
      have habs := uninstallLoop_setWorld_absent current previous installed
        (fun y hy hyc he => hyc (he ▸ c2 (he ▸ hy))) c3 x hx hxc
      cases hf : isFlatpakInstalled (setWorld []) (installLoop (setWorld []) previous
        (uninstallLoop (setWorld []) current installed previous).state current).state x with
      | false => rfl
      | true =>
        exfalso
        rcases (isFlatpakInstalled_setWorld_iff [] _ x).1 hf with h | ⟨n, hn, hxn⟩
        · exact hxc (h ▸ c2 (h ▸ hx))
        · rcases g3 n hn with h | ⟨h, h2⟩
          · have : isFlatpakInstalled (setWorld [])
                (uninstallLoop (setWorld []) current installed previous).state x = true :=
              (isFlatpakInstalled_setWorld_iff [] _ x).2 (Or.inr ⟨n, h, hxn⟩)
            rw [habs] at this
            cases this
          · rw [Split_of_no_newline n (c1 n h h2), List.mem_singleton] at hxn
            exact hxc (hxn ▸ h)
    · exact installLoop_setWorld_present previous current _ c1
  have hnec : (∀ e ∈ (syncPackages (setWorld [])
      (syncPackages (setWorld []) installed previous current).state previous current).log,
        e.isCommand = false) →
      (∀ x ∈ current, x ∉ previous → '\n' ∉ x.data) ∧
      ("" ∈ previous → "" ∈ current) ∧
      (∀ n ∈ installed, ∀ x ∈ previous, x ∉ current → x ∈ Split n → x = n) := by
    intro hno
    rw [hlog2] at hno
    refine ⟨?_, ?_, ?_⟩
    · intro x hx hxp hnl
      have := installLoop_setWorld_runs previous current
        (uninstallLoop (setWorld []) current
          (syncPackages (setWorld []) installed previous current).state previous).state
        x hx hxp hnl
      have hc := hno _ (List.mem_cons_of_mem _ (List.mem_append_right _ this))
      cases hc
    · intro hp
      by_contra hc
      have := uninstallLoop_setWorld_runs current previous
        (syncPackages (setWorld []) installed previous current).state "" hp hc (Or.inl rfl)
      have hc2 := hno _ (List.mem_cons_of_mem _ (List.mem_append_left _ this))
      cases hc2
    · intro n hn x hx hxc hxn
      by_contra hne
      have hnl : '\n' ∈ n.data := by
        by_contra hfree
        rw [Split_of_no_newline n hfree, List.mem_singleton] at hxn
        exact hne hxn
      have hn1 : n ∈ (syncPackages (setWorld []) installed previous current).state := by
        rw [hstate1]
        exact g2 n (u3 n hn hnl)
      have := uninstallLoop_setWorld_runs current previous
        (syncPackages (setWorld []) installed previous current).state x hx hxc
        (Or.inr ⟨n, hn1, hnl, hxn⟩)
      have hc2 := hno _ (List.mem_cons_of_mem _ (List.mem_append_left _ this))
      cases hc2
  have hconv : ((∀ x ∈ current, x ∉ previous → '\n' ∉ x.data) ∧
      ("" ∈ previous → "" ∈ current) ∧
      (∀ n ∈ installed, ∀ x ∈ previous, x ∉ current → x ∈ Split n → x = n)) → _ :=
    fun hc => syncPackages_converged (setWorld [])
      (syncPackages (setWorld []) installed previous current).state previous current
      (by rw [hb]; exact (hsuff hc).1) (by rw [hb]; exact (hsuff hc).2)
  refine ⟨herr1, herr2, ⟨fun hc => (hconv hc).2.2.1, hnec⟩, ?_⟩
  intro hno
  have key := hconv (hnec hno)
  rw [hb] at key
  exact ⟨key.1, key.2.2.2.1, key.2.2.2.2⟩

/-- C4 at `installed = [a, b]`, `previous = [a, b]`, `current = [b, c]`, and at a
previous name with a newline and the empty name to add, where the second run is a no-op
as well. -/
theorem second_sync_is_noop_witness :
    (syncPackages (setWorld []) ["a", "b"] ["a", "b"] ["b", "c"]).state = ["b", "c"] ∧
    (∀ e ∈ (syncPackages (setWorld [])
      (syncPackages (setWorld []) ["a", "b"] ["a", "b"] ["b", "c"]).state
        ["a", "b"] ["b", "c"]).log, e.isCommand = false) ∧
    (∀ e ∈ (syncPackages (setWorld [])
      (syncPackages (setWorld []) ["z"] ["p\nq"] [""]).state ["p\nq"] [""]).log,
        e.isCommand = false) :=
  ⟨by decide,
    (second_sync_is_noop ["a", "b"] ["a", "b"] ["b", "c"]).2.2.1.1
      ⟨by decide, by decide, by decide⟩,
    (second_sync_is_noop ["z"] ["p\nq"] [""]).2.2.1.1 ⟨by decide, by decide, by decide⟩⟩

/-! ## The JSON encoding of a `[]string` is read back -/

theorem hexVal_hexDigit : ∀ n, n < 16 → hexVal (hexDigit n) = some n := by
  decide

theorem consChar_some (c : Char) (body rest : List Char) :
    consChar c (some (body, rest)) = some (c :: body, rest) := rfl

theorem hex4_low (n : Nat) (h : n < 256) :
    hex4 '0' '0' (hexDigit (n / 16)) (hexDigit (n % 16)) = some n := by
  have h1 : hexVal (hexDigit (n / 16)) = some (n / 16) := hexVal_hexDigit _ (by omega)
  have h2 : hexVal (hexDigit (n % 16)) = some (n % 16) := hexVal_hexDigit _ (by omega)
  have h0 : hexVal '0' = some 0 := by decide
  simp only [hex4, h0, h1, h2]
  congr 1
  omega

theorem scanString_plain (c : Char) (tail : List Char) (h1 : c ≠ '"') (h2 : c ≠ '\\')
    (h3 : ¬ c.toNat < 32) : scanString (c :: tail) = consChar c (scanString tail) := by
  unfold scanString
  rw [scanStringAux]
  simp only [h1, h2, h3, if_false]

theorem scanStringAux_skip (pre tail : List Char) :
    scanStringAux pre.length (pre ++ tail) = scanStringAux 0 tail := by
  induction pre with
  | nil => rfl
  | cons c pre ih =>
    simp only [List.length_cons, List.cons_append]
    rw [scanStringAux]
    exact ih

theorem scanString_escape (pre tail : List Char) (ch : Char)
    (h : decodeEscape (pre ++ tail) = some (ch, pre.length)) :
    scanString ('\\' :: (pre ++ tail)) = consChar ch (scanString tail) := by
  unfold scanString
  rw [scanStringAux]
  have h1 : ('\\' : Char) ≠ '"' := by decide
  simp only [h1, if_false, if_true, h, scanStringAux_skip]

theorem char_eq_ofNat (c : Char) (n : Nat) (h : c.toNat = n) : Char.ofNat n = c := by
  rw [← h]
  exact Char.ofNat_toNat c

theorem decodeEscape_low (n : Nat) (h : n < 256) (tail : List Char) :
    decodeEscape ('u' :: '0' :: '0' :: hexDigit (n / 16) :: hexDigit (n % 16) :: tail) =
      some (Char.ofNat n, 5) := by
  have h2 : ¬ (0xD800 ≤ n ∧ n < 0xDC00) := by omega
  have h3 : ¬ (0xDC00 ≤ n ∧ n < 0xE000) := by omega
  simp only [decodeEscape, if_true, hex4_low n h, h2, h3, if_false]

theorem decodeEscape_simple (e ch : Char) (tail : List Char) (he : e ≠ 'u')
    (h : simpleEscape e = some ch) : decodeEscape (e :: tail) = some (ch, 1) := by
  simp only [decodeEscape, he, if_false, h]

theorem decodeEscape_2028 (tail : List Char) :
    decodeEscape ('u' :: '2' :: '0' :: '2' :: '8' :: tail) = some (Char.ofNat 0x2028, 5) := by
  have h : hex4 '2' '0' '2' '8' = some 0x2028 := by decide
  simp only [decodeEscape, if_true, h]
  simp

theorem decodeEscape_2029 (tail : List Char) :
    decodeEscape ('u' :: '2' :: '0' :: '2' :: '9' :: tail) = some (Char.ofNat 0x2029, 5) := by
  have h : hex4 '2' '0' '2' '9' = some 0x2029 := by decide
  simp only [decodeEscape, if_true, h]
  simp

/-- The decoder reads the encoding of one character back as that character. -/
theorem scanString_escapeChar (c : Char) (tail : List Char) :
    scanString (escapeChar c ++ tail) = consChar c (scanString tail) := by
  by_cases h1 : c = '"'
  · have he : escapeChar c = ['\\', '"'] := by rw [escapeChar, if_pos h1]
    rw [he, h1]
    exact scanString_escape ['"'] tail '"'
      (decodeEscape_simple '"' '"' tail (by decide) (by decide))
  by_cases h2 : c = '\\'
  · have he : escapeChar c = ['\\', '\\'] := by rw [escapeChar, if_neg h1, if_pos h2]
    rw [he, h2]
    exact scanString_escape ['\\'] tail '\\'
      (decodeEscape_simple '\\' '\\' tail (by decide) (by decide))
  by_cases h3 : c = '\n'
  · have he : escapeChar c = ['\\', 'n'] := by
      rw [escapeChar, if_neg h1, if_neg h2, if_pos h3]
    rw [he, h3]
    exact scanString_escape ['n'] tail '\n'
      (decodeEscape_simple 'n' '\n' tail (by decide) (by decide))
  by_cases h4 : c = '\r'
  · have he : escapeChar c = ['\\', 'r'] := by
      rw [escapeChar, if_neg h1, if_neg h2, if_neg h3, if_pos h4]
    rw [he, h4]
    exact scanString_escape ['r'] tail '\r'
      (decodeEscape_simple 'r' '\r' tail (by decide) (by decide))
  by_cases h5 : c = '\t'
  · have he : escapeChar c = ['\\', 't'] := by
      rw [escapeChar, if_neg h1, if_neg h2, if_neg h3, if_neg h4, if_pos h5]
    rw [he, h5]
    exact scanString_escape ['t'] tail '\t'
      (decodeEscape_simple 't' '\t' tail (by decide) (by decide))
  by_cases h6 : c.toNat = 8
  · have he : escapeChar c = ['\\', 'b'] := by
      rw [escapeChar, if_neg h1, if_neg h2, if_neg h3, if_neg h4, if_neg h5, if_pos h6]
    rw [he, ← char_eq_ofNat c 8 h6]
    exact scanString_escape ['b'] tail (Char.ofNat 8)
      (decodeEscape_simple 'b' (Char.ofNat 8) tail (by decide) (by decide))
  by_cases h7 : c.toNat = 12
  · have he : escapeChar c = ['\\', 'f'] := by
      rw [escapeChar, if_neg h1, if_neg h2, if_neg h3, if_neg h4, if_neg h5, if_neg h6,
        if_pos h7]
    rw [he, ← char_eq_ofNat c 12 h7]
    exact scanString_escape ['f'] tail (Char.ofNat 12)
      (decodeEscape_simple 'f' (Char.ofNat 12) tail (by decide) (by decide))
  by_cases h8 : c.toNat < 32 ∨ c = '<' ∨ c = '>' ∨ c = '&'
  · have he : escapeChar c =
        ['\\', 'u', '0', '0', hexDigit (c.toNat / 16), hexDigit (c.toNat % 16)] := by
      rw [escapeChar, if_neg h1, if_neg h2, if_neg h3, if_neg h4, if_neg h5, if_neg h6,
        if_neg h7, if_pos h8]
    have hlt : c.toNat < 256 := by
      rcases h8 with h | rfl | rfl | rfl
      · omega
      · decide
      · decide
      · decide
    have hd := decodeEscape_low c.toNat hlt tail
    rw [Char.ofNat_toNat] at hd
    rw [he]
    exact scanString_escape
      ['u', '0', '0', hexDigit (c.toNat / 16), hexDigit (c.toNat % 16)] tail c hd
  by_cases h9 : c.toNat = 0x2028
  · have he : escapeChar c = ['\\', 'u', '2', '0', '2', '8'] := by
      rw [escapeChar, if_neg h1, if_neg h2, if_neg h3, if_neg h4, if_neg h5, if_neg h6,
        if_neg h7, if_neg h8, if_pos h9]
    rw [he, ← char_eq_ofNat c 0x2028 h9]
    exact scanString_escape ['u', '2', '0', '2', '8'] tail (Char.ofNat 0x2028)
      (decodeEscape_2028 tail)
  by_cases h10 : c.toNat = 0x2029
  · have he : escapeChar c = ['\\', 'u', '2', '0', '2', '9'] := by
      rw [escapeChar, if_neg h1, if_neg h2, if_neg h3, if_neg h4, if_neg h5, if_neg h6,
        if_neg h7, if_neg h8, if_neg h9, if_pos h10]
    rw [he, ← char_eq_ofNat c 0x2029 h10]
    exact scanString_escape ['u', '2', '0', '2', '9'] tail (Char.ofNat 0x2029)
      (decodeEscape_2029 tail)
  have he : escapeChar c = [c] := by
    rw [escapeChar, if_neg h1, if_neg h2, if_neg h3, if_neg h4, if_neg h5, if_neg h6,
      if_neg h7, if_neg h8, if_neg h9, if_neg h10]
  rw [he]
  exact scanString_plain c tail h1 h2 (fun hlt => h8 (Or.inl hlt))

/-- The decoder reads the encoding of a string back as that string. -/
theorem scanString_body (body rest : List Char) :
    scanString (body.flatMap escapeChar ++ '"' :: rest) = some (body, rest) := by
  induction body with
  | nil =>
    show scanStringAux 0 ('"' :: rest) = some ([], rest)
    rw [scanStringAux]
    simp
  | cons c body ih =>
    rw [List.flatMap_cons, List.append_assoc, scanString_escapeChar, ih]
    rfl

theorem quote_append (x : String) (rest : List Char) :
    quote x ++ rest = '"' :: (x.data.flatMap escapeChar ++ '"' :: rest) := by
  simp [quote]

theorem scanElement_quote (x : String) (rest : List Char) :
    scanElement (quote x ++ rest) = some (x, rest) := by
  rw [quote_append]
  simp only [scanElement, if_true, scanString_body]

theorem skipSpace_quote (x : String) (rest : List Char) :
    skipSpace (quote x ++ rest) = quote x ++ rest := by
  rw [quote_append]
  rw [skipSpace]
  have h : isSpace '"' = false := by decide
  simp [h]

theorem skipSpace_indent (rest : List Char) :
    skipSpace ('\n' :: (indentUnit ++ rest)) = skipSpace rest := by
  have h1 : isSpace '\n' = true := by decide
  have h2 : isSpace ' ' = true := by decide
  simp [indentUnit, skipSpace, h1, h2]

theorem length_le_marshalTail (xs : List String) : xs.length + 1 ≤ (marshalTail xs).length := by
  induction xs with
  | nil => simp [marshalTail]
  | cons x xs ih =>
    simp only [marshalTail, List.length_cons, List.length_append]
    omega

/-- The decoder reads the elements of an indented array back. -/
theorem scanElements_marshal (xs : List String) (x : String) (fuel : Nat)
    (h : xs.length + 1 ≤ fuel) :
    scanElements fuel (quote x ++ marshalTail xs) = some (x :: xs, []) := by
  induction xs generalizing x fuel with
  | nil =>
    obtain ⟨f, rfl⟩ : ∃ f, fuel = f + 1 := ⟨fuel - 1, by simp at h; omega⟩
    rw [scanElements, scanElement_quote]
    have h1 : skipSpace (marshalTail []) = [']'] := by decide
    simp only [h1]
    have h2 : (']' : Char) ≠ ',' := by decide
    simp [h2]
  | cons y ys ih =>
    obtain ⟨f, rfl⟩ : ∃ f, fuel = f + 1 := ⟨fuel - 1, by simp at h; omega⟩
    have hf : ys.length + 1 ≤ f := by simp at h; omega
    rw [scanElements, scanElement_quote]
    have h1 : skipSpace (marshalTail (y :: ys)) =
        ',' :: '\n' :: (indentUnit ++ (quote y ++ marshalTail ys)) := by
      rw [marshalTail, skipSpace]
      have : isSpace ',' = false := by decide
      simp [this]
    simp only [h1, if_true]
    rw [skipSpace_indent, skipSpace_quote, ih y f hf]

/-- Decoding undoes encoding: `json.Unmarshal` of `json.MarshalIndent(S)` into a nil
slice leaves `S`, nil for nil and empty for empty, without error. -/
theorem unmarshal_marshalIndent (S : Slice) : unmarshal (marshalIndent S).data = some S := by
  cases S with
  | none => decide
  | some l =>
    cases l with
    | nil => decide
    | cons x xs =>
      have hd : (marshalIndent (some (x :: xs))).data =
          '[' :: '\n' :: (indentUnit ++ (quote x ++ marshalTail xs)) := rfl
      rw [hd, unmarshal]
      have h0 : skipSpace ('[' :: '\n' :: (indentUnit ++ (quote x ++ marshalTail xs))) =
          '[' :: '\n' :: (indentUnit ++ (quote x ++ marshalTail xs)) := by
        rw [skipSpace]
        have : isSpace '[' = false := by decide
        simp [this]
      have h1 : afterNull ('[' :: '\n' :: (indentUnit ++ (quote x ++ marshalTail xs))) =
          none := by
        simp [afterNull, indentUnit]
      have h2 : skipSpace ('\n' :: (indentUnit ++ (quote x ++ marshalTail xs))) =
          '"' :: (x.data.flatMap escapeChar ++ '"' :: marshalTail xs) := by
        rw [skipSpace_indent, skipSpace_quote, quote_append]
      have h3 : scanElements ('"' :: (x.data.flatMap escapeChar ++ '"' :: marshalTail xs)).length
          ('"' :: (x.data.flatMap escapeChar ++ '"' :: marshalTail xs)) = some (x :: xs, []) := by
        rw [← quote_append]
        apply scanElements_marshal
        have := length_le_marshalTail xs
        simp only [List.length_append]
        omega
      have h4 : ('"' : Char) ≠ ']' := by decide
      simp only [h0, h1, h2, if_true, h4, if_false, h3]
      rfl

theorem marshalIndent_ne_empty (S : Slice) : (marshalIndent S).data.length > 0 := by
  cases S with
  | none => decide
  | some l =>
    cases l with
    | nil => decide
    | cons x xs =>
      have hd : (marshalIndent (some (x :: xs))).data =
          '[' :: '\n' :: (indentUnit ++ (quote x ++ marshalTail xs)) := rfl
      rw [hd]
      simp

/-! ## Reading `active.json` -/

theorem keepNonEmpty_some (l : List String) (acc : List String) :
    keepNonEmpty (some acc) l ≠ none := by
  induction l generalizing acc with
  | nil => simp [keepNonEmpty]
  | cons x l ih =>
    by_cases hx : x = ""
    · simp only [keepNonEmpty, hx, ne_eq, not_true_eq_false, if_false]
      exact ih acc
    · simp only [keepNonEmpty, hx, ne_eq, not_false_eq_true, if_true, Slice.push]
      exact ih _

/-- The list of installed applications is the nil slice exactly when it has no element. -/
theorem keepNonEmpty_eq_none_iff (l : List String) :
    keepNonEmpty none l = none ↔ (keepNonEmpty none l).len = 0 := by
  constructor
  · intro h; rw [h]; rfl
  · intro h
    apply keepNonEmpty_nil_of_all_empty
    intro x hx
    by_contra hne
    have hmem : x ∈ (keepNonEmpty none l).toList := by
      rw [keepNonEmpty_toList]
      simp [Slice.toList, List.mem_filter, hx, hne]
    have hlen : (keepNonEmpty none l).toList.length = 0 := h
    rw [List.length_eq_zero] at hlen
    rw [hlen] at hmem
    cases hmem

/-- What `readActiveFile` returns on a file that exists and can be read. -/
theorem readActiveFile_data {σ : Type} (d : Disk σ) (s : σ) (content : String)
    (h : d.readActive s = FileRead.data content) :
    readActiveFile d s =
      if content.data.length > 0 then
        match unmarshal content.data with
        | none => Except.error Err.parseFailed
        | some packages => Except.ok packages
      else Except.ok none := by
  unfold readActiveFile
  rw [h]

/-- C7 as stated fails: with no application installed and no `active.json`,
`createActiveFile` writes the text `null`, and `readActiveFile` then returns nil, nil,
which is what it returns when the file is absent; `updateActiveFile` writes the same. -/
theorem empty_set_reads_back_as_absent :
    createActiveFile (sysWorld []) sysDisk ⟨[], none⟩ = (⟨[], some "null"⟩, none) ∧
    updateActiveFile (sysWorld []) sysDisk ⟨[], none⟩ = (⟨[], some "null"⟩, none) ∧
    readActiveFile sysDisk ⟨[], some "null"⟩ = Except.ok none ∧
    readActiveFile sysDisk ⟨[], none⟩ = Except.ok none := by
  decide

/-- C7, amended: on a disk where reading gives what was last written, writing the
indented JSON encoding of any slice `S` and then calling `readActiveFile` returns exactly
`S` without error, nil for nil; and after a successful `createActiveFile` the slice read
back is the installed list, which is non-nil exactly when it has an element (an empty
installed set is written as `null` and read back as nil). -/
theorem active_file_round_trip (σ : Type) (w : World σ) (d : Disk σ)
    (hlaw : ∀ t c t2, d.writeActive t c = (true, t2) → d.readActive t2 = FileRead.data c) :
    (∀ (S : Slice) (t t2 : σ), d.writeActive t (marshalIndent S) = (true, t2) →
      readActiveFile d t2 = Except.ok S) ∧
    (∀ s s2, createActiveFile w d s = (s2, none) →
      ∃ installed, getInstalledFlatpakApplications w (d.mkdirAll s).2 = Except.ok installed ∧
        readActiveFile d s2 = Except.ok installed ∧
        (installed = none ↔ installed.len = 0)) := by
  have key : ∀ (S : Slice) (t t2 : σ), d.writeActive t (marshalIndent S) = (true, t2) →
      readActiveFile d t2 = Except.ok S := by
    intro S t t2 hw
    rw [readActiveFile_data d t2 _ (hlaw t _ t2 hw), if_pos (marshalIndent_ne_empty S),
      unmarshal_marshalIndent]
  refine ⟨key, ?_⟩
  intro s s2 hc
  unfold createActiveFile at hc
  rcases hm : d.mkdirAll s with ⟨ok, s1⟩
  rw [hm] at hc
  cases ok with
  | false => simp at hc
  | true =>
    simp only at hc
    cases hg : getInstalledFlatpakApplications w s1 with
    | error e => rw [hg] at hc; simp at hc
    | ok installed =>
      rw [hg] at hc
      simp only at hc
      rcases hw : d.writeActive s1 (marshalIndent installed) with ⟨ok2, s3⟩
      rw [hw] at hc
      cases ok2 with
      | false => simp at hc
      | true =>
        simp only [Prod.mk.injEq, and_true] at hc
        subst hc
        refine ⟨installed, rfl, key installed s1 s3 hw, ?_⟩
        unfold getInstalledFlatpakApplications at hg
        cases hl : w.list s1 with
        | none => rw [hl] at hg; cases hg
        | some output =>
          rw [hl] at hg
          simp only [Except.ok.injEq] at hg
          rw [← hg]
          exact keepNonEmpty_eq_none_iff _

/-- C7 on a system with `org.a` and `org.b` installed and no `active.json` yet. -/
theorem active_file_round_trip_witness :
    readActiveFile sysDisk (createActiveFile (sysWorld []) sysDisk
      ⟨["org.a", "org.b"], none⟩).1 = Except.ok (some ["org.a", "org.b"]) := by
  obtain ⟨installed, h1, h2, _⟩ := (active_file_round_trip Sys (sysWorld []) sysDisk
    (fun t c t2 h => by cases h; rfl)).2 ⟨["org.a", "org.b"], none⟩
    (createActiveFile (sysWorld []) sysDisk ⟨["org.a", "org.b"], none⟩).1 (by decide)
  rw [h2, ← h1]
  decide

/-! ## The daemon loop and the sync of the package `flatpak` -/

theorem syncPackages_log_head {σ : Type} (w : World σ) (s : σ) (prev cur : List String) :
    Event.backup (w.backup s).1 ∈ (syncPackages w s prev cur).log := by
  rw [syncPackages_log]
  exact List.mem_cons_self _ _

/-- C9, amended: in an iteration of the `runDaemon` loop that has read `current`, `syncPackages`
is invoked (its backup is in the log) if and only if `current` and `previous` both have
elements, and the iteration is then that run of `syncPackages`; when either is empty the
iteration produces no event at all and changes nothing.  In both cases the next
`previousPackages` is `current`, unless `syncPackages` returned an error, with which
`log.Fatalf` ends the process. -/
theorem daemon_reconcile_gate (σ : Type) (w : World σ) (d : Disk σ) (s : σ)
    (previous current : Slice) (h : readActiveFile d s = Except.ok current) :
    ((∃ b, Event.backup b ∈ (daemonStep w d s previous).log) ↔
      (current.len > 0 ∧ previous.len > 0)) ∧
    (current.len > 0 ∧ previous.len > 0 →
      (daemonStep w d s previous).log =
        (syncPackages w s previous.toList current.toList).log ∧
      (daemonStep w d s previous).state =
        (syncPackages w s previous.toList current.toList).state ∧
      (daemonStep w d s previous).next =
        (match (syncPackages w s previous.toList current.toList).err with
          | some e => Except.error e
          | none => Except.ok current)) ∧
    (¬ (current.len > 0 ∧ previous.len > 0) →
      (daemonStep w d s previous).log = [] ∧ (daemonStep w d s previous).state = s ∧
      (daemonStep w d s previous).next = Except.ok current) ∧
    (∀ nxt, (daemonStep w d s previous).next = Except.ok nxt → nxt = current) := by
  have hyes : current.len > 0 ∧ previous.len > 0 →
      (daemonStep w d s previous).log =
        (syncPackages w s previous.toList current.toList).log ∧
      (daemonStep w d s previous).state =
        (syncPackages w s previous.toList current.toList).state ∧
      (daemonStep w d s previous).next =
        (match (syncPackages w s previous.toList current.toList).err with
          | some e => Except.error e
          | none => Except.ok current) := by
    intro hg
    unfold daemonStep
    rw [h]
    simp only [hg, and_self, if_true]
    cases herr : (syncPackages w s previous.toList current.toList).err <;> simp
  have hno : ¬ (current.len > 0 ∧ previous.len > 0) →
      (daemonStep w d s previous).log = [] ∧ (daemonStep w d s previous).state = s ∧
      (daemonStep w d s previous).next = Except.ok current := by
    intro hg
    unfold daemonStep
    rw [h]
    simp only [hg, if_false, and_self]
  refine ⟨⟨?_, ?_⟩, hyes, hno, ?_⟩
  · rintro ⟨b, hb⟩
    by_contra hg
    rw [(hno hg).1] at hb
    cases hb
  · intro hg
    refine ⟨(w.backup s).1, ?_⟩
    rw [(hyes hg).1]
    exact syncPackages_log_head w s _ _
  · intro nxt hn
    by_cases hg : current.len > 0 ∧ previous.len > 0
    · rw [(hyes hg).2.2] at hn
      cases herr : (syncPackages w s previous.toList current.toList).err with
      | some e => rw [herr] at hn; cases hn
      | none =>
        rw [herr] at hn
        exact (Except.ok.inj hn).symm
    · rw [(hno hg).2.2] at hn
      exact (Except.ok.inj hn).symm

/-- C9 on a manifest emptied to `[]` while `org.a` and `org.b` are installed and were
the previous list: nothing is uninstalled, and the next previous list is the empty one. -/
theorem daemon_reconcile_gate_witness :
    (daemonStep (sysWorld []) sysDisk ⟨["org.a", "org.b"], some "[]"⟩
      (some ["org.a", "org.b"])).log = [] ∧
    (daemonStep (sysWorld []) sysDisk ⟨["org.a", "org.b"], some "[]"⟩
      (some ["org.a", "org.b"])).next = Except.ok (some []) :=
  have h := (daemon_reconcile_gate Sys (sysWorld []) sysDisk
    ⟨["org.a", "org.b"], some "[]"⟩ (some ["org.a", "org.b"]) (some [])
    (by decide)).2.2.1 (by decide)
  ⟨h.1, h.2.2⟩

/-- C9 as stated fails: with `org.a` installed, previous `[org.a]`, the manifest read
`[org.b]` and the uninstall of `org.a` failing, `syncPackages` is invoked and returns its
error; `log.Fatalf` ends the process, and the iteration does not set the previous list
to the one read. -/
theorem failed_sync_ends_the_daemon :
    readActiveFile sysDisk ⟨["org.a"], some "[\"org.b\"]"⟩ = Except.ok (some ["org.b"]) ∧
    (daemonStep (sysWorld ["org.a"]) sysDisk ⟨["org.a"], some "[\"org.b\"]"⟩
      (some ["org.a"])).log =
      [Event.backup true, Event.removed "org.a", Event.query "org.a",
        Event.uninstall "org.a" false] ∧
    (daemonStep (sysWorld ["org.a"]) sysDisk ⟨["org.a"], some "[\"org.b\"]"⟩
      (some ["org.a"])).next = Except.error (Err.uninstallFailed "org.a") ∧
    (daemonStep (sysWorld ["org.a"]) sysDisk ⟨["org.a"], some "[\"org.b\"]"⟩
      (some ["org.a"])).next ≠ Except.ok (some ["org.b"]) := by
  decide

/-- C3 fails on the code: with the manifest `["a"]` and an empty installed list,
`SyncPackages` of `src/pkg/flatpak/flatpak.go` does not install `a` but runs the
uninstall of `a`; with the manifest `["a"]` and the installed list `["b"]` it installs
`b` and uninstalls `a`, where the claim has it install `a` and uninstall `b` (as
`syncPackages` of `src/main.go` does on previous `["b"]` and current `["a"]`). -/
theorem SyncPackages_swaps_the_deltas :
    (SyncPackages (sysWorld []) sysDisk ⟨[], some "[\"a\"]"⟩ []).log =
      [Event.uninstall "a" true] ∧
    (SyncPackages (sysWorld []) sysDisk ⟨[], some "[\"a\"]"⟩ []).err = none ∧
    (SyncPackages (sysWorld []) sysDisk ⟨["b"], some "[\"a\"]"⟩ ["b"]).log =
      [Event.install "b" true, Event.uninstall "a" true] ∧
    (SyncPackages (sysWorld []) sysDisk ⟨["b"], some "[\"a\"]"⟩ ["b"]).state =
      ⟨["b"], some "[\"a\"]"⟩ ∧
    (syncPackages (sysWorld []) ⟨["b"], some "[\"a\"]"⟩ ["b"] ["a"]).log =
      [Event.backup true, Event.removed "b", Event.query "b", Event.uninstall "b" true,
        Event.added "a", Event.query "a", Event.install "a" true] := by
  decide

/-! ## The fuel of `scanElements` never runs out -/

theorem skipSpace_length_le (cs : List Char) : (skipSpace cs).length ≤ cs.length := by
  induction cs with
  | nil => simp [skipSpace]
  | cons c cs ih =>
    rw [skipSpace]
    split
    · exact Nat.le_succ_of_le ih
    · exact Nat.le_refl _

theorem consChar_eq_some (c : Char) (r : Option (List Char × List Char))
    (body rest : List Char) (h : consChar c r = some (body, rest)) :
    ∃ body1, r = some (body1, rest) := by
  cases r with
  | none => cases h
  | some p =>
    obtain ⟨b1, r1⟩ := p
    simp only [consChar, Option.some.injEq, Prod.mk.injEq] at h
    exact ⟨b1, by rw [h.2]⟩

/-- A string literal that is read takes at least its closing quote from the text. -/
theorem scanStringAux_length (cs : List Char) :
    ∀ (k : Nat) (body rest : List Char), scanStringAux k cs = some (body, rest) →
      rest.length < cs.length := by
  induction cs with
  | nil =>
    intro k body rest h
    cases k <;> simp [scanStringAux] at h
  | cons c cs ih =>
    intro k body rest h
    cases k with
    | succ k =>
      rw [scanStringAux] at h
      exact Nat.lt_succ_of_lt (ih k body rest h)
    | zero =>
      rw [scanStringAux] at h
      by_cases h1 : c = '"'
      · simp only [h1, if_true, Option.some.injEq, Prod.mk.injEq] at h
        rw [← h.2]
        exact Nat.lt_succ_self _
      · simp only [h1, if_false] at h
        by_cases h2 : c = '\\'
        · simp only [h2, if_true] at h
          cases hd : decodeEscape cs with
          | none => rw [hd] at h; cases h
          | some p =>
            obtain ⟨ch, k⟩ := p
            rw [hd] at h
            simp only at h
            obtain ⟨b1, hb⟩ := consChar_eq_some _ _ _ _ h
            exact Nat.lt_succ_of_lt (ih k b1 rest hb)
        · simp only [h2, if_false] at h
          by_cases h3 : c.toNat < 32
          · simp only [h3, if_true] at h
            cases h
          · simp only [h3, if_false] at h
            obtain ⟨b1, hb⟩ := consChar_eq_some _ _ _ _ h
            exact Nat.lt_succ_of_lt (ih 0 b1 rest hb)

theorem afterNull_length (cs rest : List Char) (h : afterNull cs = some rest) :
    rest.length < cs.length := by
  match cs, h with
  | a :: b :: c :: d :: tl, h =>
    simp only [afterNull] at h
    split at h
    · simp only [Option.some.injEq] at h
      rw [← h]
      simp only [List.length_cons]
      omega
    · cases h

/-- An element that is read takes at least one character from the text. -/
theorem scanElement_length (cs : List Char) (x : String) (rest : List Char)
    (h : scanElement cs = some (x, rest)) : rest.length < cs.length := by
  cases cs with
  | nil => simp [scanElement] at h
  | cons c tl =>
    simp only [scanElement] at h
    by_cases hc : c = '"'
    · simp only [hc, if_true] at h
      cases hs : scanString tl with
      | none => rw [hs] at h; cases h
      | some p =>
        obtain ⟨b1, r1⟩ := p
        rw [hs] at h
        simp only [Option.some.injEq, Prod.mk.injEq] at h
        rw [← h.2]
        exact Nat.lt_succ_of_lt (scanStringAux_length tl 0 b1 r1 hs)
    · simp only [hc, if_false] at h
      cases ha : afterNull (c :: tl) with
      | none => rw [ha] at h; cases h
      | some r1 =>
        rw [ha] at h
        simp only [Option.some.injEq, Prod.mk.injEq] at h
        rw [← h.2]
        exact afterNull_length _ _ ha

/-- Any fuel that is at least the length of the text gives the same result: the fuel
`unmarshal` passes is never what stops `scanElements`. -/
theorem scanElements_fuel (f : Nat) :
    ∀ (cs : List Char) (g : Nat), cs.length ≤ f → cs.length ≤ g →
      scanElements f cs = scanElements g cs := by
  induction f with
  | zero =>
    intro cs g hf _
    have hnil : cs = [] := List.length_eq_zero.1 (Nat.le_zero.1 hf)
    subst hnil
    cases g with
    | zero => rfl
    | succ g => simp [scanElements, scanElement]
  | succ f ih =>
    intro cs g hf hg
    cases g with
    | zero =>
      have hnil : cs = [] := List.length_eq_zero.1 (Nat.le_zero.1 hg)
      subst hnil
      simp [scanElements, scanElement]
    | succ g =>
      rw [scanElements, scanElements]
      cases he : scanElement cs with
      | none => rfl
      | some p =>
        obtain ⟨x, rest⟩ := p
        have h1 := scanElement_length cs x rest he
        simp only
        cases hs : skipSpace rest with
        | nil => rfl
        | cons c rest1 =>
          have h2 := skipSpace_length_le rest
          rw [hs] at h2
          have h3 := skipSpace_length_le rest1
          simp only [List.length_cons] at h2
          simp only
          by_cases hc : c = ','
          · simp only [hc, if_true]
            rw [ih (skipSpace rest1) g (by omega) (by omega)]
          · simp only [hc, if_false]

/-! ## What `SyncPackages` of the package `flatpak` runs -/

theorem installAll_log {σ : Type} (w : World σ) (l : List String) (s : σ) :
    (∀ e ∈ (installAll w s l).2, ∃ p ok, p ∈ l ∧ e = Event.install p ok) ∧
    (∀ p ∈ l, ∃ ok, Event.install p ok ∈ (installAll w s l).2) := by
  induction l generalizing s with
  | nil => simp [installAll]
  | cons q rest ih =>
    have hq : ∃ ok s1, InstallFlatpakApplication w s q =
        ⟨s1, [Event.install q ok], if ok then none else some (Err.installFailed q)⟩ := by
      unfold InstallFlatpakApplication
      rcases hi : w.install s q with ⟨ok, s1⟩
      cases ok
      · exact ⟨false, s1, rfl⟩
      · exact ⟨true, s1, rfl⟩
    obtain ⟨ok, s1, hq⟩ := hq
    simp only [installAll, hq]
    obtain ⟨ih1, ih2⟩ := ih s1
    constructor
    · intro e he
      simp only [List.singleton_append, List.mem_cons] at he
      rcases he with rfl | he
      · exact ⟨q, ok, List.mem_cons_self _ _, rfl⟩
      · obtain ⟨p, ok2, hp, rfl⟩ := ih1 e he
        exact ⟨p, ok2, List.mem_cons_of_mem _ hp, rfl⟩
    · intro p hp
      simp only [List.singleton_append, List.mem_cons]
      rcases List.mem_cons.1 hp with rfl | hp
      · exact ⟨ok, Or.inl rfl⟩
      · obtain ⟨ok2, h2⟩ := ih2 p hp
        exact ⟨ok2, Or.inr h2⟩

theorem uninstallAll_log {σ : Type} (w : World σ) (l : List String) (s : σ) :
    (∀ e ∈ (uninstallAll w s l).2, ∃ p ok, p ∈ l ∧ e = Event.uninstall p ok) ∧
    (∀ p ∈ l, ∃ ok, Event.uninstall p ok ∈ (uninstallAll w s l).2) := by
  induction l generalizing s with
  | nil => simp [uninstallAll]
  | cons q rest ih =>
    have hq : ∃ ok s1, UninstallFlatpakApplication w s q =
        ⟨s1, [Event.uninstall q ok], if ok then none else some (Err.uninstallFailed q)⟩ := by
      unfold UninstallFlatpakApplication
      rcases hi : w.uninstall s q with ⟨ok, s1⟩
      cases ok
      · exact ⟨false, s1, rfl⟩
      · exact ⟨true, s1, rfl⟩
    obtain ⟨ok, s1, hq⟩ := hq
    simp only [uninstallAll, hq]
    obtain ⟨ih1, ih2⟩ := ih s1
    constructor
    · intro e he
      simp only [List.singleton_append, List.mem_cons] at he
      rcases he with rfl | he
      · exact ⟨q, ok, List.mem_cons_self _ _, rfl⟩
      · obtain ⟨p, ok2, hp, rfl⟩ := ih1 e he
        exact ⟨p, ok2, List.mem_cons_of_mem _ hp, rfl⟩
    · intro p hp
      simp only [List.singleton_append, List.mem_cons]
      rcases List.mem_cons.1 hp with rfl | hp
      · exact ⟨ok, Or.inl rfl⟩
      · obtain ⟨ok2, h2⟩ := ih2 p hp
        exact ⟨ok2, Or.inr h2⟩

/-- What `SyncPackages` runs on a manifest `M`, whatever list `newPackages` holds: it
installs exactly the names of `newPackages` that are not in `M`, and uninstalls exactly
the names of `M` that are not in `newPackages`. -/
theorem SyncPackages_runs {σ : Type} (w : World σ) (d : Disk σ) (s : σ) (content : String)
    (M : Slice) (output : String) (newPackages : List String)
    (hread : d.readActive s = FileRead.data content)
    (hM : unmarshal content.data = some M) (hlist : w.list s = some output) (p : String) :
    ((∃ ok, Event.install p ok ∈ (SyncPackages w d s newPackages).log) ↔
      p ∈ newPackages ∧ p ∉ M.toList) ∧
    ((∃ ok, Event.uninstall p ok ∈ (SyncPackages w d s newPackages).log) ↔
      p ∈ M.toList ∧ p ∉ newPackages) := by
  have hlog : (SyncPackages w d s newPackages).log =
      (installAll w s (difference newPackages M.toList)).2 ++
      (uninstallAll w (installAll w s (difference newPackages M.toList)).1
        (difference M.toList newPackages)).2 := by
    unfold SyncPackages
    rw [hread]
    simp only [hM, hlist]
  obtain ⟨a1, a2⟩ := installAll_log w (difference newPackages M.toList) s
  obtain ⟨b1, b2⟩ := uninstallAll_log w (difference M.toList newPackages)
    (installAll w s (difference newPackages M.toList)).1
  rw [hlog]
  constructor
  · constructor
    · rintro ⟨ok, h⟩
      rcases List.mem_append.1 h with h | h
      · obtain ⟨q, ok2, hq, he⟩ := a1 _ h
        cases he
        exact (mem_difference _ _ _).1 hq
      · obtain ⟨q, ok2, _, he⟩ := b1 _ h
        cases he
    · intro h
      obtain ⟨ok, h2⟩ := a2 p ((mem_difference _ _ _).2 h)
      exact ⟨ok, List.mem_append_left _ h2⟩
  · constructor
    · rintro ⟨ok, h⟩
      rcases List.mem_append.1 h with h | h
      · obtain ⟨q, ok2, _, he⟩ := a1 _ h
        cases he
      · obtain ⟨q, ok2, hq, he⟩ := b1 _ h
        cases he
        exact (mem_difference _ _ _).1 hq
    · intro h
      obtain ⟨ok, h2⟩ := b2 p ((mem_difference _ _ _).2 h)
      exact ⟨ok, List.mem_append_right _ h2⟩

/-! ## Runs of the daemon loop -/

/-- An iteration in which one of the two lists is empty: no event, and the list read
becomes the previous one. -/
theorem daemonStep_idle {σ : Type} (w : World σ) (d : Disk σ) (s : σ)
    (previous current : Slice) (h : readActiveFile d s = Except.ok current)
    (hg : current.len = 0 ∨ previous.len = 0) :
    (daemonStep w d s previous).log = [] ∧
    (daemonStep w d s previous).next = Except.ok current := by
  have hn : ¬ (current.len > 0 ∧ previous.len > 0) := by omega
  unfold daemonStep
  rw [h]
  simp only [hn, if_false, and_self]

/-- An iteration in which both lists have elements is a run of `syncPackages`. -/
theorem daemonStep_active {σ : Type} (w : World σ) (d : Disk σ) (s : σ)
    (previous current : Slice) (h : readActiveFile d s = Except.ok current)
    (hg : current.len > 0 ∧ previous.len > 0) :
    (daemonStep w d s previous).log =
      (syncPackages w s previous.toList current.toList).log ∧
    (daemonStep w d s previous).next =
      (match (syncPackages w s previous.toList current.toList).err with
        | some e => Except.error e
        | none => Except.ok current) := by
  unfold daemonStep
  rw [h]
  simp only [hg, and_self, if_true]
  cases herr : (syncPackages w s previous.toList current.toList).err <;> simp

/-- An iteration that reads the list it already has as the previous one: at most the
backup of `syncPackages` is logged, and the list stays. -/
theorem daemonStep_same {σ : Type} (w : World σ) (d : Disk σ) (s : σ) (current : Slice)
    (h : readActiveFile d s = Except.ok current) :
    (∀ e ∈ (daemonStep w d s current).log, e.isCommand = false) ∧
    (daemonStep w d s current).next = Except.ok current := by
  by_cases hg : current.len > 0
  · have h1 := uninstallLoop_all_kept w current.toList current.toList (w.backup s).2
      (fun _ hx => hx)
    have h2 := installLoop_all_kept w current.toList current.toList (w.backup s).2
      (fun _ hx => hx)
    have hlog : (syncPackages w s current.toList current.toList).log =
        [Event.backup (w.backup s).1] := by
      rw [syncPackages_log, h1]
      simp [h2]
    have herr : (syncPackages w s current.toList current.toList).err = none := by
      rw [syncPackages_err, h1]
      simp [h2]
    obtain ⟨a1, a2⟩ := daemonStep_active w d s current current h ⟨hg, hg⟩
    rw [a1, a2, hlog, herr]
    constructor
    · intro e he
      rw [List.mem_singleton.1 he]
      rfl
    · rfl
  · have h0 : current.len = 0 := by omega
    obtain ⟨k1, k2⟩ := daemonStep_idle w d s current current h (Or.inl h0)
    rw [k1]
    exact ⟨fun e he => (by cases he), k2⟩

theorem runDaemonLoop_cons {σ : Type} (w : World σ) (d : Disk σ) (previous : Slice)
    (s : σ) (rest : List σ) :
    runDaemonLoop w d previous (s :: rest) =
      match (daemonStep w d s previous).next with
      | Except.error e => ((daemonStep w d s previous).log, Except.error e)
      | Except.ok p =>
        ((daemonStep w d s previous).log ++ (runDaemonLoop w d p rest).1,
          (runDaemonLoop w d p rest).2) := rfl

/-- A run over two stretches of iterations is the run over the first, continued, unless
the process ended, by the run over the second from the previous list the first left. -/
theorem runDaemonLoop_append {σ : Type} (w : World σ) (d : Disk σ) (a b : List σ)
    (previous : Slice) :
    runDaemonLoop w d previous (a ++ b) =
      match (runDaemonLoop w d previous a).2 with
      | Except.error e => ((runDaemonLoop w d previous a).1, Except.error e)
      | Except.ok p =>
        ((runDaemonLoop w d previous a).1 ++ (runDaemonLoop w d p b).1,
          (runDaemonLoop w d p b).2) := by
  induction a generalizing previous with
  | nil => simp [runDaemonLoop]
  | cons s rest ih =>
    rw [List.cons_append, runDaemonLoop_cons, runDaemonLoop_cons]
    cases hn : (daemonStep w d s previous).next with
    | error e => rfl
    | ok p =>
      simp only
      rw [ih p]
      cases hr : (runDaemonLoop w d p rest).2 with
      | error e => rfl
      | ok q => simp only [List.append_assoc]

/-- Iterations that all read the same list `C`, started with a previous list that is
empty or `C` itself: no install or uninstall is ever run, the process does not end, and
the previous list is `C` after the first of them. -/
theorem runDaemonLoop_steady {σ : Type} (w : World σ) (d : Disk σ) (C : Slice)
    (later : List σ) (hC : ∀ s ∈ later, readActiveFile d s = Except.ok C) :
    ∀ previous : Slice, previous.len = 0 ∨ previous = C →
      (∀ e ∈ (runDaemonLoop w d previous later).1, e.isCommand = false) ∧
      (runDaemonLoop w d previous later).2 =
        Except.ok (if later.isEmpty then previous else C) := by
  induction later with
  | nil =>
    intro previous _
    simp [runDaemonLoop]
  | cons s rest ih =>
    intro previous hp
    have hs := hC s (List.mem_cons_self _ _)
    have hstep : (∀ e ∈ (daemonStep w d s previous).log, e.isCommand = false) ∧
        (daemonStep w d s previous).next = Except.ok C := by
      rcases hp with h0 | rfl
      · obtain ⟨k1, k2⟩ := daemonStep_idle w d s previous C hs (Or.inr h0)
        rw [k1]
        exact ⟨fun e he => (by cases he), k2⟩
      · exact daemonStep_same w d s previous hs
    obtain ⟨i1, i2⟩ := ih (fun t ht => hC t (List.mem_cons_of_mem _ ht)) C (Or.inr rfl)
    rw [runDaemonLoop_cons, hstep.2]
    simp only
    constructor
    · intro e he
      rcases List.mem_append.1 he with h | h
      · exact hstep.1 e h
      · exact i1 e h
    · rw [i2]
      cases rest <;> simp

/-- C11: in a run of the loop of `runDaemon`, once an iteration has read an empty
manifest, and whatever manifest `C` the next iteration and all later ones read, no
iteration from the empty one on runs an install or uninstall command: the events of the
run after those of the iterations `before` contain no command.  If the process has not
ended before, it does not end either, and the previous list ends as `C` (as the empty
list read when there is no later iteration). -/
theorem declared_after_empty_never_installed (σ : Type) (w : World σ) (d : Disk σ)
    (previous E C : Slice) (before : List σ) (sE : σ) (later : List σ)
    (hE : readActiveFile d sE = Except.ok E) (hE0 : E.len = 0)
    (hC : ∀ s ∈ later, readActiveFile d s = Except.ok C) :
    ∃ tail, (runDaemonLoop w d previous (before ++ sE :: later)).1 =
        (runDaemonLoop w d previous before).1 ++ tail ∧
      (∀ e ∈ tail, e.isCommand = false) ∧
      (∀ p, (runDaemonLoop w d previous before).2 = Except.ok p →
        (runDaemonLoop w d previous (before ++ sE :: later)).2 =
          Except.ok (if later.isEmpty then E else C)) := by
  rw [runDaemonLoop_append]
  cases hb : (runDaemonLoop w d previous before).2 with
  | error e =>
    refine ⟨[], by simp, fun e he => (by cases he), ?_⟩
    intro p hp
    cases hp
  | ok p =>
    obtain ⟨k1, k2⟩ := daemonStep_idle w d sE p E hE (Or.inl hE0)
    obtain ⟨i1, i2⟩ := runDaemonLoop_steady w d C later hC E (Or.inl hE0)
    have hrun : runDaemonLoop w d p (sE :: later) =
        ((runDaemonLoop w d E later).1, (runDaemonLoop w d E later).2) := by
      rw [runDaemonLoop_cons, k2, k1]
      simp
    refine ⟨(runDaemonLoop w d E later).1, ?_, i1, ?_⟩
    · simp only [hrun]
    · intro q _
      simp only [hrun]
      exact i2

/-- C11 on a system with nothing installed: the previous list was `[org.x]`, the manifest
is emptied to `[]`, then `[org.a]` is declared and read at three iterations.  The run
logs two backups and no command, although `org.a` is declared and not installed. -/
theorem declared_after_empty_never_installed_witness :
    (runDaemonLoop (sysWorld []) sysDisk (some ["org.x"])
      [⟨[], some "[]"⟩, ⟨[], some "[\"org.a\"]"⟩, ⟨[], some "[\"org.a\"]"⟩,
        ⟨[], some "[\"org.a\"]"⟩]) =
      ([Event.backup true, Event.backup true], Except.ok (some ["org.a"])) ∧
    isFlatpakInstalled (sysWorld []) ⟨[], some "[\"org.a\"]"⟩ "org.a" = false ∧
    ∃ tail, (runDaemonLoop (sysWorld []) sysDisk (some ["org.x"])
      ([] ++ ⟨[], some "[]"⟩ :: [⟨[], some "[\"org.a\"]"⟩, ⟨[], some "[\"org.a\"]"⟩,
        ⟨[], some "[\"org.a\"]"⟩])).1 =
        (runDaemonLoop (sysWorld []) sysDisk (some ["org.x"]) []).1 ++ tail ∧
      (∀ e ∈ tail, e.isCommand = false) := by
  obtain ⟨tail, h1, h2, _⟩ := declared_after_empty_never_installed Sys (sysWorld []) sysDisk
    (some ["org.x"]) (some []) (some ["org.a"]) [] ⟨[], some "[]"⟩
    [⟨[], some "[\"org.a\"]"⟩, ⟨[], some "[\"org.a\"]"⟩, ⟨[], some "[\"org.a\"]"⟩]
    (by decide) (by decide) (by decide)
  exact ⟨by decide, by decide, tail, h1, h2⟩

/-! ## The texts `json.Unmarshal` takes for a `[]string` -/

theorem isHexDigit_ofNat_digit : ∀ n, n < 58 → 48 ≤ n → isHexDigit (Char.ofNat n) := by
  unfold isHexDigit
  decide

theorem isHexDigit_ofNat_lower : ∀ n, n < 103 → 97 ≤ n → isHexDigit (Char.ofNat n) := by
  unfold isHexDigit
  decide

theorem isHexDigit_ofNat_upper : ∀ n, n < 71 → 65 ≤ n → isHexDigit (Char.ofNat n) := by
  unfold isHexDigit
  decide

/-- The decoder takes a character for a hexadecimal digit only if it is one. -/
theorem hexVal_isHexDigit (c : Char) (v : Nat) (h : hexVal c = some v) : isHexDigit c := by
  unfold hexVal at h
  rw [← Char.ofNat_toNat c]
  by_cases h1 : 48 ≤ c.toNat ∧ c.toNat ≤ 57
  · exact isHexDigit_ofNat_digit _ (by omega) h1.1
  · by_cases h2 : 97 ≤ c.toNat ∧ c.toNat ≤ 102
    · exact isHexDigit_ofNat_lower _ (by omega) h2.1
    · by_cases h3 : 65 ≤ c.toNat ∧ c.toNat ≤ 70
      · exact isHexDigit_ofNat_upper _ (by omega) h3.1
      · simp [h1, h2, h3] at h

theorem hex4_isHexDigit (a b c d : Char) (u : Nat) (h : hex4 a b c d = some u) :
    isHexDigit a ∧ isHexDigit b ∧ isHexDigit c ∧ isHexDigit d := by
  unfold hex4 at h
  cases ha : hexVal a with
  | none => simp [ha] at h
  | some x =>
    cases hb : hexVal b with
    | none => simp [ha, hb] at h
    | some y =>
      cases hc : hexVal c with
      | none => simp [ha, hb, hc] at h
      | some z =>
        cases hd : hexVal d with
        | none => simp [ha, hb, hc, hd] at h
        | some t =>
          exact ⟨hexVal_isHexDigit a x ha, hexVal_isHexDigit b y hb,
            hexVal_isHexDigit c z hc, hexVal_isHexDigit d t hd⟩

/-- The decoder takes a one-letter escape only if the letter is one of the eight. -/
theorem simpleEscape_letter (e ch : Char) (h : simpleEscape e = some ch) :
    e ∈ escapeLetters := by
  unfold simpleEscape at h
  unfold escapeLetters
  by_cases h1 : e = '"'
  · simp [h1]
  by_cases h2 : e = '\\'
  · simp [h2]
  by_cases h3 : e = '/'
  · simp [h3]
  by_cases h4 : e = 'b'
  · simp [h4]
  by_cases h5 : e = 'f'
  · simp [h5]
  by_cases h6 : e = 'n'
  · simp [h6]
  by_cases h7 : e = 'r'
  · simp [h7]
  by_cases h8 : e = 't'
  · simp [h8]
  simp [h1, h2, h3, h4, h5, h6, h7, h8] at h

theorem lowSurrogate_shape (cs : List Char) (v : Nat) (h : lowSurrogate cs = some v) :
    ∃ a b c d tl, cs = '\\' :: 'u' :: a :: b :: c :: d :: tl ∧
      isHexDigit a ∧ isHexDigit b ∧ isHexDigit c ∧ isHexDigit d := by
  match cs, h with
  | x :: y :: a :: b :: c :: d :: tl, h =>
    simp only [lowSurrogate] at h
    by_cases hxy : x = '\\' ∧ y = 'u'
    · simp only [hxy, and_self, if_true] at h
      cases h4 : hex4 a b c d with
      | none => rw [h4] at h; cases h
      | some w =>
        obtain ⟨k1, k2⟩ := hxy
        subst k1 k2
        exact ⟨a, b, c, d, tl, rfl, hex4_isHexDigit a b c d w h4⟩
    · simp only [hxy, if_false] at h
      cases h

/-- An escape the decoder takes is one of the grammar: the characters it passes over,
after the backslash, continue a string body as one or two escapes. -/
theorem decodeEscape_shape (cs : List Char) (ch : Char) (k : Nat)
    (h : decodeEscape cs = some (ch, k)) :
    ∃ esc tl, cs = esc ++ tl ∧ esc.length = k ∧
      ∀ rest, StringBody rest → StringBody ('\\' :: (esc ++ rest)) := by
  cases cs with
  | nil => simp [decodeEscape] at h
  | cons e rest1 =>
    simp only [decodeEscape] at h
    by_cases he : e = 'u'
    · subst he
      simp only [if_true] at h
      match rest1, h with
      | a :: b :: c :: d :: rest2, h =>
        simp only at h
        cases h4 : hex4 a b c d with
        | none => rw [h4] at h; cases h
        | some u =>
          rw [h4] at h
          simp only at h
          obtain ⟨ka, kb, kc, kd⟩ := hex4_isHexDigit a b c d u h4
          have single : ∀ ch2, (ch2, 5) = (ch, k) →
              ∃ esc tl, 'u' :: a :: b :: c :: d :: rest2 = esc ++ tl ∧ esc.length = k ∧
                ∀ rest, StringBody rest → StringBody ('\\' :: (esc ++ rest)) := by
            intro ch2 hk
            have hk5 : 5 = k := (Prod.mk.inj hk).2
            exact ⟨['u', a, b, c, d], rest2, rfl, hk5,
              fun rest hr => StringBody.unicode a b c d rest ka kb kc kd hr⟩
          by_cases hhigh : 0xD800 ≤ u ∧ u < 0xDC00
          · simp only [hhigh, and_self, if_true] at h
            cases hl : lowSurrogate rest2 with
            | none =>
              rw [hl] at h
              exact single _ (Option.some.inj h)
            | some v =>
              rw [hl] at h
              obtain ⟨a2, b2, c2, d2, tl, htl, la, lb, lc, ld⟩ := lowSurrogate_shape rest2 v hl
              have hk11 : 11 = k := (Prod.mk.inj (Option.some.inj h)).2
              subst htl
              exact ⟨['u', a, b, c, d, '\\', 'u', a2, b2, c2, d2], tl, rfl, hk11,
                fun rest hr => StringBody.unicode a b c d _ ka kb kc kd
                  (StringBody.unicode a2 b2 c2 d2 rest la lb lc ld hr)⟩
          · simp only [hhigh, if_false] at h
            by_cases hlow : 0xDC00 ≤ u ∧ u < 0xE000
            · simp only [hlow, and_self, if_true] at h
              exact single _ (Option.some.inj h)
            · simp only [hlow, if_false] at h
              exact single _ (Option.some.inj h)
    · simp only [he, if_false] at h
      cases hs : simpleEscape e with
      | none => rw [hs] at h; cases h
      | some ch2 =>
        rw [hs] at h
        have hk1 : 1 = k := (Prod.mk.inj (Option.some.inj h)).2
        exact ⟨[e], rest1, rfl, hk1,
          fun rest hr => StringBody.escape e rest (simpleEscape_letter e ch2 hs) hr⟩

/-- A string literal the decoder reads is one of the grammar: the text it takes is a
string body followed by the closing quote. -/
theorem scanStringAux_sound (n : Nat) :
    ∀ (cs body rest : List Char), cs.length ≤ n →
      scanStringAux 0 cs = some (body, rest) →
      ∃ raw, cs = raw ++ '"' :: rest ∧ StringBody raw := by
  induction n with
  | zero =>
    intro cs body rest hlen h
    have hnil : cs = [] := List.length_eq_zero.1 (Nat.le_zero.1 hlen)
    subst hnil
    simp [scanStringAux] at h
  | succ n ih =>
    intro cs body rest hlen h
    cases cs with
    | nil => simp [scanStringAux] at h
    | cons c tl =>
      have hl : tl.length ≤ n := by simpa using hlen
      rw [scanStringAux] at h
      by_cases h1 : c = '"'
      · simp only [h1, if_true, Option.some.injEq, Prod.mk.injEq] at h
        exact ⟨[], by rw [h1, h.2]; rfl, StringBody.done⟩
      · simp only [h1, if_false] at h
        by_cases h2 : c = '\\'
        · simp only [h2, if_true] at h
          cases hd : decodeEscape tl with
          | none => rw [hd] at h; cases h
          | some p =>
            obtain ⟨ch, k⟩ := p
            rw [hd] at h
            simp only at h
            obtain ⟨b1, hb⟩ := consChar_eq_some _ _ _ _ h
            obtain ⟨esc, tl2, htl, hk, hgram⟩ := decodeEscape_shape tl ch k hd
            rw [htl, ← hk, scanStringAux_skip] at hb
            have hl2 : tl2.length ≤ n := by
              have : tl.length = esc.length + tl2.length := by rw [htl]; simp
              omega
            obtain ⟨raw, hraw, hbody⟩ := ih tl2 b1 rest hl2 hb
            refine ⟨'\\' :: (esc ++ raw), ?_, hgram raw hbody⟩
            rw [h2, htl, hraw]
            simp
        · simp only [h2, if_false] at h
          by_cases h3 : c.toNat < 32
          · simp only [h3, if_true] at h
            cases h
          · simp only [h3, if_false] at h
            obtain ⟨b1, hb⟩ := consChar_eq_some _ _ _ _ h
            obtain ⟨raw, hraw, hbody⟩ := ih tl b1 rest hl hb
            refine ⟨c :: raw, by rw [hraw]; rfl,
              StringBody.plain c raw h1 h2 (by omega) hbody⟩

theorem afterNull_shape (cs rest : List Char) (h : afterNull cs = some rest) :
    cs = 'n' :: 'u' :: 'l' :: 'l' :: rest := by
  match cs, h with
  | a :: b :: c :: d :: tl, h =>
    simp only [afterNull] at h
    by_cases hc : a = 'n' ∧ b = 'u' ∧ c = 'l' ∧ d = 'l'
    · simp only [hc, and_self, if_true, Option.some.injEq] at h
      obtain ⟨k1, k2, k3, k4⟩ := hc
      rw [k1, k2, k3, k4, h]
    · simp only [hc, if_false] at h
      cases h

/-- An element the decoder reads is a string literal or `null`. -/
theorem scanElement_sound (cs : List Char) (x : String) (rest : List Char)
    (h : scanElement cs = some (x, rest)) : ∃ e, cs = e ++ rest ∧ ElementText true e := by
  cases cs with
  | nil => simp [scanElement] at h
  | cons c tl =>
    simp only [scanElement] at h
    by_cases hc : c = '"'
    · simp only [hc, if_true] at h
      cases hs : scanString tl with
      | none => rw [hs] at h; cases h
      | some p =>
        obtain ⟨b1, r1⟩ := p
        rw [hs] at h
        simp only [Option.some.injEq, Prod.mk.injEq] at h
        obtain ⟨raw, hraw, hbody⟩ := scanStringAux_sound tl.length tl b1 r1 (Nat.le_refl _) hs
        refine ⟨'"' :: (raw ++ ['"']), ?_, Or.inl ⟨raw, hbody, rfl⟩⟩
        rw [hc, hraw, ← h.2]
        simp
    · simp only [hc, if_false] at h
      cases ha : afterNull (c :: tl) with
      | none => rw [ha] at h; cases h
      | some r1 =>
        rw [ha] at h
        simp only [Option.some.injEq, Prod.mk.injEq] at h
        refine ⟨['n', 'u', 'l', 'l'], ?_, Or.inr ⟨rfl, rfl⟩⟩
        rw [afterNull_shape _ _ ha, ← h.2]
        rfl

theorem isSpace_iff (c : Char) :
    isSpace c = true ↔ c = ' ' ∨ c = '\t' ∨ c = '\r' ∨ c = '\n' := by
  simp [isSpace]

/-- What `skipSpace` drops is white space. -/
theorem skipSpace_split (cs : List Char) : ∃ ws, allSpace ws ∧ cs = ws ++ skipSpace cs := by
  induction cs with
  | nil => exact ⟨[], fun c hc => (by cases hc), rfl⟩
  | cons c cs ih =>
    rw [skipSpace]
    by_cases hc : isSpace c = true
    · obtain ⟨ws, h1, h2⟩ := ih
      refine ⟨c :: ws, ?_, ?_⟩
      · intro x hx
        rcases List.mem_cons.1 hx with rfl | hx
        · exact (isSpace_iff x).1 hc
        · exact h1 x hx
      · simp only [hc, if_true, List.cons_append]
        rw [← h2]
    · have hf : isSpace c = false := by simpa using hc
      refine ⟨[], fun c hc => (by cases hc), ?_⟩
      simp [hf]

theorem allSpace_of_skipSpace_nil (cs : List Char) (h : skipSpace cs = []) : allSpace cs := by
  obtain ⟨ws, h1, h2⟩ := skipSpace_split cs
  rw [h, List.append_nil] at h2
  rw [h2]
  exact h1

/-- The elements the decoder reads are elements of the grammar, up to the closing
bracket. -/
theorem scanElements_sound (fuel : Nat) :
    ∀ (cs : List Char) (xs : List String) (rest : List Char),
      scanElements fuel cs = some (xs, rest) →
      ∃ es, cs = es ++ ']' :: rest ∧ ElementsText true es := by
  induction fuel with
  | zero =>
    intro cs xs rest h
    simp [scanElements] at h
  | succ f ih =>
    intro cs xs rest h
    rw [scanElements] at h
    cases he : scanElement cs with
    | none => rw [he] at h; cases h
    | some p =>
      obtain ⟨x, r0⟩ := p
      rw [he] at h
      simp only at h
      obtain ⟨e, hcs, hel⟩ := scanElement_sound cs x r0 he
      obtain ⟨ws1, hws1, hr0⟩ := skipSpace_split r0
      cases hsk : skipSpace r0 with
      | nil => rw [hsk] at h; cases h
      | cons c r1 =>
        rw [hsk] at h hr0
        simp only at h
        by_cases hc : c = ','
        · simp only [hc, if_true] at h
          cases hrec : scanElements f (skipSpace r1) with
          | none => rw [hrec] at h; cases h
          | some q =>
            obtain ⟨ys, r2⟩ := q
            rw [hrec] at h
            simp only [Option.some.injEq, Prod.mk.injEq] at h
            obtain ⟨es2, hes2, hgram⟩ := ih (skipSpace r1) ys r2 hrec
            obtain ⟨ws2, hws2, hr1⟩ := skipSpace_split r1
            refine ⟨e ++ (ws1 ++ ',' :: (ws2 ++ es2)), ?_,
              ElementsText.more e ws1 ws2 es2 _ hel hws1 hws2 hgram rfl⟩
            rw [hcs, hr0, hc, hr1, hes2, ← h.2]
            simp
        · simp only [hc, if_false] at h
          by_cases hb : c = ']'
          · simp only [hb, if_true, Option.some.injEq, Prod.mk.injEq] at h
            refine ⟨e ++ ws1, ?_, ElementsText.last e ws1 _ hel hws1 rfl⟩
            rw [hcs, hr0, hb, ← h.2]
            simp
          · simp only [hb, if_false] at h
            cases h

/-- Soundness of the decoder: a text it takes is the text `null` or a JSON array of
string literals and `null`s. -/
theorem unmarshal_sound (cs : List Char) (S : Slice) (h : unmarshal cs = some S) :
    AcceptedText cs := by
  unfold unmarshal at h
  obtain ⟨ws1, hws1, hcs⟩ := skipSpace_split cs
  cases hn : afterNull (skipSpace cs) with
  | some rest =>
    rw [hn] at h
    simp only at h
    by_cases hr : skipSpace rest = []
    · left
      refine ⟨ws1, rest, hws1, allSpace_of_skipSpace_nil rest hr, ?_⟩
      rw [afterNull_shape _ _ hn] at hcs
      exact hcs
    · simp only [hr, if_false] at h
      cases h
  | none =>
    rw [hn] at h
    simp only at h
    cases hsk : skipSpace cs with
    | nil => rw [hsk] at h; cases h
    | cons c rest =>
      rw [hsk] at h hcs
      simp only at h
      by_cases hc : c = '['
      · simp only [hc, if_true] at h
        obtain ⟨ws2, hws2, hrest⟩ := skipSpace_split rest
        cases hsk2 : skipSpace rest with
        | nil => rw [hsk2] at h; cases h
        | cons c1 rest1 =>
          rw [hsk2] at h hrest
          simp only at h
          right
          by_cases hc1 : c1 = ']'
          · simp only [hc1, if_true] at h
            by_cases hr : skipSpace rest1 = []
            · left
              refine ⟨ws1, ws2, rest1, hws1, hws2, allSpace_of_skipSpace_nil rest1 hr, ?_⟩
              rw [hcs, hc, hrest, hc1]
            · simp only [hr, if_false] at h
              cases h
          · simp only [hc1, if_false] at h
            cases hse : scanElements (c1 :: rest1).length (c1 :: rest1) with
            | none => rw [hse] at h; cases h
            | some q =>
              obtain ⟨xs, rest2⟩ := q
              rw [hse] at h
              simp only at h
              by_cases hr : skipSpace rest2 = []
              · right
                obtain ⟨es, hes, hgram⟩ := scanElements_sound _ _ xs rest2 hse
                refine ⟨ws1, ws2, es, rest2, hws1, hws2,
                  allSpace_of_skipSpace_nil rest2 hr, hgram, ?_⟩
                rw [hcs, hc, hrest, hes]
              · simp only [hr, if_false] at h
                cases h
      · simp only [hc, if_false] at h
        cases h

theorem hexVal_of_isHexDigit (c : Char) (h : isHexDigit c) : ∃ v, hexVal c = some v := by
  have key : ∀ c ∈ "0123456789abcdefABCDEF".data, (hexVal c).isSome = true := by decide
  exact Option.isSome_iff_exists.1 (key c h)

theorem hex4_of_isHexDigit (a b c d : Char) (ha : isHexDigit a) (hb : isHexDigit b)
    (hc : isHexDigit c) (hd : isHexDigit d) : ∃ u, hex4 a b c d = some u := by
  obtain ⟨x, hx⟩ := hexVal_of_isHexDigit a ha
  obtain ⟨y, hy⟩ := hexVal_of_isHexDigit b hb
  obtain ⟨z, hz⟩ := hexVal_of_isHexDigit c hc
  obtain ⟨t, ht⟩ := hexVal_of_isHexDigit d hd
  exact ⟨((x * 16 + y) * 16 + z) * 16 + t, by simp only [hex4, hx, hy, hz, ht]⟩

theorem simpleEscape_of_letter (e : Char) (h : e ∈ escapeLetters) :
    e ≠ 'u' ∧ ∃ ch, simpleEscape e = some ch := by
  have key : ∀ e ∈ escapeLetters, e ≠ 'u' ∧ (simpleEscape e).isSome = true := by decide
  exact ⟨(key e h).1, Option.isSome_iff_exists.1 (key e h).2⟩

/-- The decoder takes every `\uXXXX` of the grammar: it passes over that escape, or over
it and a second `\uXXXX` right after it. -/
theorem decodeEscape_unicode (a b c d : Char) (tl : List Char) (ha : isHexDigit a)
    (hb : isHexDigit b) (hc : isHexDigit c) (hd : isHexDigit d) :
    (∃ ch, decodeEscape ('u' :: a :: b :: c :: d :: tl) = some (ch, 5)) ∨
    (∃ ch a2 b2 c2 d2 tl2, tl = '\\' :: 'u' :: a2 :: b2 :: c2 :: d2 :: tl2 ∧
      decodeEscape ('u' :: a :: b :: c :: d :: tl) = some (ch, 11)) := by
  obtain ⟨u, hu⟩ := hex4_of_isHexDigit a b c d ha hb hc hd
  simp only [decodeEscape, if_true, hu]
  by_cases hhigh : 0xD800 ≤ u ∧ u < 0xDC00
  · simp only [hhigh, and_self, if_true]
    cases hl : lowSurrogate tl with
    | none => exact Or.inl ⟨_, rfl⟩
    | some v =>
      obtain ⟨a2, b2, c2, d2, tl2, htl, _⟩ := lowSurrogate_shape tl v hl
      exact Or.inr ⟨_, a2, b2, c2, d2, tl2, htl, rfl⟩
  · simp only [hhigh, if_false]
    by_cases hlow : 0xDC00 ≤ u ∧ u < 0xE000
    · simp only [hlow, and_self, if_true]
      exact Or.inl ⟨_, rfl⟩
    · simp only [hlow, if_false]
      exact Or.inl ⟨_, rfl⟩

/-- A string body that starts with `\u` continues, after the six characters of that
escape, with a string body. -/
theorem StringBody_after_unicode (rest tail : List Char) (a2 b2 c2 d2 : Char)
    (tl2 : List Char) (h : StringBody rest)
    (heq : rest ++ '"' :: tail = '\\' :: 'u' :: a2 :: b2 :: c2 :: d2 :: tl2) :
    ∃ rest2, rest = '\\' :: 'u' :: a2 :: b2 :: c2 :: d2 :: rest2 ∧ StringBody rest2 ∧
      tl2 = rest2 ++ '"' :: tail := by
  cases h with
  | done =>
    simp only [List.nil_append, List.cons.injEq] at heq
    exact absurd heq.1 (by decide)
  | plain c r h1 h2 h3 h4 =>
    simp only [List.cons_append, List.cons.injEq] at heq
    exact absurd heq.1 h2
  | escape e r h1 h2 =>
    simp only [List.cons_append, List.cons.injEq] at heq
    have he : e = 'u' := heq.2.1
    exact absurd he (simpleEscape_of_letter e h1).1
  | unicode a b c d r h1 h2 h3 h4 h5 =>
    simp only [List.cons_append, List.cons.injEq, true_and] at heq
    obtain ⟨k1, k2, k3, k4, k5⟩ := heq
    subst k1 k2 k3 k4
    exact ⟨r, rfl, h5, k5.symm⟩

/-- Completeness of the decoder on string literals: every string body of the grammar,
followed by the closing quote, is read up to that quote. -/
theorem scanStringAux_complete (n : Nat) :
    ∀ (raw : List Char), raw.length ≤ n → StringBody raw →
      ∀ tail, ∃ body, scanStringAux 0 (raw ++ '"' :: tail) = some (body, tail) := by
  induction n with
  | zero =>
    intro raw hlen _ tail
    have hnil : raw = [] := List.length_eq_zero.1 (Nat.le_zero.1 hlen)
    subst hnil
    exact ⟨[], by rw [List.nil_append, scanStringAux]; simp⟩
  | succ n ih =>
    intro raw hlen hraw tail
    cases hraw with
    | done => exact ⟨[], by rw [List.nil_append, scanStringAux]; simp⟩
    | plain c r h1 h2 h3 h4 =>
      obtain ⟨b, hb⟩ := ih r (by simpa using hlen) h4 tail
      have := scanString_plain c (r ++ '"' :: tail) h1 h2 (by omega)
      unfold scanString at this
      exact ⟨c :: b, by rw [List.cons_append, this, hb]; rfl⟩
    | escape e r h1 h2 =>
      obtain ⟨b, hb⟩ := ih r (by simp at hlen; omega) h2 tail
      obtain ⟨hne, ch, hch⟩ := simpleEscape_of_letter e h1
      have := scanString_escape [e] (r ++ '"' :: tail) ch
        (decodeEscape_simple e ch _ hne hch)
      unfold scanString at this
      refine ⟨ch :: b, ?_⟩
      have heq : '\\' :: e :: r ++ '"' :: tail = '\\' :: ([e] ++ (r ++ '"' :: tail)) := by
        simp
      rw [heq, this, hb]
      rfl
    | unicode a b c d r h1 h2 h3 h4 h5 =>
      have hlr : r.length + 6 ≤ n + 1 := by simpa using hlen
      rcases decodeEscape_unicode a b c d (r ++ '"' :: tail) h1 h2 h3 h4 with
        ⟨ch, hd5⟩ | ⟨ch, a2, b2, c2, d2, tl2, htl, hd11⟩
      · obtain ⟨bd, hb⟩ := ih r (by omega) h5 tail
        have := scanString_escape ['u', a, b, c, d] (r ++ '"' :: tail) ch hd5
        unfold scanString at this
        refine ⟨ch :: bd, ?_⟩
        have heq : '\\' :: 'u' :: a :: b :: c :: d :: r ++ '"' :: tail =
            '\\' :: (['u', a, b, c, d] ++ (r ++ '"' :: tail)) := by simp
        rw [heq, this, hb]
        rfl
      · obtain ⟨r2, hr, hbody2, htl2⟩ := StringBody_after_unicode r tail a2 b2 c2 d2 tl2 h5 htl
        have hl2 : r2.length ≤ n := by
          have : r.length = r2.length + 6 := by rw [hr]; simp
          omega
        obtain ⟨bd, hb⟩ := ih r2 hl2 hbody2 tail
        have hd : decodeEscape (['u', a, b, c, d, '\\', 'u', a2, b2, c2, d2] ++
            (r2 ++ '"' :: tail)) =
            some (ch, ['u', a, b, c, d, '\\', 'u', a2, b2, c2, d2].length) := by
          rw [htl, htl2] at hd11
          exact hd11
        have := scanString_escape ['u', a, b, c, d, '\\', 'u', a2, b2, c2, d2]
          (r2 ++ '"' :: tail) ch hd
        unfold scanString at this
        refine ⟨ch :: bd, ?_⟩
        have heq : '\\' :: 'u' :: a :: b :: c :: d :: r ++ '"' :: tail =
            '\\' :: (['u', a, b, c, d, '\\', 'u', a2, b2, c2, d2] ++
              (r2 ++ '"' :: tail)) := by
          rw [hr]; simp
        rw [heq, this, hb]
        rfl

theorem skipSpace_append_space (ws cs : List Char) (h : allSpace ws) :
    skipSpace (ws ++ cs) = skipSpace cs := by
  induction ws with
  | nil => rfl
  | cons c ws ih =>
    have hc : isSpace c = true := (isSpace_iff c).2 (h c (List.mem_cons_self _ _))
    rw [List.cons_append, skipSpace]
    simp only [hc, if_true]
    exact ih (fun x hx => h x (List.mem_cons_of_mem _ hx))

theorem skipSpace_cons_of_not_space (c : Char) (cs : List Char) (h : isSpace c = false) :
    skipSpace (c :: cs) = c :: cs := by
  rw [skipSpace]
  simp [h]

theorem skipSpace_nil_of_allSpace (ws : List Char) (h : allSpace ws) : skipSpace ws = [] := by
  have := skipSpace_append_space ws [] h
  rw [List.append_nil] at this
  rw [this]
  rfl

theorem ElementText_head (nulls : Bool) (e : List Char) (h : ElementText nulls e) :
    ∃ c r, e = c :: r ∧ (c = '"' ∨ c = 'n') := by
  rcases h with ⟨body, _, rfl⟩ | ⟨_, rfl⟩
  · exact ⟨'"', _, rfl, Or.inl rfl⟩
  · exact ⟨'n', _, rfl, Or.inr rfl⟩

theorem ElementsText_head (nulls : Bool) (es : List Char) (h : ElementsText nulls es) :
    ∃ c r, es = c :: r ∧ (c = '"' ∨ c = 'n') := by
  cases h with
  | last e ws cs he _ hcs =>
    obtain ⟨c, r, h1, h2⟩ := ElementText_head nulls e he
    exact ⟨c, r ++ ws, by rw [hcs, h1]; rfl, h2⟩
  | more e ws1 ws2 rest cs he _ _ _ hcs =>
    obtain ⟨c, r, h1, h2⟩ := ElementText_head nulls e he
    exact ⟨c, r ++ (ws1 ++ ',' :: (ws2 ++ rest)), by rw [hcs, h1]; rfl, h2⟩

theorem isSpace_of_head (c : Char) (h : c = '"' ∨ c = 'n') :
    isSpace c = false ∧ c ≠ ']' := by
  rcases h with rfl | rfl <;> decide

/-- Completeness of the decoder on elements: a string literal or `null` of the grammar is
read, up to its end. -/
theorem scanElement_complete (e : List Char) (h : ElementText true e) :
    ∀ tail, ∃ x, scanElement (e ++ tail) = some (x, tail) := by
  intro tail
  rcases h with ⟨body, hbody, rfl⟩ | ⟨_, rfl⟩
  · obtain ⟨b, hb⟩ := scanStringAux_complete body.length body (Nat.le_refl _) hbody tail
    refine ⟨String.mk b, ?_⟩
    have heq : '"' :: (body ++ ['"']) ++ tail = '"' :: (body ++ '"' :: tail) := by simp
    rw [heq]
    simp only [scanElement, if_true, scanString, hb]
  · refine ⟨"", ?_⟩
    have h1 : ('n' : Char) ≠ '"' := by decide
    simp [scanElement, h1, afterNull]

/-- Completeness of the decoder on the elements of an array: elements of the grammar,
followed by the closing bracket, are read up to that bracket, with any fuel that is at
least the length of the text. -/
theorem scanElements_complete (es : List Char) (h : ElementsText true es) :
    ∀ tail, ∃ xs, ∀ fuel, (es ++ ']' :: tail).length ≤ fuel →
      scanElements fuel (es ++ ']' :: tail) = some (xs, tail) := by
  induction h with
  | last e ws cs he hws hcs =>
    intro tail
    obtain ⟨x, hx⟩ := scanElement_complete e he (ws ++ ']' :: tail)
    refine ⟨[x], ?_⟩
    intro fuel hfuel
    have heq : cs ++ ']' :: tail = e ++ (ws ++ ']' :: tail) := by rw [hcs]; simp
    rw [heq] at hfuel ⊢
    obtain ⟨f, rfl⟩ : ∃ f, fuel = f + 1 := by
      refine ⟨fuel - 1, ?_⟩
      simp only [List.length_append, List.length_cons] at hfuel
      omega
    rw [scanElements, hx]
    simp only
    rw [skipSpace_append_space ws _ hws,
      skipSpace_cons_of_not_space ']' tail (by decide)]
    have h2 : (']' : Char) ≠ ',' := by decide
    simp [h2]
  | more e ws1 ws2 rest cs he hws1 hws2 _ hcs ih =>
    intro tail
    obtain ⟨x, hx⟩ := scanElement_complete e he
      (ws1 ++ ',' :: (ws2 ++ (rest ++ ']' :: tail)))
    obtain ⟨xs, hxs⟩ := ih tail
    refine ⟨x :: xs, ?_⟩
    intro fuel hfuel
    have heq : cs ++ ']' :: tail = e ++ (ws1 ++ ',' :: (ws2 ++ (rest ++ ']' :: tail))) := by
      rw [hcs]; simp
    rw [heq] at hfuel ⊢
    obtain ⟨f, rfl⟩ : ∃ f, fuel = f + 1 := by
      refine ⟨fuel - 1, ?_⟩
      simp only [List.length_append, List.length_cons] at hfuel
      omega
    rw [scanElements, hx]
    simp only
    rw [skipSpace_append_space ws1 _ hws1,
      skipSpace_cons_of_not_space ',' _ (by decide)]
    simp only [if_true]
    obtain ⟨c, r, hr, hc⟩ := ElementsText_head true _ ‹ElementsText true rest›
    have hsk : skipSpace (ws2 ++ (rest ++ ']' :: tail)) = rest ++ ']' :: tail := by
      rw [skipSpace_append_space ws2 _ hws2, hr, List.cons_append,
        skipSpace_cons_of_not_space c _ (isSpace_of_head c hc).1]
    rw [hsk, hxs f (by
      simp only [List.length_append, List.length_cons] at hfuel ⊢
      omega)]

theorem afterNull_of_head (c : Char) (cs : List Char) (h : c ≠ 'n') :
    afterNull (c :: cs) = none := by
  match cs with
  | [] => rfl
  | [_] => rfl
  | [_, _] => rfl
  | _ :: _ :: _ :: _ => simp [afterNull, h]

/-- The text `null` leaves the nil slice. -/
theorem unmarshal_of_NullText (cs : List Char) (h : NullText cs) :
    unmarshal cs = some none := by
  obtain ⟨ws1, ws2, h1, h2, rfl⟩ := h
  unfold unmarshal
  rw [skipSpace_append_space ws1 _ h1, skipSpace_cons_of_not_space 'n' _ (by decide)]
  simp [afterNull, skipSpace_nil_of_allSpace ws2 h2]

/-- A JSON array of string literals and `null`s gives a slice that is not nil. -/
theorem unmarshal_of_ArrayText (cs : List Char) (h : ArrayText true cs) :
    ∃ xs, unmarshal cs = some (some xs) := by
  rcases h with ⟨ws1, ws2, ws3, h1, h2, h3, rfl⟩ | ⟨ws1, ws2, es, ws3, h1, h2, h3, hes, rfl⟩
  · refine ⟨[], ?_⟩
    unfold unmarshal
    rw [skipSpace_append_space ws1 _ h1, skipSpace_cons_of_not_space '[' _ (by decide),
      afterNull_of_head '[' _ (by decide)]
    simp only [if_true]
    rw [skipSpace_append_space ws2 _ h2, skipSpace_cons_of_not_space ']' _ (by decide)]
    simp [skipSpace_nil_of_allSpace ws3 h3]
  · obtain ⟨xs, hxs⟩ := scanElements_complete es hes ws3
    refine ⟨xs, ?_⟩
    obtain ⟨c, r, hr, hc⟩ := ElementsText_head true es hes
    unfold unmarshal
    rw [skipSpace_append_space ws1 _ h1, skipSpace_cons_of_not_space '[' _ (by decide),
      afterNull_of_head '[' _ (by decide)]
    simp only [if_true]
    have hsk : skipSpace (ws2 ++ (es ++ ']' :: ws3)) = c :: (r ++ ']' :: ws3) := by
      rw [skipSpace_append_space ws2 _ h2, hr, List.cons_append,
        skipSpace_cons_of_not_space c _ (isSpace_of_head c hc).1]
    rw [hsk]
    simp only [(isSpace_of_head c hc).2, if_false]
    have hfu := hxs (c :: (r ++ ']' :: ws3)).length (by rw [hr]; simp)
    rw [hr, List.cons_append] at hfu
    rw [hfu]
    simp [skipSpace_nil_of_allSpace ws3 h3]

/-- Completeness of the decoder: the text `null` and every JSON array of string literals
and `null`s is taken. -/
theorem unmarshal_complete (cs : List Char) (h : AcceptedText cs) :
    ∃ S, unmarshal cs = some S := by
  rcases h with h | h
  · exact ⟨none, unmarshal_of_NullText cs h⟩
  · obtain ⟨xs, hxs⟩ := unmarshal_of_ArrayText cs h
    exact ⟨some xs, hxs⟩

/-- The decoder takes a text exactly when it is the text `null` or a JSON array of string
literals and `null`s. -/
theorem unmarshal_isSome_iff (cs : List Char) :
    (∃ S, unmarshal cs = some S) ↔ AcceptedText cs :=
  ⟨fun ⟨S, h⟩ => unmarshal_sound cs S h, unmarshal_complete cs⟩

/-! ## Encodings of a list of strings among the texts taken -/

theorem ElementText_mono (e : List Char) (h : ElementText false e) : ElementText true e := by
  rcases h with h | ⟨h, _⟩
  · exact Or.inl h
  · cases h

theorem ElementsText_mono (es : List Char) (h : ElementsText false es) :
    ElementsText true es := by
  induction h with
  | last e ws cs he hws hcs => exact ElementsText.last e ws cs (ElementText_mono e he) hws hcs
  | more e ws1 ws2 rest cs he h1 h2 _ hcs ih =>
    exact ElementsText.more e ws1 ws2 rest cs (ElementText_mono e he) h1 h2 ih hcs

/-- An encoding of a list of strings is among the texts the decoder takes. -/
theorem StringListText_accepted (cs : List Char) (h : StringListText cs) :
    ArrayText true cs := by
  rcases h with h | ⟨ws1, ws2, es, ws3, h1, h2, h3, hes, hcs⟩
  · exact Or.inl h
  · exact Or.inr ⟨ws1, ws2, es, ws3, h1, h2, h3, ElementsText_mono es hes, hcs⟩

theorem ArrayText_mem_bracket (nulls : Bool) (cs : List Char) (h : ArrayText nulls cs) :
    '[' ∈ cs := by
  rcases h with ⟨ws1, ws2, ws3, _, _, _, rfl⟩ | ⟨ws1, ws2, es, ws3, _, _, _, _, rfl⟩ <;> simp

theorem allSpace_not_mem_n (ws : List Char) (h : allSpace ws) : 'n' ∉ ws := by
  intro hn
  rcases h 'n' hn with h | h | h | h <;> revert h <;> decide

theorem ElementsText_false_head (es : List Char) (h : ElementsText false es) :
    '"' ∈ es := by
  cases h with
  | last e ws cs he _ hcs =>
    rcases he with ⟨body, _, rfl⟩ | ⟨hf, _⟩
    · rw [hcs]; simp
    · cases hf
  | more e ws1 ws2 rest cs he _ _ _ hcs =>
    rcases he with ⟨body, _, rfl⟩ | ⟨hf, _⟩
    · rw [hcs]; simp
    · cases hf

/-- An encoding of a list of strings in which the letter `n` occurs has a quote. -/
theorem StringListText_quote_of_n (cs : List Char) (h : StringListText cs) (hn : 'n' ∈ cs) :
    '"' ∈ cs := by
  rcases h with ⟨ws1, ws2, ws3, h1, h2, h3, rfl⟩ | ⟨ws1, ws2, es, ws3, _, _, _, hes, rfl⟩
  · exfalso
    simp only [List.mem_append, List.mem_cons] at hn
    rcases hn with hn | hn | hn | hn | hn
    · exact allSpace_not_mem_n ws1 h1 hn
    · revert hn; decide
    · exact allSpace_not_mem_n ws2 h2 hn
    · revert hn; decide
    · exact allSpace_not_mem_n ws3 h3 hn
  · have := ElementsText_false_head es hes
    simp [this]

/-! ## C8: what `readActiveFile` makes of a file that is not an encoding of a list -/

/-- C8 as stated fails on three files that exist and are not a well-formed encoding of a
list of strings: a file of length zero and the text `null` give nil, nil, and the array
`[null]` gives the list of the one empty name, each time without an error. -/
theorem unlisted_texts_read_without_error :
    (sysDisk.readActive ⟨["org.a"], some ""⟩ = FileRead.data "" ∧
      ¬ StringListText "".data ∧
      readActiveFile sysDisk ⟨["org.a"], some ""⟩ = Except.ok none) ∧
    (¬ StringListText "null".data ∧
      readActiveFile sysDisk ⟨["org.a"], some "null"⟩ = Except.ok none) ∧
    (¬ StringListText "[null]".data ∧
      readActiveFile sysDisk ⟨["org.a"], some "[null]"⟩ = Except.ok (some [""])) := by
  refine ⟨⟨rfl, ?_, by decide⟩, ⟨?_, by decide⟩, ?_, by decide⟩
  · intro h
    have := ArrayText_mem_bracket false _ h
    revert this
    decide
  · intro h
    have := ArrayText_mem_bracket false _ h
    revert this
    decide
  · intro h
    have := StringListText_quote_of_n _ h (by decide)
    revert this
    decide

/-- C8, amended: for an `active.json` that exists, `readActiveFile` returns an error, the
parse error, exactly when the content is not of length zero and is neither the JSON text
`null` nor a JSON array of string literals and `null`s; it then returns no list.  A
well-formed encoding of a list of strings, and likewise an array in which `null` stands
for some elements, gives a list and no error; a file of length zero and the text `null`
give nil, nil, like an absent file; and whatever is returned without an error is what the
decoder left, or nil for the file of length zero. -/
theorem corrupt_nonempty_file_is_an_error (σ : Type) (d : Disk σ) (s : σ) (content : String)
    (h : d.readActive s = FileRead.data content) :
    (readActiveFile d s = Except.error Err.parseFailed ↔
      content.data ≠ [] ∧ ¬ AcceptedText content.data) ∧
    (∀ e, readActiveFile d s = Except.error e →
      e = Err.parseFailed ∧ ∀ S, readActiveFile d s ≠ Except.ok S) ∧
    (StringListText content.data → ∃ xs, readActiveFile d s = Except.ok (some xs)) ∧
    (ArrayText true content.data → ∃ xs, readActiveFile d s = Except.ok (some xs)) ∧
    (content.data = [] ∨ NullText content.data → readActiveFile d s = Except.ok none) ∧
    (∀ S, readActiveFile d s = Except.ok S →
      (content.data = [] ∧ S = none) ∨ (content.data ≠ [] ∧ unmarshal content.data = some S)) := by
  rw [readActiveFile_data d s content h]
  have harr : ArrayText true content.data →
      ∃ xs, (if content.data.length > 0 then
        match unmarshal content.data with
        | none => Except.error Err.parseFailed
        | some packages => Except.ok packages
      else Except.ok none : Except Err Slice) = Except.ok (some xs) := by
    intro ha
    obtain ⟨xs, hxs⟩ := unmarshal_of_ArrayText _ ha
    have hpos : content.data.length > 0 :=
      List.length_pos.2 (List.ne_nil_of_mem (ArrayText_mem_bracket true _ ha))
    exact ⟨xs, by rw [if_pos hpos, hxs]⟩
  by_cases h0 : content.data = []
  · have hlen : ¬ content.data.length > 0 := by simp [h0]
    rw [if_neg hlen] at harr ⊢
    refine ⟨⟨fun hc => (by cases hc), fun hc => absurd h0 hc.1⟩,
      fun e he => (by cases he), ?_, harr, fun _ => rfl, ?_⟩
    · intro hs
      exact harr (StringListText_accepted _ hs)
    · intro S hS
      cases hS
      exact Or.inl ⟨h0, rfl⟩
  · have hpos : content.data.length > 0 := List.length_pos.2 h0
    rw [if_pos hpos] at harr ⊢
    cases hu : unmarshal content.data with
    | none =>
      have hna : ¬ AcceptedText content.data := by
        intro ha
        obtain ⟨S, hS⟩ := unmarshal_complete _ ha
        rw [hu] at hS
        cases hS
      refine ⟨⟨fun _ => ⟨h0, hna⟩, fun _ => rfl⟩, ?_, ?_, ?_, ?_, ?_⟩
      · intro e he
        refine ⟨?_, fun S hS => by cases hS⟩
        cases he
        rfl
      · intro hs
        exact absurd (Or.inr (StringListText_accepted _ hs)) hna
      · intro ha
        exact absurd (Or.inr ha) hna
      · intro hz
        rcases hz with hz | hz
        · exact absurd hz h0
        · exact absurd (Or.inl hz) hna
      · intro S hS
        cases hS
    | some T =>
      have ha : AcceptedText content.data := unmarshal_sound _ T hu
      rw [hu] at harr
      refine ⟨⟨fun hc => (by cases hc), fun hc => absurd ha hc.2⟩, ?_, ?_, harr, ?_, ?_⟩
      · intro e he
        cases he
      · intro hs
        exact harr (StringListText_accepted _ hs)
      · intro hz
        rcases hz with hz | hz
        · exact absurd hz h0
        · have := unmarshal_of_NullText _ hz
          rw [hu] at this
          cases this
          rfl
      · intro S hS
        cases hS
        exact Or.inr ⟨h0, rfl⟩

/-- C8 on four corrupt files: an object, an array of numbers, an unterminated array and
plain text exist, are neither `null` nor an array of string literals and `null`s, and are
parse errors; and on the encoding of two names, which reads as those names. -/
theorem corrupt_nonempty_file_is_an_error_witness :
    sysDisk.readActive ⟨[], some "\x7b\"a\": 1\x7d"⟩ = FileRead.data "\x7b\"a\": 1\x7d" ∧
    ¬ AcceptedText "\x7b\"a\": 1\x7d".data ∧
    readActiveFile sysDisk ⟨[], some "\x7b\"a\": 1\x7d"⟩ = Except.error Err.parseFailed ∧
    readActiveFile sysDisk ⟨[], some "[1, 2]"⟩ = Except.error Err.parseFailed ∧
    readActiveFile sysDisk ⟨[], some "[\"org.a\""⟩ = Except.error Err.parseFailed ∧
    readActiveFile sysDisk ⟨[], some "org.a\n"⟩ = Except.error Err.parseFailed ∧
    readActiveFile sysDisk ⟨[], some "[\n  \"org.a\",\n  \"org.b\"\n]"⟩ =
      Except.ok (some ["org.a", "org.b"]) :=
  have hna : ¬ AcceptedText "\x7b\"a\": 1\x7d".data := fun ha => by
    obtain ⟨S, hS⟩ := unmarshal_complete _ ha
    have hu : unmarshal "\x7b\"a\": 1\x7d".data = none := by decide
    rw [hu] at hS
    cases hS
  ⟨rfl, hna,
    (corrupt_nonempty_file_is_an_error Sys sysDisk ⟨[], some "\x7b\"a\": 1\x7d"⟩ _ rfl).1.2
      ⟨by decide, hna⟩,
    by decide, by decide, by decide, by decide⟩

end Flatly
